import Mathlib

/-!
# Matching engine: order container and order book

A shallow embedding of `Engine_OrderContainer.hxx` (and of the `Deal` record of
`Engine_Deal.cpp`) together with theorems about it.  The class `OrderBook`, exercised by
`test_OrderBook.cpp`, is not among the files embedded: the part of it that the
properties need is modelled from the specification.  Every definition that does not
come from the code says so: its comment starts with `Modelled from the spec:`.

Conventions of the embedding

* A side of the book (`m_BidOrders`, `m_AskOrders`) is the list of its orders in the
  order of its price index (`bmi::get<price_tag>`): the front of the list is
  `Index.begin()`.  Its identity index is the lookup by `(client id, order id)` on the
  same list.
* The iteration of a side as a container (`container.begin()`, the range `for`) goes
  through its first index, whose declaration is not among the files embedded: the
  sequence in which the orders are then visited is a parameter `ord : IterationOrder` of
  every definition that depends on it, and the theorems hold for every such sequence.
* The event handler is the list of deals (or cancelled orders) handed to it, in
  emission order.
* A message passed by reference (`TOrder &`, `TOrderReplace &`) is returned together
  with the result.
* Prices and quantities (`Price`, `Quantity`: scalar wrappers over a non-negative
  integer, declared outside the files embedded here) are natural numbers; client and
  order ids (`std::uint32_t`) are natural numbers too, no arithmetic is done on them.
* `while` loops take a fuel argument; `none` means that the call does not return
  normally: the fuel ran out, an `assert(false)` was reached, `begin()` of an empty
  index was dereferenced, or a quantity subtraction went below zero.
-/

namespace exchange.engine

/-- Modelled from the spec: the way of an order; `MAX_WAY` stands for every value
outside `BUY` and `SELL` (the tests build `OrderWay::MAX_WAY` and `(OrderWay)27`). -/
inductive OrderWay
  | BUY
  | SELL
  | MAX_WAY
  deriving DecidableEq, Repr

/-- Modelled from the spec: the identity key `(client_id, order_id)` built by
`OrderIDGenerator`. -/
abbrev OrderKey := Nat × Nat

/-- Modelled from the spec: `OrderIDGenerator<TOrder>()(iClientId, iOrderId)`. -/
def OrderIDGenerator (iClientId iOrderId : Nat) : OrderKey := (iClientId, iOrderId)

/-- Modelled from the spec: the `Order` record, with the field order of its
constructor `{ way, quantity, price, order id, client id }` used in `Modify`. -/
structure Order where
  m_Way : OrderWay
  m_Qty : Nat
  m_Price : Nat
  m_OrderID : Nat
  m_ClientID : Nat
  deriving DecidableEq, Repr

/-- Modelled from the spec: the replace message: an existing order id, a replacement
order id, both under one client id, and a new price, way and quantity. -/
structure OrderReplace where
  m_Way : OrderWay
  m_Qty : Nat
  m_Price : Nat
  m_ExistingOrderID : Nat
  m_ReplacedOrderID : Nat
  m_ClientID : Nat
  deriving DecidableEq, Repr

/-- The key of a resting order: `OrderIDGenerator<TOrder>()(iOrder)`. -/
def Order.key (o : Order) : OrderKey := OrderIDGenerator o.m_ClientID o.m_OrderID

/-- The member `Order::SetQuantity`, applied through `OrderUpdaterSingle`. -/
def Order.SetQuantity (o : Order) (q : Nat) : Order := { o with m_Qty := q }

/-- The `Deal` record of `Engine_Deal.cpp`. -/
structure Deal where
  m_Reference : List Char
  m_Price : Nat
  m_Qty : Nat
  m_BuyerClientID : Nat
  m_BuyerOrderID : Nat
  m_SellerClientID : Nat
  m_SellerOrderID : Nat
  m_Timestamp : Nat
  deriving DecidableEq, Repr

/-- The constructor `Deal::Deal`: the reference is zero-initialised and the timestamp
is the reading `now` of the system clock. -/
def Deal.new (now : Nat) (iPrice : Nat) (iQty : Nat)
    (iBuyerClientID iBuyerOrderID iSellerClientID iSellerOrderID : Nat) : Deal :=
  { m_Reference := []
    m_Price := iPrice
    m_Qty := iQty
    m_BuyerClientID := iBuyerClientID
    m_BuyerOrderID := iBuyerOrderID
    m_SellerClientID := iSellerClientID
    m_SellerOrderID := iSellerOrderID
    m_Timestamp := now }

/-- The interface the templates `ProcessDeals` and `GetExecutableQuantity` use of their
`Msg` parameter, with `GetAggressorID` resolved per message type.  `RemoveQuantity`
only lowers the quantity: the laws say so. -/
class Msg (M : Type) where
  GetWay : M → OrderWay
  GetQuantity : M → Nat
  GetPrice : M → Nat
  GetClientID : M → Nat
  GetAggressorID : M → Nat
  RemoveQuantity : M → Nat → M
  way_remove : ∀ m q, GetWay (RemoveQuantity m q) = GetWay m
  qty_remove : ∀ m q, GetQuantity (RemoveQuantity m q) = GetQuantity m - q
  price_remove : ∀ m q, GetPrice (RemoveQuantity m q) = GetPrice m
  client_remove : ∀ m q, GetClientID (RemoveQuantity m q) = GetClientID m
  aggressor_remove : ∀ m q, GetAggressorID (RemoveQuantity m q) = GetAggressorID m
  remove_zero : ∀ m, RemoveQuantity m 0 = m
  remove_remove : ∀ m a b, RemoveQuantity (RemoveQuantity m a) b = RemoveQuantity m (a + b)

/-- An order as aggressor: `AggressorIDHelper<Msg, false>` returns `GetOrderID()`. -/
instance : Msg Order where
  GetWay o := o.m_Way
  GetQuantity o := o.m_Qty
  GetPrice o := o.m_Price
  GetClientID o := o.m_ClientID
  GetAggressorID o := o.m_OrderID
  RemoveQuantity o q := { o with m_Qty := o.m_Qty - q }
  way_remove _ _ := rfl
  qty_remove _ _ := rfl
  price_remove _ _ := rfl
  client_remove _ _ := rfl
  aggressor_remove _ _ := rfl
  remove_zero _ := rfl
  remove_remove o a b := by simp [Nat.sub_sub]

/-- A replace message as aggressor: `AggressorIDHelper<Msg, true>` returns
`GetReplacedOrderID()`. -/
instance : Msg OrderReplace where
  GetWay r := r.m_Way
  GetQuantity r := r.m_Qty
  GetPrice r := r.m_Price
  GetClientID r := r.m_ClientID
  GetAggressorID r := r.m_ReplacedOrderID
  RemoveQuantity r q := { r with m_Qty := r.m_Qty - q }
  way_remove _ _ := rfl
  qty_remove _ _ := rfl
  price_remove _ _ := rfl
  client_remove _ _ := rfl
  aggressor_remove _ _ := rfl
  remove_zero _ := rfl
  remove_remove r a b := by simp [Nat.sub_sub]

/-- Modelled from the spec: the key comparison of a side's price index: `std::less` on
the ask side (lowest price first), `std::greater` on the bid side (highest first). -/
inductive SortingPredicate
  | less
  | greater
  deriving DecidableEq, Repr

/-- The comparison `comp a b` of a sorting predicate. -/
def SortingPredicate.comp : SortingPredicate → Nat → Nat → Bool
  | .less, a, b => decide (a < b)
  | .greater, a, b => decide (b < a)

/-- The trait `ExecutableQtyPredHelper`: `std::less_equal` for a side sorted by
`std::less`, `std::greater_equal` otherwise. -/
def ExecutableQtyPredHelper : SortingPredicate → Nat → Nat → Bool
  | .less, a, b => decide (a ≤ b)
  | .greater, a, b => decide (b ≤ a)

/-- The container overload of `GetExecutableQuantity`: one pass over the price index,
adding up the quantity of every order whose price passes the predicate. -/
def GetExecutableQuantity (sp : SortingPredicate) (Orders : List Order) (iPrice : Nat) :
    Nat :=
  Orders.foldl
    (fun Qty order =>
      if ExecutableQtyPredHelper sp order.m_Price iPrice then Qty + order.m_Qty else Qty)
    0

/-- Position of a new element in an `ordered_non_unique` index: behind every element
that does not come strictly after it, so behind its equals. -/
def priceInsert (sp : SortingPredicate) (o : Order) : List Order → List Order
  | [] => [o]
  | x :: xs =>
    if sp.comp o.m_Price x.m_Price then o :: x :: xs else x :: priceInsert sp o xs

/-- The lookup `Container.find(OrderID)` through the identity index. -/
def findKey (Orders : List Order) (k : OrderKey) : Option Order :=
  Orders.find? (fun o => decide (o.key = k))

/-- The call `Container.insert(order)`: refused (second component `false`, container
unchanged) when the unique identity index already holds the key. -/
def sideInsert (sp : SortingPredicate) (Orders : List Order) (o : Order) :
    List Order × Bool :=
  match findKey Orders o.key with
  | some _ => (Orders, false)
  | none => (priceInsert sp o Orders, true)

/-- The erasure of the element carrying key `k`: `Container.erase(iterator)` for the
iterator returned by `find`, and `Container.erase(key)`. -/
def eraseKey (k : OrderKey) : List Order → List Order
  | [] => []
  | x :: xs => if x.key = k then xs else x :: eraseKey k xs

/-- The iteration of a side as a container (`container.begin()`,
`for (auto & order : m_AskOrders)`), that is through its first index and not through
`bmi::get<price_tag>`.  The index list is declared in `Engine_OrderContainer.h`, which is
not among the files embedded; the code calls `find(OrderID)` and `erase(key)` on the
container itself, so the first index is the identity index, and the sequence in which
it is iterated is left open here: for a side whose price index reads `l`, the orders are
visited in the sequence `visit l`, every order once. -/
structure IterationOrder where
  visit : List Order → List Order
  perm : ∀ l : List Order, (visit l).Perm l

/-- The deal built in the body of `ProcessDeals`: the order hit is the buyer when its
way is `BUY`, the seller otherwise. -/
def GenerateDeal {M : Type} [Msg M] (now : Nat) (OrderToHit : Order) (iMsg : M)
    (ExecPrice : Nat) (ExecQty : Nat) : Deal :=
  if OrderToHit.m_Way = OrderWay.BUY then
    Deal.new now ExecPrice ExecQty OrderToHit.m_ClientID OrderToHit.m_OrderID
      (Msg.GetClientID iMsg) (Msg.GetAggressorID iMsg)
  else
    Deal.new now ExecPrice ExecQty (Msg.GetClientID iMsg) (Msg.GetAggressorID iMsg)
      OrderToHit.m_ClientID OrderToHit.m_OrderID

/-- The container overload of `ProcessDeals`: the loop over the front of the price
index.  `clock i` is the system clock read by the constructor of the `i`-th deal. -/
def ProcessDeals {M : Type} [Msg M] :
    Nat → (Nat → Nat) → List Order → M → Nat → Option (List Order × M × List Deal)
  | 0, _, Orders, iMsg, iMatchQty =>
    if 0 < iMatchQty then none else some (Orders, iMsg, [])
  | fuel + 1, clock, Orders, iMsg, iMatchQty =>
    if 0 < iMatchQty then
      match Orders with
      | [] => none
      | OrderToHit :: rest =>
        let ExecQty := min OrderToHit.m_Qty (Msg.GetQuantity iMsg)
        let ExecPrice := min OrderToHit.m_Price (Msg.GetPrice iMsg)
        let iMsg1 := Msg.RemoveQuantity iMsg ExecQty
        let Hit1 := OrderToHit.SetQuantity (OrderToHit.m_Qty - ExecQty)
        if iMatchQty < ExecQty then none
        else
          let pDeal := GenerateDeal (clock 0) Hit1 iMsg1 ExecPrice ExecQty
          let Orders1 := if Hit1.m_Qty = 0 then rest else Hit1 :: rest
          (ProcessDeals fuel (fun i => clock (i + 1)) Orders1 iMsg1 (iMatchQty - ExecQty)).map
            (fun r => (r.1, r.2.1, pDeal :: r.2.2))
    else some (Orders, iMsg, [])

/-- The state of an `OrderContainer`: both sides and the set of inserted keys. -/
structure OrderContainer where
  m_BidOrders : List Order
  m_AskOrders : List Order
  m_InsertedOrderIDs : List OrderKey
  deriving DecidableEq, Repr

/-- What a call leaves behind: the value returned, the container, the message passed
by reference and the deals handed to the event handler. -/
structure Outcome (M : Type) where
  ret : Bool
  book : OrderContainer
  msg : M
  deals : List Deal
  deriving DecidableEq, Repr

namespace OrderContainer

/-- The empty container. -/
def empty : OrderContainer := ⟨[], [], []⟩

/-- The message overload of `GetExecutableQuantity`. -/
def GetExecutableQuantity {M : Type} [Msg M] (c : OrderContainer) (iMsg : M)
    (iWay : OrderWay) : Nat :=
  match iWay with
  | .BUY =>
    let MaxQty := engine.GetExecutableQuantity .less c.m_AskOrders (Msg.GetPrice iMsg)
    min MaxQty (Msg.GetQuantity iMsg)
  | .SELL =>
    let MaxQty := engine.GetExecutableQuantity .greater c.m_BidOrders (Msg.GetPrice iMsg)
    min MaxQty (Msg.GetQuantity iMsg)
  | _ => 0

/-- The message overload of `ProcessDeals`: dispatch on the way of the aggressor. -/
def ProcessDeals {M : Type} [Msg M] (fuel : Nat) (clock : Nat → Nat) (c : OrderContainer)
    (iMsg : M) (iWay : OrderWay) (iMatchQty : Nat) :
    Option (OrderContainer × M × List Deal) :=
  match iWay with
  | .BUY =>
    (engine.ProcessDeals fuel clock c.m_AskOrders iMsg iMatchQty).map
      (fun r => ({ c with m_AskOrders := r.1 }, r.2.1, r.2.2))
  | .SELL =>
    (engine.ProcessDeals fuel clock c.m_BidOrders iMsg iMatchQty).map
      (fun r => ({ c with m_BidOrders := r.1 }, r.2.1, r.2.2))
  | _ => none

/-- The method `AuctionInsert`: insertion into the side named by the way of the
order. -/
def AuctionInsert (c : OrderContainer) (iOrder : Order) : Option (OrderContainer × Bool) :=
  match iOrder.m_Way with
  | .BUY =>
    let r := sideInsert .greater c.m_BidOrders iOrder
    some ({ c with m_BidOrders := r.1 }, r.2)
  | .SELL =>
    let r := sideInsert .less c.m_AskOrders iOrder
    some ({ c with m_AskOrders := r.1 }, r.2)
  | _ => none

/-- The method `Insert`. -/
def Insert (fuel : Nat) (clock : Nat → Nat) (c : OrderContainer) (iOrder : Order)
    (Match : Bool) : Option (Outcome Order) :=
  let OrderID := iOrder.key
  if OrderID ∈ c.m_InsertedOrderIDs then some ⟨false, c, iOrder, []⟩
  else
    let matched : Option (OrderContainer × Order × List Deal) :=
      if Match then
        let MatchQty := min (c.GetExecutableQuantity iOrder iOrder.m_Way) iOrder.m_Qty
        if MatchQty ≠ 0 then c.ProcessDeals fuel clock iOrder iOrder.m_Way MatchQty
        else some (c, iOrder, [])
      else some (c, iOrder, [])
    matched.bind fun s =>
      if s.2.1.m_Qty ≠ 0 then
        (s.1.AuctionInsert s.2.1).bind fun a =>
          if a.2 = false then some ⟨false, a.1, s.2.1, s.2.2⟩
          else
            some ⟨true, { a.1 with m_InsertedOrderIDs := a.1.m_InsertedOrderIDs.insert OrderID },
              s.2.1, s.2.2⟩
      else
        some ⟨true, { s.1 with m_InsertedOrderIDs := s.1.m_InsertedOrderIDs.insert OrderID },
          s.2.1, s.2.2⟩

/-- The method `Delete`: `1 == erase(key)` on the side named by the way. -/
def Delete (c : OrderContainer) (iOrderId iClientId : Nat) (iWay : OrderWay) :
    Option (Bool × OrderContainer) :=
  let k := OrderIDGenerator iClientId iOrderId
  match iWay with
  | .BUY =>
    some ((findKey c.m_BidOrders k).isSome, { c with m_BidOrders := eraseKey k c.m_BidOrders })
  | .SELL =>
    some ((findKey c.m_AskOrders k).isSome, { c with m_AskOrders := eraseKey k c.m_AskOrders })
  | _ => none

/-- The lambda `ProcessModify` of `Modify`: the matching pass of the replace message;
`false` when the pass has consumed its whole quantity. -/
def ProcessModify (fuel : Nat) (clock : Nat → Nat) (c : OrderContainer)
    (iOrderReplace : OrderReplace) (Match : Bool) :
    Option (Bool × OrderContainer × OrderReplace × List Deal) :=
  if Match then
    let MaxExecQty := c.GetExecutableQuantity iOrderReplace iOrderReplace.m_Way
    let MatchQty := min MaxExecQty iOrderReplace.m_Qty
    if MatchQty ≠ 0 then
      (c.ProcessDeals fuel clock iOrderReplace iOrderReplace.m_Way MatchQty).map fun s =>
        if s.2.1.m_Qty = 0 then (false, s.1, s.2.1, s.2.2) else (true, s.1, s.2.1, s.2.2)
    else some (true, c, iOrderReplace, [])
  else some (true, c, iOrderReplace, [])

/-- The lambda `ApplyModify` of `Modify`, for the side read by `side` and written by
`setSide`, sorted by `sp`. -/
def ApplyModify (fuel : Nat) (clock : Nat → Nat) (c : OrderContainer)
    (iOrderReplace : OrderReplace) (Match : Bool) (sp : SortingPredicate)
    (side : OrderContainer → List Order)
    (setSide : OrderContainer → List Order → OrderContainer) :
    Option (Outcome OrderReplace) :=
  let OrderID := OrderIDGenerator iOrderReplace.m_ClientID iOrderReplace.m_ExistingOrderID
  match findKey (side c) OrderID with
  | some _ =>
    (ProcessModify fuel clock c iOrderReplace Match).map fun p =>
      let c1 := p.2.1
      let msg1 := p.2.2.1
      let Container1 :=
        if p.1 then
          let ReplacedOrder : Order :=
            ⟨msg1.m_Way, msg1.m_Qty, msg1.m_Price, msg1.m_ReplacedOrderID, msg1.m_ClientID⟩
          (sideInsert sp (eraseKey OrderID (side c1)) ReplacedOrder).1
        else eraseKey OrderID (side c1)
      let c2 := setSide c1 Container1
      ⟨true, { c2 with m_InsertedOrderIDs := c2.m_InsertedOrderIDs.insert OrderID }, msg1,
        p.2.2.2⟩
  | none => some ⟨false, c, iOrderReplace, []⟩

/-- The method `Modify`. -/
def Modify (fuel : Nat) (clock : Nat → Nat) (c : OrderContainer)
    (iOrderReplace : OrderReplace) (Match : Bool) : Option (Outcome OrderReplace) :=
  let NewOrderID := OrderIDGenerator iOrderReplace.m_ClientID iOrderReplace.m_ReplacedOrderID
  if NewOrderID ∈ c.m_InsertedOrderIDs then some ⟨false, c, iOrderReplace, []⟩
  else
    match iOrderReplace.m_Way with
    | .BUY =>
      ApplyModify fuel clock c iOrderReplace Match .greater (fun b => b.m_BidOrders)
        (fun b l => { b with m_BidOrders := l })
    | .SELL =>
      ApplyModify fuel clock c iOrderReplace Match .less (fun b => b.m_AskOrders)
        (fun b l => { b with m_AskOrders := l })
    | _ => none

/-- The lambda `DoCancelAllOrders`, on the iteration sequence of a side: as long as the
side is not empty its first order is handed to `OnUnsolicitedCancelledOrder` and
erased, which leaves the other orders in their sequence.  Returns the orders handed
over and the side left. -/
def DoCancelAllOrders : List Order → List Order × List Order
  | [] => ([], [])
  | OrderIt :: rest => (OrderIt :: (DoCancelAllOrders rest).1, (DoCancelAllOrders rest).2)

/-- The method `CancelAllOrders`: the ask side is drained first, then the bid side, each
from the `begin()` of the container.  Returns the container left and the cancelled
orders in emission order. -/
def CancelAllOrders (ord : IterationOrder) (c : OrderContainer) :
    OrderContainer × List Order :=
  let a := DoCancelAllOrders (ord.visit c.m_AskOrders)
  let b := DoCancelAllOrders (ord.visit c.m_BidOrders)
  ({ c with m_AskOrders := a.2, m_BidOrders := b.2 }, a.1 ++ b.1)

/-- The method `GetTheoriticalAuctionInformations`: one pass over the ask side, iterated
as a container, keeping the first price with the largest `min(BidQty, AskQty)`; the
result is `(OpenPrice, MaxQty)`. -/
def GetTheoriticalAuctionInformations (ord : IterationOrder) (c : OrderContainer) :
    Nat × Nat :=
  (ord.visit c.m_AskOrders).foldl
    (fun (acc : Nat × Nat) order =>
      let BidQty := engine.GetExecutableQuantity .greater c.m_BidOrders order.m_Price
      let AskQty := engine.GetExecutableQuantity .less c.m_AskOrders order.m_Price
      let CurrentQty := min BidQty AskQty
      if acc.2 < CurrentQty then (order.m_Price, CurrentQty) else acc)
    (0, 0)

/-- The inner loop of `MatchOrders`: the front bid `BidOrder` is filled against the
front of the ask side.  `clock i` is the system clock read by the constructor of the
`i`-th deal. -/
def MatchOrdersInner (MatchingPrice : Nat) :
    Nat → (Nat → Nat) → Order → List Order → Nat →
      Option (Order × List Order × Nat × List Deal)
  | 0, _, BidOrder, Asks, MatchingQty =>
    if 0 < BidOrder.m_Qty ∧ 0 < MatchingQty then none
    else some (BidOrder, Asks, MatchingQty, [])
  | fuel + 1, clock, BidOrder, Asks, MatchingQty =>
    if 0 < BidOrder.m_Qty ∧ 0 < MatchingQty then
      match Asks with
      | [] => none
      | AskOrder :: rest =>
        let ExecutedQty := min AskOrder.m_Qty BidOrder.m_Qty
        let Ask1 := AskOrder.SetQuantity (AskOrder.m_Qty - ExecutedQty)
        let Bid1 := BidOrder.SetQuantity (BidOrder.m_Qty - ExecutedQty)
        let pDeal := Deal.new (clock 0) MatchingPrice ExecutedQty Bid1.m_ClientID Bid1.m_OrderID
          Ask1.m_ClientID Ask1.m_OrderID
        if MatchingQty < ExecutedQty then none
        else
          let Asks1 := if Ask1.m_Qty = 0 then rest else Ask1 :: rest
          (MatchOrdersInner MatchingPrice fuel (fun i => clock (i + 1)) Bid1 Asks1
              (MatchingQty - ExecutedQty)).map
            (fun r => (r.1, r.2.1, r.2.2.1, pDeal :: r.2.2.2))
    else some (BidOrder, Asks, MatchingQty, [])

/-- The outer loop of `MatchOrders`: takes the front bid, runs the inner loop on it and
erases it once its quantity is zero. -/
def MatchOrdersLoop (MatchingPrice : Nat) :
    Nat → (Nat → Nat) → List Order → List Order → Nat →
      Option (List Order × List Order × List Deal)
  | 0, _, Bids, Asks, MatchingQty =>
    if 0 < MatchingQty then none else some (Bids, Asks, [])
  | fuel + 1, clock, Bids, Asks, MatchingQty =>
    if 0 < MatchingQty then
      match Bids with
      | [] => none
      | BidOrder :: rest =>
        (MatchOrdersInner MatchingPrice fuel clock BidOrder Asks MatchingQty).bind fun r =>
          let Bids1 := if r.1.m_Qty = 0 then rest else r.1 :: rest
          (MatchOrdersLoop MatchingPrice fuel (fun i => clock (i + r.2.2.2.length)) Bids1 r.2.1
              r.2.2.1).map
            (fun t => (t.1, t.2.1, r.2.2.2 ++ t.2.2))
    else some (Bids, Asks, [])

/-- The method `MatchOrders`.  Returns the container left and the deals emitted. -/
def MatchOrders (ord : IterationOrder) (fuel : Nat) (clock : Nat → Nat)
    (c : OrderContainer) : Option (OrderContainer × List Deal) :=
  let OpeningInformation := c.GetTheoriticalAuctionInformations ord
  let MatchingPrice := OpeningInformation.1
  let MatchingQty := OpeningInformation.2
  (MatchOrdersLoop MatchingPrice fuel clock c.m_BidOrders c.m_AskOrders MatchingQty).map
    (fun r => ({ c with m_BidOrders := r.1, m_AskOrders := r.2.1 }, r.2.2))

end OrderContainer

/-- A call of one of the mutating methods of the container. -/
inductive Op
  | Insert (iOrder : Order) (Match : Bool)
  | Modify (iOrderReplace : OrderReplace) (Match : Bool)
  | Delete (iOrderId iClientId : Nat) (iWay : OrderWay)
  | CancelAllOrders
  | MatchOrders
  deriving DecidableEq, Repr

/-- The container left by a call, when the call returns. -/
def OrderContainer.apply (ord : IterationOrder) (fuel : Nat) (clock : Nat → Nat)
    (c : OrderContainer) : Op → Option OrderContainer
  | .Insert iOrder Match => (c.Insert fuel clock iOrder Match).map (fun r => r.book)
  | .Modify iOrderReplace Match => (c.Modify fuel clock iOrderReplace Match).map (fun r => r.book)
  | .Delete iOrderId iClientId iWay => (c.Delete iOrderId iClientId iWay).map (fun r => r.2)
  | .CancelAllOrders => some (c.CancelAllOrders ord).1
  | .MatchOrders => (c.MatchOrders ord fuel clock).map (fun r => r.1)

/-- The container `c2` is reached from `c1` by a finite sequence of returning calls. -/
inductive Reaches (ord : IterationOrder) : OrderContainer → OrderContainer → Prop
  | refl (c : OrderContainer) : Reaches ord c c
  | step {c1 c2 c3 : OrderContainer} (fuel : Nat) (clock : Nat → Nat) (op : Op) :
      Reaches ord c1 c2 → c2.apply ord fuel clock op = some c3 → Reaches ord c1 c3

/-- The side a message of way `iWay` is matched against. -/
def OrderContainer.opposite (c : OrderContainer) : OrderWay → List Order
  | .BUY => c.m_AskOrders
  | .SELL => c.m_BidOrders
  | _ => []

/-- The side an order of way `iWay` rests on. -/
def OrderContainer.own (c : OrderContainer) : OrderWay → List Order
  | .BUY => c.m_BidOrders
  | .SELL => c.m_AskOrders
  | _ => []

/-- The sorting predicate of the side opposite to `iWay`. -/
def oppositePred : OrderWay → SortingPredicate
  | .BUY => .less
  | _ => .greater

/-- Total quantity resting in a list of orders. -/
def totalQty (l : List Order) : Nat := (l.map (fun o => o.m_Qty)).sum

/-- A side is in price-priority order for `sp`: no order comes strictly after a later
one (non-decreasing prices for `less`, non-increasing for `greater`). -/
def PriceSorted (sp : SortingPredicate) (l : List Order) : Prop :=
  l.Pairwise (fun a b => sp.comp b.m_Price a.m_Price = false)

/-- Well-formed container: each side is in price-priority order and every resting
quantity is positive. -/
def WellFormed (c : OrderContainer) : Prop :=
  PriceSorted .greater c.m_BidOrders ∧ PriceSorted .less c.m_AskOrders ∧
    (∀ o ∈ c.m_BidOrders, 0 < o.m_Qty) ∧ (∀ o ∈ c.m_AskOrders, 0 < o.m_Qty)

instance (sp : SortingPredicate) (l : List Order) : Decidable (PriceSorted sp l) := by
  unfold PriceSorted; infer_instance

instance (c : OrderContainer) : Decidable (WellFormed c) := by
  unfold WellFormed; infer_instance

/-! ## Notions used to state the properties -/

/-- An order resting opposite to an aggressor of way `iWay` is executable at limit
`iPrice`: an ask priced at or below the limit of a buyer, a bid priced at or above the
limit of a seller. -/
def executable (iWay : OrderWay) (iPrice : Nat) (o : Order) : Bool :=
  match iWay with
  | .BUY => decide (o.m_Price ≤ iPrice)
  | .SELL => decide (iPrice ≤ o.m_Price)
  | _ => false

/-- The deals emitted and the orders left when an aggressor of remaining quantity `a`
takes the front of `l` order by order: every order up to its quantity, the last one
possibly in part. -/
def consume {M : Type} [Msg M] (iMsg : M) : (Nat → Nat) → List Order → Nat → List Deal × List Order
  | _, [], _ => ([], [])
  | clock, o :: os, a =>
    if a = 0 then ([], o :: os)
    else if o.m_Qty ≤ a then
      (GenerateDeal (clock 0) o iMsg (min o.m_Price (Msg.GetPrice iMsg)) o.m_Qty
          :: (consume iMsg (fun i => clock (i + 1)) os (a - o.m_Qty)).1,
        (consume iMsg (fun i => clock (i + 1)) os (a - o.m_Qty)).2)
    else
      ([GenerateDeal (clock 0) o iMsg (min o.m_Price (Msg.GetPrice iMsg)) a],
        o.SetQuantity (o.m_Qty - a) :: os)

/-- Replace the side opposite to an aggressor of way `iWay`. -/
def OrderContainer.setOpposite (c : OrderContainer) (iWay : OrderWay) (l : List Order) :
    OrderContainer :=
  match iWay with
  | .BUY => { c with m_AskOrders := l }
  | .SELL => { c with m_BidOrders := l }
  | _ => c

/-- Total quantity of a list of deals. -/
def dealQty (ds : List Deal) : Nat := (ds.map (fun d => d.m_Qty)).sum

/-- The side matched against, split into the orders executable at the limit of the
message (its front, on a sorted side) and the others. -/
def execFront (c : OrderContainer) (iWay : OrderWay) (P : Nat) : List Order :=
  (c.opposite iWay).takeWhile (executable iWay P)

/-- The orders behind the executable front. -/
def execBack (c : OrderContainer) (iWay : OrderWay) (P : Nat) : List Order :=
  (c.opposite iWay).dropWhile (executable iWay P)

/-- The sorting predicate of the side an order of way `iWay` rests on. -/
def ownPred : OrderWay → SortingPredicate
  | .BUY => .greater
  | _ => .less

/-- Replace the side an order of way `iWay` rests on. -/
def OrderContainer.setOwn (c : OrderContainer) (iWay : OrderWay) (l : List Order) :
    OrderContainer :=
  match iWay with
  | .BUY => { c with m_BidOrders := l }
  | .SELL => { c with m_AskOrders := l }
  | _ => c

/-- The deal `d` records the resting order `r` on the side of `r` (buyer when `r` is a
BUY, seller otherwise) and the aggressor of key `agg` on the other side. -/
def RestingIn (agg : OrderKey) (d : Deal) (r : Order) : Prop :=
  if r.m_Way = OrderWay.BUY then
    OrderIDGenerator d.m_BuyerClientID d.m_BuyerOrderID = r.key ∧
      OrderIDGenerator d.m_SellerClientID d.m_SellerOrderID = agg
  else
    OrderIDGenerator d.m_SellerClientID d.m_SellerOrderID = r.key ∧
      OrderIDGenerator d.m_BuyerClientID d.m_BuyerOrderID = agg

/-- The deal `d` fills the resting order `r` completely. -/
def FullFill (agg : OrderKey) (d : Deal) (r : Order) : Prop :=
  RestingIn agg d r ∧ d.m_Qty = r.m_Qty

/-- Price-time priority of one matching pass: the deals, in emission order, hit the
orders of a front segment of the old side `old`, in the order of the side; every
order hit is filled completely and removed, except possibly the last one, which then
stays at the front of the new side `new` with its quantity reduced; the orders behind
are untouched and keep their order. -/
def PriorityFill (agg : OrderKey) (old : List Order) (deals : List Deal) (new : List Order) :
    Prop :=
  ∃ filled rest : List Order, old = filled ++ rest ∧
    ((List.Forall₂ (FullFill agg) deals filled ∧ new = rest) ∨
      (∃ (ds : List Deal) (dl : Deal) (r : Order) (rest1 : List Order),
        deals = ds ++ [dl] ∧ rest = r :: rest1 ∧ List.Forall₂ (FullFill agg) ds filled ∧
          RestingIn agg dl r ∧ 0 < dl.m_Qty ∧ dl.m_Qty < r.m_Qty ∧
          new = r.SetQuantity (r.m_Qty - dl.m_Qty) :: rest1))

/-- The key under which a message appears in its deals. -/
def aggressorKey {M : Type} [Msg M] (iMsg : M) : OrderKey :=
  OrderIDGenerator (Msg.GetClientID iMsg) (Msg.GetAggressorID iMsg)

/-- The deals `ds` were built, one after the other, against the orders at the front of
`l`, each with the quantity `a` the aggressor had left at that moment. -/
def HitTrace {M : Type} [Msg M] (iMsg : M) : List Deal → List Order → Nat → Prop
  | [], _, _ => True
  | _ :: _, [], _ => False
  | d :: ds, r :: rs, a =>
    (∃ now, d = GenerateDeal now r iMsg (min r.m_Price (Msg.GetPrice iMsg)) (min r.m_Qty a)) ∧
      HitTrace iMsg ds rs (a - min r.m_Qty a)

/-- The price rule the loop applies to the deal `d` built against the resting order `r`
for an aggressor of limit `limit`: the price of the resting order when it is lower than
the limit, the limit otherwise. -/
def LowerPriceRule (limit : Nat) (d : Deal) (r : Order) : Prop :=
  (r.m_Price < limit → d.m_Price = r.m_Price) ∧ (¬ r.m_Price < limit → d.m_Price = limit)

/-- The parties and the quantity of each deal of a matching pass, deal by deal against
the opposite side `l`: the deal quantity is the minimum of the quantity of the resting
order and of the quantity `a` the aggressor has left; a resting BUY is the buyer and
the aggressor `(aggClient, aggId)` the seller; a resting SELL is the seller and the
aggressor the buyer. -/
def DealRoles (aggClient aggId : Nat) : List Deal → List Order → Nat → Prop
  | [], _, _ => True
  | _ :: _, [], _ => False
  | d :: ds, r :: rs, a =>
    d.m_Qty = min r.m_Qty a ∧
    (r.m_Way = OrderWay.BUY →
      d.m_BuyerClientID = r.m_ClientID ∧ d.m_BuyerOrderID = r.m_OrderID ∧
        d.m_SellerClientID = aggClient ∧ d.m_SellerOrderID = aggId) ∧
    (r.m_Way = OrderWay.SELL →
      d.m_SellerClientID = r.m_ClientID ∧ d.m_SellerOrderID = r.m_OrderID ∧
        d.m_BuyerClientID = aggClient ∧ d.m_BuyerOrderID = aggId) ∧
    DealRoles aggClient aggId ds rs (a - d.m_Qty)

/-- A clock that always reads `0`. -/
def clock0 : Nat → Nat := fun _ => 0

/-- The iteration order of a container whose first index would be the price index: a
side is visited in price-priority order. -/
def priceIteration : IterationOrder := ⟨fun l => l, fun l => List.Perm.refl l⟩

/-- Ascending keys `(client id, order id)`. -/
def keyBefore (a b : Order) : Bool :=
  decide (a.m_ClientID < b.m_ClientID) ||
    (decide (a.m_ClientID = b.m_ClientID) && decide (a.m_OrderID ≤ b.m_OrderID))

/-- The iteration order of a container whose first index is an identity index ordered
by key: a side is visited by ascending key `(client id, order id)`. -/
def keyIteration : IterationOrder :=
  ⟨fun l => l.insertionSort (fun a b => keyBefore a b = true),
    fun l => List.perm_insertionSort _ l⟩

/-- A book with a resting bid under key `(1, 6)` while the inserted set only holds
`(1, 5)`: the state left by inserting order 5 of client 1 and replacing it by order 6. -/
def bookAfterReplace : OrderContainer :=
  ⟨[⟨.BUY, 100, 150, 6, 1⟩], [], [(1, 5)]⟩

/-- A book with four asks on three price levels and no bid. -/
def bookFourAsks : OrderContainer :=
  ⟨[], [⟨.SELL, 10, 100, 1, 1⟩, ⟨.SELL, 20, 100, 2, 1⟩, ⟨.SELL, 30, 101, 3, 1⟩,
    ⟨.SELL, 5, 103, 4, 1⟩], [(1, 1), (1, 2), (1, 3), (1, 4)]⟩

/-- A book with one bid of 100 at 150. -/
def bookOneBid : OrderContainer :=
  ⟨[⟨.BUY, 100, 150, 5, 1⟩], [], [(1, 5)]⟩

/-- A book with two bids of 100 at 150, order 7 ahead of order 6, all of client 1: the
state left by inserting orders 5 and 7 and replacing order 5 by order 6. -/
def bookTwoBids : OrderContainer :=
  ⟨[⟨.BUY, 100, 150, 7, 1⟩, ⟨.BUY, 100, 150, 6, 1⟩], [], [(1, 7), (1, 5)]⟩

/-- A book with one bid of 100 at 150 (order 5 of client 1) and one ask of 10 at 160
(order 7 of client 2). -/
def bookBidAsk : OrderContainer :=
  ⟨[⟨.BUY, 100, 150, 5, 1⟩], [⟨.SELL, 10, 160, 7, 2⟩], [(1, 5), (2, 7)]⟩

/-- A book with one bid 10@101 and two asks that both let 10 trade: 10@100 (order 2 of
client 1) ahead of 5@101 (order 1 of client 1) in the price index. -/
def bookTie : OrderContainer :=
  ⟨[⟨.BUY, 10, 101, 3, 1⟩], [⟨.SELL, 10, 100, 2, 1⟩, ⟨.SELL, 5, 101, 1, 1⟩], []⟩

/-- An iteration order given by the keys alone, as that of an identity index: two sides
holding the same keys are visited in the same sequence of keys. -/
def IterationOrder.KeyDetermined (ord : IterationOrder) : Prop :=
  ∀ l1 l2 : List Order, (l1.map Order.key).Perm (l2.map Order.key) →
    (ord.visit l1).map Order.key = (ord.visit l2).map Order.key

/-- Two asks at 100 and 101, order 1 of client 1 at the lower price. -/
def bookAsksA : OrderContainer :=
  ⟨[], [⟨.SELL, 10, 100, 1, 1⟩, ⟨.SELL, 10, 101, 2, 1⟩], []⟩

/-- Two asks at 100 and 101, order 2 of client 1 at the lower price. -/
def bookAsksB : OrderContainer :=
  ⟨[], [⟨.SELL, 10, 100, 2, 1⟩, ⟨.SELL, 10, 101, 1, 1⟩], []⟩

/-- The book `bookTie` with the keys of its two asks swapped: 10@100 is order 1 of
client 1, 5@101 is order 2 of client 1. -/
def bookTieSwapped : OrderContainer :=
  ⟨[⟨.BUY, 10, 101, 3, 1⟩], [⟨.SELL, 10, 100, 1, 1⟩, ⟨.SELL, 5, 101, 2, 1⟩], []⟩

/-- The comparison `Deal::operator==`: when `rhs` is another object than `this`
(`same = false`) the price, the quantity and the four party ids are compared, when it
is the same object (`same = true`) the result is `true`. -/
def Deal.operatorEq (same : Bool) (lhs rhs : Deal) : Bool :=
  if same = false then
    decide (lhs.m_Price = rhs.m_Price) && decide (lhs.m_Qty = rhs.m_Qty) &&
      decide (lhs.m_BuyerClientID = rhs.m_BuyerClientID) &&
      decide (lhs.m_BuyerOrderID = rhs.m_BuyerOrderID) &&
      decide (lhs.m_SellerClientID = rhs.m_SellerClientID) &&
      decide (lhs.m_SellerOrderID = rhs.m_SellerOrderID)
  else true

/-- The six compared fields of two deals agree. -/
def Deal.SameTrade (a b : Deal) : Prop :=
  a.m_Price = b.m_Price ∧ a.m_Qty = b.m_Qty ∧ a.m_BuyerClientID = b.m_BuyerClientID ∧
    a.m_BuyerOrderID = b.m_BuyerOrderID ∧ a.m_SellerClientID = b.m_SellerClientID ∧
    a.m_SellerOrderID = b.m_SellerOrderID

/-- The keys of a side are pairwise distinct. -/
def KeysDistinct (l : List Order) : Prop := l.Pairwise (fun a b => a.key ≠ b.key)

/-- The quantity that can trade at price `p`: the minimum of the bid quantity executable
at `p` (bids priced at or above `p`) and of the ask quantity executable at `p` (asks
priced at or below `p`). -/
def OrderContainer.auctionQty (c : OrderContainer) (p : Nat) : Nat :=
  min (engine.GetExecutableQuantity .greater c.m_BidOrders p)
    (engine.GetExecutableQuantity .less c.m_AskOrders p)

/-- An entry `(order count, total quantity, price)` of the aggregated view. -/
abbrev LimitType := Nat × Nat × Nat

/-- The loop of the lambda `AggregatedViewHelper`, with its locals `CurrentPrice` and
`ContainerIndex`: a new entry is appended when the price changes, then the entry
`Container[ContainerIndex - 1]` is updated.  `ContainerIndex` is a `size_t`: the
subscript `0 - 1`, like any subscript outside the vector, is not a normal run. -/
def AggregatedViewLoop : List Order → Nat → Nat → List LimitType → Option (List LimitType)
  | [], _, _, Container => some Container
  | order :: rest, CurrentPrice, ContainerIndex, Container =>
    let Price := order.m_Price
    let ContainerIndex1 := if Price ≠ CurrentPrice then ContainerIndex + 1 else ContainerIndex
    let CurrentPrice1 := if Price ≠ CurrentPrice then Price else CurrentPrice
    let Container1 := if Price ≠ CurrentPrice then Container ++ [(0, 0, Price)] else Container
    if ContainerIndex1 = 0 then none
    else
      match Container1[ContainerIndex1 - 1]? with
      | none => none
      | some Limit =>
        AggregatedViewLoop rest CurrentPrice1 ContainerIndex1
          (Container1.set (ContainerIndex1 - 1) (Limit.1 + 1, Limit.2.1 + order.m_Qty, Limit.2.2))

/-- The lambda `AggregatedViewHelper` over the price index `Orders`, appending to
`Container`.  `sentinel` is the initial `CurrentPrice`,
`std::numeric_limits<price_type>::max()`, whose value depends on declarations outside
`Engine_OrderContainer.hxx`. -/
def AggregatedViewHelper (sentinel : Nat) (Orders : List Order) (Container : List LimitType) :
    Option (List LimitType) :=
  AggregatedViewLoop Orders sentinel 0 Container

/-- The method `AggregatedView`: the bid side, then the ask side.  Returns the two
output containers `(BidContainer, AskContainer)`; the order container is not written. -/
def OrderContainer.AggregatedView (sentinel : Nat) (c : OrderContainer)
    (BidContainer AskContainer : List LimitType) : Option (List LimitType × List LimitType) :=
  (AggregatedViewHelper sentinel c.m_BidOrders BidContainer).bind fun b =>
    (AggregatedViewHelper sentinel c.m_AskOrders AskContainer).map fun a => (b, a)

/-- The method `ByOrderView`: both price indexes are copied behind the output
containers.  Returns `(BidContainer, AskContainer)`. -/
def OrderContainer.ByOrderView (c : OrderContainer) (BidContainer AskContainer : List Order) :
    List Order × List Order :=
  (BidContainer ++ c.m_BidOrders, AskContainer ++ c.m_AskOrders)

/-- The entries of a run of orders of which `(n, s, p)` is the entry being filled: the
orders are grouped by runs of equal price. -/
def groupFrom : List Order → Nat → Nat → Nat → List LimitType
  | [], n, s, p => [(n, s, p)]
  | o :: rest, n, s, p =>
    if o.m_Price ≠ p then (n, s, p) :: groupFrom rest 1 o.m_Qty o.m_Price
    else groupFrom rest (n + 1) (s + o.m_Qty) p

/-- The grouping by price of a side given in price-priority order: one entry
`(order count, total quantity, price)` per run of equal prices. -/
def groupByPrice : List Order → List LimitType
  | [] => []
  | o :: rest => groupFrom rest 1 o.m_Qty o.m_Price

/-- A property `P` of a side that survives everything the container does to a side
sorted by `sp`: emptying it, erasing its front, lowering the quantity of its front to a
positive value, erasing a key, and inserting an order satisfying `Q` whose key is not on
the side. -/
structure SideClosed (sp : SortingPredicate) (Q : Order → Prop) (P : List Order → Prop) :
    Prop where
  nil : P []
  tail : ∀ o l, P (o :: l) → P l
  lower : ∀ o l q, P (o :: l) → 0 < q → q ≤ o.m_Qty → P (o.SetQuantity q :: l)
  erase : ∀ k l, P l → P (eraseKey k l)
  insert : ∀ o l, Q o → findKey l o.key = none → P l → P (priceInsert sp o l)

/-- The orders a call may insert satisfy `QB` (bid side) or `QA` (ask side): the order
of an `Insert` with whatever positive quantity is left of it, the replacement order of
a `Modify` with whatever quantity is left of it (positive if the requested one is). -/
def Op.Inserts (QB QA : Order → Prop) : Op → Prop
  | .Insert iOrder _ =>
    ∀ q, 0 < q → (iOrder.m_Way = .BUY → QB (iOrder.SetQuantity q)) ∧
      (iOrder.m_Way = .SELL → QA (iOrder.SetQuantity q))
  | .Modify r _ =>
    ∀ q, (0 < r.m_Qty → 0 < q) →
      (r.m_Way = .BUY → QB ⟨r.m_Way, q, r.m_Price, r.m_ReplacedOrderID, r.m_ClientID⟩) ∧
      (r.m_Way = .SELL → QA ⟨r.m_Way, q, r.m_Price, r.m_ReplacedOrderID, r.m_ClientID⟩)
  | _ => True

/-- A bid side is valid: distinct keys, every order a BUY with positive quantity and
price; likewise an ask side with SELL. -/
def SideValid (w : OrderWay) (l : List Order) : Prop :=
  KeysDistinct l ∧ ∀ o ∈ l, 0 < o.m_Qty ∧ 0 < o.m_Price ∧ o.m_Way = w

/-- A validated call: the message of an `Insert` or of a `Modify` has a positive
quantity, a positive price and the way BUY or SELL. -/
def Op.Validated : Op → Prop
  | .Insert iOrder _ =>
    0 < iOrder.m_Qty ∧ 0 < iOrder.m_Price ∧ (iOrder.m_Way = .BUY ∨ iOrder.m_Way = .SELL)
  | .Modify r _ => 0 < r.m_Qty ∧ 0 < r.m_Price ∧ (r.m_Way = .BUY ∨ r.m_Way = .SELL)
  | _ => True

/-- The container `c2` is reached from `c1` by a finite sequence of returning validated
calls. -/
inductive ReachesValidated (ord : IterationOrder) :
    OrderContainer → OrderContainer → Prop
  | refl (c : OrderContainer) : ReachesValidated ord c c
  | step {c1 c2 c3 : OrderContainer} (fuel : Nat) (clock : Nat → Nat) (op : Op) :
      ReachesValidated ord c1 c2 → op.Validated → c2.apply ord fuel clock op = some c3 →
      ReachesValidated ord c1 c3

/-- The side left when the quantity `a` has been filled from the front of `l`: every
order up to its quantity, removed once filled, the last one possibly in part. -/
def afterFill : List Order → Nat → List Order
  | [], _ => []
  | o :: os, a =>
    if a = 0 then o :: os
    else if o.m_Qty ≤ a then afterFill os (a - o.m_Qty)
    else o.SetQuantity (o.m_Qty - a) :: os

/-- The deals of an uncrossing at price `P`, one after the other: each deal pairs the
front bid with the front ask of the moment, for the smaller of their two quantities,
buyer the bid and seller the ask, priced `P`; both sides are then relieved of that
quantity.  The last two arguments are the sides left after the last deal. -/
inductive AuctionRun (P : Nat) :
    List Deal → List Order → List Order → List Order → List Order → Prop
  | nil (bids asks : List Order) : AuctionRun P [] bids asks bids asks
  | cons (now : Nat) (b : Order) (bs : List Order) (a : Order) (as : List Order)
      (ds : List Deal) (bids1 asks1 : List Order) :
      AuctionRun P ds (afterFill (b :: bs) (min a.m_Qty b.m_Qty))
        (afterFill (a :: as) (min a.m_Qty b.m_Qty)) bids1 asks1 →
      AuctionRun P
        (Deal.new now P (min a.m_Qty b.m_Qty) b.m_ClientID b.m_OrderID a.m_ClientID a.m_OrderID
          :: ds)
        (b :: bs) (a :: as) bids1 asks1

/-- A crossed book as an auction phase leaves it: bids 100 at 150 and 50 at 149 of
client 1, asks 60 at 148, 70 at 150 and 30 at 151 of client 2. -/
def bookCrossed : OrderContainer :=
  ⟨[⟨.BUY, 100, 150, 1, 1⟩, ⟨.BUY, 50, 149, 2, 1⟩],
    [⟨.SELL, 60, 148, 3, 2⟩, ⟨.SELL, 70, 150, 4, 2⟩, ⟨.SELL, 30, 151, 5, 2⟩],
    [(1, 1), (1, 2), (2, 3), (2, 4), (2, 5)]⟩

/-- A book with the bid 10 at 99 of client 2 (order 8) facing four asks on three price
levels. -/
def bookBidFourAsks : OrderContainer :=
  ⟨[⟨.BUY, 10, 99, 8, 2⟩],
    [⟨.SELL, 10, 100, 1, 1⟩, ⟨.SELL, 20, 100, 2, 1⟩, ⟨.SELL, 30, 101, 3, 1⟩,
      ⟨.SELL, 5, 103, 4, 1⟩],
    [(2, 8), (1, 1), (1, 2), (1, 3), (1, 4)]⟩

/-- A book with a resting bid under key `(1, 6)`, absent from the inserted set, facing
the ask 10 at 160 of client 2: the state left by inserting the bid 100 at 150 under
order id 5, replacing it by order id 6 and inserting the ask. -/
def bookReplacedFacingAsk : OrderContainer :=
  ⟨[⟨.BUY, 100, 150, 6, 1⟩], [⟨.SELL, 10, 160, 7, 2⟩], [(2, 7), (1, 5)]⟩

/-- The local `MatchQty` of `Insert` and of the lambda `ProcessModify`: the quantity
they pass to `ProcessDeals`. -/
def OrderContainer.MatchQty {M : Type} [Msg M] (c : OrderContainer) (iMsg : M) : Nat :=
  min (c.GetExecutableQuantity iMsg (Msg.GetWay iMsg)) (Msg.GetQuantity iMsg)

/-- A safe run of the loop of `ProcessDeals` from the side `Orders`, the aggressor
quantity `q` and the match quantity `m`, for an aggressor of way `iWay` and limit
`iPrice`.  The loop stops when `m` is `0`.  An iteration reads the front of a side that
is not empty; the front order is executable at the limit; the executed quantity
`min(front quantity, q)` is positive and at most `m`; the loop goes on from the side
with the front order reduced (erased when nothing is left of it), `q` and `m` reduced
by the executed quantity. -/
inductive SafeLoop (iWay : OrderWay) (iPrice : Nat) : List Order → Nat → Nat → Prop
  | done (Orders : List Order) (q : Nat) : SafeLoop iWay iPrice Orders q 0
  | iter (OrderToHit : Order) (rest : List Order) (q m : Nat) :
      0 < m → executable iWay iPrice OrderToHit = true →
      0 < min OrderToHit.m_Qty q → min OrderToHit.m_Qty q ≤ m →
      SafeLoop iWay iPrice
        (if OrderToHit.m_Qty - min OrderToHit.m_Qty q = 0 then rest
          else OrderToHit.SetQuantity (OrderToHit.m_Qty - min OrderToHit.m_Qty q) :: rest)
        (q - min OrderToHit.m_Qty q) (m - min OrderToHit.m_Qty q) →
      SafeLoop iWay iPrice (OrderToHit :: rest) q m

/-- A safe run of the loops of `MatchOrders` at price `P` from the sides `bids` and
`asks` with the matching quantity `m`, and the deals it emits.  The loops stop when `m`
is `0`.  A fill reads the front of both sides, neither being empty; the executed
quantity `min(ask quantity, bid quantity)` is positive and at most `m`; the run goes on
from both sides relieved of the executed quantity and with `m` reduced by it. -/
inductive SafeAuctionRun (P : Nat) : List Deal → List Order → List Order → Nat → Prop
  | done (bids asks : List Order) : SafeAuctionRun P [] bids asks 0
  | fill (now : Nat) (b : Order) (bs : List Order) (a : Order) (as : List Order) (m : Nat)
      (ds : List Deal) :
      0 < m → 0 < min a.m_Qty b.m_Qty → min a.m_Qty b.m_Qty ≤ m →
      SafeAuctionRun P ds (afterFill (b :: bs) (min a.m_Qty b.m_Qty))
        (afterFill (a :: as) (min a.m_Qty b.m_Qty)) (m - min a.m_Qty b.m_Qty) →
      SafeAuctionRun P
        (Deal.new now P (min a.m_Qty b.m_Qty) b.m_ClientID b.m_OrderID a.m_ClientID a.m_OrderID
          :: ds)
        (b :: bs) (a :: as) m

/-- The deals of an uncrossing at price `P` respect the limits of both parties: each
deal pairs the front bid with the front ask of the moment (buyer the bid, seller the
ask), the bid posted at or above `P` and the ask posted at or below `P`. -/
inductive WithinLimits (P : Nat) : List Deal → List Order → List Order → Prop
  | nil (bids asks : List Order) : WithinLimits P [] bids asks
  | cons (now : Nat) (b : Order) (bs : List Order) (a : Order) (as : List Order)
      (ds : List Deal) :
      P ≤ b.m_Price → a.m_Price ≤ P →
      WithinLimits P ds (afterFill (b :: bs) (min a.m_Qty b.m_Qty))
        (afterFill (a :: as) (min a.m_Qty b.m_Qty)) →
      WithinLimits P
        (Deal.new now P (min a.m_Qty b.m_Qty) b.m_ClientID b.m_OrderID a.m_ClientID a.m_OrderID
          :: ds)
        (b :: bs) (a :: as)

/-- The book is uncrossed: a side is empty, or the best bid (the front of the bid index)
is priced strictly below the best ask (the front of the ask index). -/
def Uncrossed (c : OrderContainer) : Prop :=
  match c.m_BidOrders.head?, c.m_AskOrders.head? with
  | some b, some a => b.m_Price < a.m_Price
  | _, _ => True

instance (c : OrderContainer) : Decidable (Uncrossed c) := by
  unfold Uncrossed; split <;> infer_instance

/-- An order `x` of the side of way `iWay` and an order `y` of the opposite side do not
cross: the bid is priced strictly below the ask. -/
def Apart (iWay : OrderWay) (x y : Order) : Prop :=
  match iWay with
  | .BUY => x.m_Price < y.m_Price
  | .SELL => y.m_Price < x.m_Price
  | _ => True

/-- Modelled from the spec: the trading phase of an order book (§2 of the spec), whose
declaration is not among the sources; `UNKNOWN` stands for every value outside the
enumeration (the tests pass `(TradingPhase)-7572` and `(TradingPhase)6843`). -/
inductive TradingPhase
  | CLOSE
  | OPENING_AUCTION
  | CONTINUOUS_TRADING
  | INTRADAY_AUCTION
  | CLOSING_AUCTION
  | UNKNOWN
  deriving DecidableEq, Repr

/-- Modelled from the spec: the state of the class `OrderBook` (§3 of the spec,
"OrderBook state"), which is not among the sources: the container it owns, its phase,
its four prices, turnover and daily volume, the configured `max_price_deviation`
(integer percent), and whether the book is registered with the host engine as
monitored.  The instrument only seeds the prices and is left out. -/
structure OrderBook where
  orders : OrderContainer
  phase : TradingPhase
  last_price : Nat
  open_price : Nat
  close_price : Nat
  post_auction_price : Nat
  turnover : Nat
  daily_volume : Nat
  max_price_deviation : Nat
  monitored : Bool
  deriving DecidableEq, Repr

/-- What a call on the order book leaves behind: the value returned, the book, the
message passed by reference and the deals emitted. -/
structure BookOutcome (M : Type) where
  ret : Bool
  book : OrderBook
  msg : M
  deals : List Deal
  deriving DecidableEq, Repr

/-- Modelled from the spec: the deviation check of §4.5,
`|deal.price − reference| > reference × max_price_deviation%`, on natural numbers:
the distance is `(price - reference) + (reference - price)` and the percentage is
compared without rounding, `reference × max_price_deviation < 100 × distance`. -/
def outsideBand (reference max_price_deviation price : Nat) : Bool :=
  decide (reference * max_price_deviation < 100 * ((price - reference) + (reference - price)))

/-- Modelled from the spec: the market-data update of §4.5 on a deal emitted by the
container (the container hands the deals of `ProcessDeals` and of `MatchOrders` to the
same handler `OnDeal`): `last_price`, `turnover` and `daily_volume`; the three auction
prices are not written. -/
def OrderBook.OnDeal (b : OrderBook) (d : Deal) : OrderBook :=
  { b with
    last_price := d.m_Price
    turnover := b.turnover + d.m_Price * d.m_Qty
    daily_volume := b.daily_volume + d.m_Qty }

/-- Modelled from the spec: one deal handed to the book: the market data are updated and
the "Deviation check" of §4.5 is made (during CONTINUOUS_TRADING, with
`reference = post_auction_price`); the second component records that a deal asked for
the transition to the intraday auction, which is carried out only after the call. -/
def OrderBook.HandleDeal (s : OrderBook × Bool) (d : Deal) : OrderBook × Bool :=
  (s.1.OnDeal d,
    s.2 || (decide (s.1.phase = TradingPhase.CONTINUOUS_TRADING) &&
      outsideBand s.1.post_auction_price s.1.max_price_deviation d.m_Price))

/-- Modelled from the spec: the deals of one call handed to the book in emission
order. -/
def OrderBook.OnDeals (b : OrderBook) (deals : List Deal) : OrderBook × Bool :=
  deals.foldl OrderBook.HandleDeal (b, false)

/-- Modelled from the spec: the end of an `Insert` or `Modify` of the book: the
transition CONTINUOUS_TRADING → INTRADAY_AUCTION asked for by a deal is carried out, and
the book is registered as monitored (§4.5, "Monitoring"). -/
def OrderBook.Settle (s : OrderBook × Bool) : OrderBook :=
  if s.2 then { s.1 with phase := TradingPhase.INTRADAY_AUCTION, monitored := true } else s.1

/-- Modelled from the spec: `OrderBook::Insert` (§4.5): an order with quantity `0`,
price `0` or a way outside BUY and SELL is rejected before anything else; otherwise the
order goes to the container, with matching in CONTINUOUS_TRADING only; the deals are
handed to the book and the transition asked for by a deal, if any, is carried out once
the container call has returned. -/
def OrderBook.Insert (fuel : Nat) (clock : Nat → Nat) (b : OrderBook) (iOrder : Order) :
    Option (BookOutcome Order) :=
  if iOrder.m_Qty = 0 ∨ iOrder.m_Price = 0 ∨ ¬ (iOrder.m_Way = .BUY ∨ iOrder.m_Way = .SELL) then
    some ⟨false, b, iOrder, []⟩
  else
    (b.orders.Insert fuel clock iOrder (decide (b.phase = .CONTINUOUS_TRADING))).map fun r =>
      ⟨r.ret, OrderBook.Settle (OrderBook.OnDeals { b with orders := r.book } r.deals), r.msg,
        r.deals⟩

/-- Modelled from the spec: `OrderBook::Modify` (§4.5), as `OrderBook::Insert` for a
replace message. -/
def OrderBook.Modify (fuel : Nat) (clock : Nat → Nat) (b : OrderBook)
    (iOrderReplace : OrderReplace) : Option (BookOutcome OrderReplace) :=
  if iOrderReplace.m_Qty = 0 ∨ iOrderReplace.m_Price = 0 ∨
      ¬ (iOrderReplace.m_Way = .BUY ∨ iOrderReplace.m_Way = .SELL) then
    some ⟨false, b, iOrderReplace, []⟩
  else
    (b.orders.Modify fuel clock iOrderReplace (decide (b.phase = .CONTINUOUS_TRADING))).map
      fun r =>
        ⟨r.ret, OrderBook.Settle (OrderBook.OnDeals { b with orders := r.book } r.deals), r.msg,
          r.deals⟩

/-- Modelled from the spec: a new order book for an instrument of previous close
`previousClose`: phase CLOSE, empty container, `last_price`, `close_price` and
`post_auction_price` seeded with the previous close (§3); the spec gives no seed for
`open_price`, taken as `openSeed`. -/
def OrderBook.new (previousClose openSeed max_price_deviation : Nat) : OrderBook :=
  ⟨OrderContainer.empty, .CLOSE, previousClose, openSeed, previousClose, previousClose, 0, 0,
    max_price_deviation, false⟩

/-- A book in CONTINUOUS_TRADING, reference price 1000 and `max_price_deviation` 10, with
one resting bid of 100 at `p` (order 5 of client 1). -/
def bookContinuous (p : Nat) : OrderBook :=
  ⟨⟨[⟨.BUY, 100, p, 5, 1⟩], [], [(1, 5)]⟩, .CONTINUOUS_TRADING, 1000, 1000, 1000, 1000, 0, 0,
    10, false⟩

/-- `Filled l l1`: the side `l1` is the side `l` with some orders removed and the
quantity of some others lowered; an order that is kept keeps its place among the orders
kept and everything but its quantity. -/
inductive Filled : List Order → List Order → Prop
  | nil : Filled [] []
  | gone (o : Order) {l l1 : List Order} : Filled l l1 → Filled (o :: l) l1
  | stays (o : Order) (q : Nat) {l l1 : List Order} :
      q ≤ o.m_Qty → Filled l l1 → Filled (o :: l) (o.SetQuantity q :: l1)

/-- The insertion a call goes for, once it is past the check of the inserted set: the
way and the key of the order that `Insert` hands to `AuctionInsert`, of the replacement
order that `Modify` hands to `Container.insert`, and the own side as it stands when the
insertion is reached (for `Modify`, the replaced order is erased first). -/
def Op.insertion (c : OrderContainer) : Op → Option (OrderWay × OrderKey × List Order)
  | .Insert iOrder _ =>
    if iOrder.key ∈ c.m_InsertedOrderIDs then none
    else some (iOrder.m_Way, iOrder.key, c.own iOrder.m_Way)
  | .Modify r _ =>
    if OrderIDGenerator r.m_ClientID r.m_ReplacedOrderID ∈ c.m_InsertedOrderIDs then none
    else
      some (r.m_Way, OrderIDGenerator r.m_ClientID r.m_ReplacedOrderID,
        eraseKey (OrderIDGenerator r.m_ClientID r.m_ExistingOrderID) (c.own r.m_Way))
  | _ => none

/-- The order that the call `op`, leading from `c` to `c1`, has put to rest on the side
of way `w`, if any: the order resting on `c1` under the key of the insertion, when that
key was free on the side as the insertion was reached.  For `Insert` it is the order
inserted by `AuctionInsert` exactly when the call returns `true` with a quantity left
(`arrived_Insert_spec`); for `Modify` it is the replacement order built by the call
(`arrived_Modify_spec`). -/
def Op.arrived (op : Op) (c c1 : OrderContainer) (w : OrderWay) : Option Order :=
  match op.insertion c with
  | some (w1, k, base) =>
    if w1 = w ∧ findKey base k = none then findKey (c1.own w) k else none
  | none => none

/-- What a call does to a side sorted by `sp`: the side is filled (orders are removed,
quantities are lowered in place) and the order the call has put to rest, if any, is
inserted under a key that was free, behind every order it does not strictly precede. -/
def SideStep (sp : SortingPredicate) (arrival : Option Order) (before after : List Order) :
    Prop :=
  ∃ kept, Filled before kept ∧
    match arrival with
    | none => after = kept
    | some o => findKey kept o.key = none ∧ after = priceInsert sp o kept

/-- A container with the record of its arrivals: `calls` counts the calls made so far,
`bidArrival k` (`askArrival k`) is the number of the call that has put to rest the bid
(ask) resting under key `k`. -/
structure Timeline where
  book : OrderContainer
  calls : Nat
  bidArrival : OrderKey → Nat
  askArrival : OrderKey → Nat

/-- The empty container, before any call. -/
def Timeline.start : Timeline := ⟨OrderContainer.empty, 0, fun _ => 0, fun _ => 0⟩

/-- The record once the call `op` has led from `t.book` to `c1`: the order the call has
put to rest, if any, gets the number of the call; every other arrival number stays. -/
def Timeline.record (t : Timeline) (op : Op) (c1 : OrderContainer) : Timeline :=
  { book := c1
    calls := t.calls + 1
    bidArrival := fun k =>
      if (op.arrived t.book c1 .BUY).map Order.key = some k then t.calls else t.bidArrival k
    askArrival := fun k =>
      if (op.arrived t.book c1 .SELL).map Order.key = some k then t.calls else t.askArrival k }

/-- The records of the finite sequences of returning calls made on the empty
container. -/
inductive History (ord : IterationOrder) : Timeline → Prop
  | start : History ord Timeline.start
  | call {t : Timeline} (fuel : Nat) (clock : Nat → Nat) (op : Op) (c1 : OrderContainer) :
      History ord t → t.book.apply ord fuel clock op = some c1 → History ord (t.record op c1)

/-- Orders of equal price stand in the order of their arrival numbers. -/
def TimeSorted (arrival : OrderKey → Nat) (l : List Order) : Prop :=
  l.Pairwise (fun a b => a.m_Price = b.m_Price → arrival a.key < arrival b.key)

/-- The record of the calls leading to `bookTwoBids`: bid 5 is inserted (call 0), bid 7
is inserted (call 1), bid 5 is replaced by bid 6 (call 2), all of client 1 at 150. -/
def timelineTwoBids : Timeline :=
  ((Timeline.start.record (.Insert ⟨.BUY, 100, 150, 5, 1⟩ false) bookOneBid).record
      (.Insert ⟨.BUY, 100, 150, 7, 1⟩ false)
      ⟨[⟨.BUY, 100, 150, 5, 1⟩, ⟨.BUY, 100, 150, 7, 1⟩], [], [(1, 7), (1, 5)]⟩).record
    (.Modify ⟨.BUY, 100, 150, 5, 6, 1⟩ false) bookTwoBids

/-! ## Theorems -/

theorem foldl_exec_acc (p : Order → Bool) (l : List Order) (acc : Nat) :
    l.foldl (fun Qty order => if p order then Qty + order.m_Qty else Qty) acc
      = acc + totalQty (l.filter p) := by
  induction l generalizing acc with
  | nil => simp [totalQty]
  | cons x xs ih =>
    simp only [List.foldl_cons]
    rw [ih]
    by_cases hx : p x
    · simp [hx, totalQty, List.filter_cons, Nat.add_assoc]
    · simp [hx, totalQty, List.filter_cons]

theorem GetExecutableQuantity_eq (sp : SortingPredicate) (l : List Order) (P : Nat) :
    GetExecutableQuantity sp l P
      = totalQty (l.filter (fun o => ExecutableQtyPredHelper sp o.m_Price P)) := by
  unfold GetExecutableQuantity
  rw [foldl_exec_acc (fun o => ExecutableQtyPredHelper sp o.m_Price P) l 0]
  simp

theorem filter_eq_takeWhile_of_sorted (sp : SortingPredicate) (P : Nat) (l : List Order)
    (hs : PriceSorted sp l) :
    l.filter (fun o => ExecutableQtyPredHelper sp o.m_Price P)
      = l.takeWhile (fun o => ExecutableQtyPredHelper sp o.m_Price P) := by
  induction l with
  | nil => rfl
  | cons x xs ih =>
    have hs2 : PriceSorted sp xs := (List.pairwise_cons.mp hs).2
    have hx := (List.pairwise_cons.mp hs).1
    by_cases hp : ExecutableQtyPredHelper sp x.m_Price P = true
    · simp only [List.filter_cons, List.takeWhile_cons, hp, if_true]
      rw [ih hs2]
    · simp only [List.filter_cons, List.takeWhile_cons, hp]
      simp only [Bool.false_eq_true, if_false]
      rw [List.filter_eq_nil_iff]
      intro y hy
      have hxy := hx y hy
      cases sp <;>
        simp only [ExecutableQtyPredHelper, SortingPredicate.comp, decide_eq_true_eq,
          decide_eq_false_iff_not] at hp hxy ⊢
      all_goals omega

theorem GenerateDeal_remove {M : Type} [Msg M] (now : Nat) (o : Order) (iMsg : M)
    (q x p e : Nat) :
    GenerateDeal now (o.SetQuantity x) (Msg.RemoveQuantity iMsg q) p e
      = GenerateDeal now o iMsg p e := by
  simp [GenerateDeal, Order.SetQuantity, Msg.client_remove, Msg.aggressor_remove]

theorem GenerateDeal_remove_msg {M : Type} [Msg M] (now : Nat) (o : Order) (iMsg : M)
    (q p e : Nat) :
    GenerateDeal now o (Msg.RemoveQuantity iMsg q) p e = GenerateDeal now o iMsg p e := by
  simp [GenerateDeal, Msg.client_remove, Msg.aggressor_remove]

theorem consume_remove {M : Type} [Msg M] (iMsg : M) (q : Nat) (clock : Nat → Nat)
    (l : List Order) (a : Nat) :
    consume (Msg.RemoveQuantity iMsg q) clock l a = consume iMsg clock l a := by
  induction l generalizing clock a with
  | nil => rfl
  | cons o os ih =>
    simp only [consume, ih, GenerateDeal_remove_msg, Msg.price_remove]

theorem ProcessDeals_zero {M : Type} [Msg M] (fuel : Nat) (clock : Nat → Nat)
    (Orders : List Order) (iMsg : M) :
    ProcessDeals fuel clock Orders iMsg 0 = some (Orders, iMsg, []) := by
  cases fuel <;> simp [ProcessDeals]

theorem Order.SetQuantity_qty (o : Order) (q : Nat) : (o.SetQuantity q).m_Qty = q := rfl

/-- On a run whose match quantity is `min (total of pre) (aggressor quantity)` and whose
front orders `pre` all have a positive quantity, `ProcessDeals` returns, and returns what
`consume` describes. -/
theorem ProcessDeals_eq_consume {M : Type} [Msg M] (pre post : List Order) :
    ∀ (fuel : Nat) (clock : Nat → Nat) (iMsg : M),
      (∀ o ∈ pre, 0 < o.m_Qty) → pre.length ≤ fuel →
      ProcessDeals fuel clock (pre ++ post) iMsg (min (totalQty pre) (Msg.GetQuantity iMsg))
        = some ((consume iMsg clock pre (Msg.GetQuantity iMsg)).2 ++ post,
            Msg.RemoveQuantity iMsg (min (totalQty pre) (Msg.GetQuantity iMsg)),
            (consume iMsg clock pre (Msg.GetQuantity iMsg)).1) := by
  induction pre with
  | nil =>
    intro fuel clock iMsg _ _
    simp [totalQty, ProcessDeals_zero, consume, Msg.remove_zero]
  | cons o os ih =>
    intro fuel clock iMsg hpos hfuel
    have ho : 0 < o.m_Qty := hpos o (List.mem_cons_self _ _)
    have hos : ∀ x ∈ os, 0 < x.m_Qty := fun x hx => hpos x (List.mem_cons_of_mem _ hx)
    have htot : totalQty (o :: os) = o.m_Qty + totalQty os := by simp [totalQty]
    by_cases ha : Msg.GetQuantity iMsg = 0
    · simp [ha, ProcessDeals_zero, consume, Msg.remove_zero]
    · cases fuel with
      | zero => simp at hfuel
      | succ f =>
        have hf : os.length ≤ f := by simpa using hfuel
        have hm : 0 < min (totalQty (o :: os)) (Msg.GetQuantity iMsg) := by
          rw [htot]; omega
        by_cases hle : o.m_Qty ≤ Msg.GetQuantity iMsg
        · have hexec : min o.m_Qty (Msg.GetQuantity iMsg) = o.m_Qty := by omega
          have hrec := ih f (fun i => clock (i + 1)) (Msg.RemoveQuantity iMsg o.m_Qty) hos hf
          rw [Msg.qty_remove, consume_remove, Msg.remove_remove] at hrec
          have hsub : min (totalQty (o :: os)) (Msg.GetQuantity iMsg) - o.m_Qty
              = min (totalQty os) (Msg.GetQuantity iMsg - o.m_Qty) := by
            rw [htot]; omega
          have hadd : o.m_Qty + min (totalQty os) (Msg.GetQuantity iMsg - o.m_Qty)
              = min (totalQty (o :: os)) (Msg.GetQuantity iMsg) := by
            rw [htot]; omega
          have hnlt : ¬ min (totalQty (o :: os)) (Msg.GetQuantity iMsg) < o.m_Qty := by
            rw [htot]; omega
          rw [hadd] at hrec
          simp only [List.cons_append, ProcessDeals, hm, if_true, hexec, hnlt, if_false,
            Order.SetQuantity_qty, Nat.sub_self, hsub, hrec, Option.map_some',
            GenerateDeal_remove, consume, ha, hle]
        · have hexec : min o.m_Qty (Msg.GetQuantity iMsg) = Msg.GetQuantity iMsg := by omega
          have hmin : min (totalQty (o :: os)) (Msg.GetQuantity iMsg) = Msg.GetQuantity iMsg := by
            rw [htot]; omega
          have hne : ¬ o.m_Qty - Msg.GetQuantity iMsg = 0 := by omega
          simp only [List.cons_append, ProcessDeals, hmin, Nat.pos_of_ne_zero ha, if_true, hexec,
            Nat.lt_irrefl, if_false, Order.SetQuantity_qty, hne, Nat.sub_self, ProcessDeals_zero,
            Option.map_some', GenerateDeal_remove, consume, ha, hle]

theorem GenerateDeal_qty {M : Type} [Msg M] (now : Nat) (o : Order) (iMsg : M) (p e : Nat) :
    (GenerateDeal now o iMsg p e).m_Qty = e := by
  unfold GenerateDeal; split <;> rfl

theorem GenerateDeal_price {M : Type} [Msg M] (now : Nat) (o : Order) (iMsg : M) (p e : Nat) :
    (GenerateDeal now o iMsg p e).m_Price = p := by
  unfold GenerateDeal; split <;> rfl

theorem consume_dealQty {M : Type} [Msg M] (iMsg : M) (clock : Nat → Nat) (l : List Order)
    (a : Nat) : dealQty (consume iMsg clock l a).1 = min (totalQty l) a := by
  induction l generalizing clock a with
  | nil => simp [consume, dealQty, totalQty]
  | cons o os ih =>
    have htot : totalQty (o :: os) = o.m_Qty + totalQty os := by simp [totalQty]
    have ih2 := ih (fun i => clock (i + 1)) (a - o.m_Qty)
    unfold dealQty at ih2 ⊢
    rw [htot]
    by_cases ha : a = 0
    · simp [consume, ha]
    · by_cases hle : o.m_Qty ≤ a
      · simp only [consume, ha, hle, if_true, if_false, List.map_cons, List.sum_cons, ih2,
          GenerateDeal_qty]
        omega
      · simp only [consume, ha, hle, if_false, List.map_cons, List.sum_cons, List.map_nil,
          List.sum_nil, GenerateDeal_qty]
        omega

theorem consume_rest_total {M : Type} [Msg M] (iMsg : M) (clock : Nat → Nat) (l : List Order)
    (a : Nat) : totalQty (consume iMsg clock l a).2 + min (totalQty l) a = totalQty l := by
  induction l generalizing clock a with
  | nil => simp [consume, totalQty]
  | cons o os ih =>
    have htot : totalQty (o :: os) = o.m_Qty + totalQty os := by simp [totalQty]
    have ih2 := ih (fun i => clock (i + 1)) (a - o.m_Qty)
    by_cases ha : a = 0
    · simp [consume, ha]
    · by_cases hle : o.m_Qty ≤ a
      · simp only [consume, ha, hle, if_true, if_false]
        rw [htot]; omega
      · simp only [consume, ha, hle, if_false]
        have h2 : totalQty (o.SetQuantity (o.m_Qty - a) :: os) = (o.m_Qty - a) + totalQty os := by
          simp [totalQty, Order.SetQuantity]
        rw [h2, htot]; omega

theorem totalQty_append (l1 l2 : List Order) :
    totalQty (l1 ++ l2) = totalQty l1 + totalQty l2 := by
  simp [totalQty]

theorem executable_eq_helper (iWay : OrderWay) (h : iWay = .BUY ∨ iWay = .SELL) (P : Nat) :
    (fun o : Order => ExecutableQtyPredHelper (oppositePred iWay) o.m_Price P)
      = executable iWay P := by
  funext o
  rcases h with h | h <;> subst h <;> rfl

theorem execFront_append_execBack (c : OrderContainer) (iWay : OrderWay) (P : Nat) :
    execFront c iWay P ++ execBack c iWay P = c.opposite iWay :=
  List.takeWhile_append_dropWhile _ _

theorem opposite_sorted (c : OrderContainer) (iWay : OrderWay) (hw : WellFormed c)
    (h : iWay = .BUY ∨ iWay = .SELL) : PriceSorted (oppositePred iWay) (c.opposite iWay) := by
  rcases h with h | h <;> subst h
  · exact hw.2.1
  · exact hw.1

theorem opposite_pos (c : OrderContainer) (iWay : OrderWay) (hw : WellFormed c) :
    ∀ o ∈ c.opposite iWay, 0 < o.m_Qty := by
  cases iWay
  · exact hw.2.2.2
  · exact hw.2.2.1
  · intro o ho; simp [OrderContainer.opposite] at ho

theorem execFront_total (c : OrderContainer) (iWay : OrderWay) (P : Nat) (hw : WellFormed c)
    (h : iWay = .BUY ∨ iWay = .SELL) :
    totalQty (execFront c iWay P) = totalQty ((c.opposite iWay).filter (executable iWay P)) := by
  unfold execFront
  rw [← executable_eq_helper iWay h P,
    filter_eq_takeWhile_of_sorted _ P _ (opposite_sorted c iWay hw h)]

theorem GetExecutableQuantity_msg {M : Type} [Msg M] (c : OrderContainer) (iMsg : M)
    (iWay : OrderWay) :
    c.GetExecutableQuantity iMsg iWay
      = min (totalQty ((c.opposite iWay).filter (executable iWay (Msg.GetPrice iMsg))))
          (Msg.GetQuantity iMsg) := by
  cases iWay
  · simp only [OrderContainer.GetExecutableQuantity, GetExecutableQuantity_eq,
      OrderContainer.opposite, ← executable_eq_helper .BUY (Or.inl rfl), oppositePred]
  · simp only [OrderContainer.GetExecutableQuantity, GetExecutableQuantity_eq,
      OrderContainer.opposite, ← executable_eq_helper .SELL (Or.inr rfl), oppositePred]
  · simp [OrderContainer.GetExecutableQuantity, OrderContainer.opposite, totalQty]

/-- The matching pass of `Insert` and `Modify` on a well-formed container: it returns,
the deals and the opposite side are those of `consume` on the executable front. -/
theorem matchPass_eq {M : Type} [Msg M] (fuel : Nat) (clock : Nat → Nat) (c : OrderContainer)
    (iMsg : M) (iWay : OrderWay) (hw : WellFormed c) (h : iWay = .BUY ∨ iWay = .SELL)
    (hfuel : (c.opposite iWay).length ≤ fuel) :
    c.ProcessDeals fuel clock iMsg iWay
        (min (c.GetExecutableQuantity iMsg iWay) (Msg.GetQuantity iMsg))
      = some
          (c.setOpposite iWay
              ((consume iMsg clock (execFront c iWay (Msg.GetPrice iMsg))
                  (Msg.GetQuantity iMsg)).2 ++ execBack c iWay (Msg.GetPrice iMsg)),
            Msg.RemoveQuantity iMsg
              (min (totalQty (execFront c iWay (Msg.GetPrice iMsg))) (Msg.GetQuantity iMsg)),
            (consume iMsg clock (execFront c iWay (Msg.GetPrice iMsg))
              (Msg.GetQuantity iMsg)).1) := by
  have hq : min (c.GetExecutableQuantity iMsg iWay) (Msg.GetQuantity iMsg)
      = min (totalQty (execFront c iWay (Msg.GetPrice iMsg))) (Msg.GetQuantity iMsg) := by
    rw [GetExecutableQuantity_msg, execFront_total c iWay _ hw h]; omega
  have hpos : ∀ o ∈ execFront c iWay (Msg.GetPrice iMsg), 0 < o.m_Qty := fun o ho =>
    opposite_pos c iWay hw o (List.takeWhile_subset _ ho)
  have hlen : (execFront c iWay (Msg.GetPrice iMsg)).length ≤ fuel := by
    have := congrArg List.length (execFront_append_execBack c iWay (Msg.GetPrice iMsg))
    rw [List.length_append] at this
    omega
  have key := ProcessDeals_eq_consume (execFront c iWay (Msg.GetPrice iMsg))
    (execBack c iWay (Msg.GetPrice iMsg)) fuel clock iMsg hpos hlen
  rw [execFront_append_execBack] at key
  rw [hq]
  rcases h with h | h <;> subst h
  · simp only [OrderContainer.ProcessDeals, OrderContainer.opposite] at key ⊢
    rw [key]; rfl
  · simp only [OrderContainer.ProcessDeals, OrderContainer.opposite] at key ⊢
    rw [key]; rfl

theorem mem_priceInsert (sp : SortingPredicate) (o x : Order) (l : List Order) :
    x ∈ priceInsert sp o l ↔ x = o ∨ x ∈ l := by
  induction l with
  | nil => simp [priceInsert]
  | cons y ys ih =>
    unfold priceInsert
    split
    · simp
    · simp only [List.mem_cons, ih]
      tauto

theorem findKey_eq_none (l : List Order) (k : OrderKey) :
    findKey l k = none ↔ ∀ o ∈ l, o.key ≠ k := by
  simp [findKey, List.find?_eq_none]

theorem own_setOpposite (c : OrderContainer) (iWay : OrderWay) (l : List Order) :
    (c.setOpposite iWay l).own iWay = c.own iWay := by
  cases iWay <;> rfl

theorem opposite_setOpposite (c : OrderContainer) (iWay : OrderWay) (l : List Order)
    (h : iWay = .BUY ∨ iWay = .SELL) : (c.setOpposite iWay l).opposite iWay = l := by
  rcases h with h | h <;> subst h <;> rfl

theorem ids_setOpposite (c : OrderContainer) (iWay : OrderWay) (l : List Order) :
    (c.setOpposite iWay l).m_InsertedOrderIDs = c.m_InsertedOrderIDs := by
  cases iWay <;> rfl

theorem AuctionInsert_eq (c : OrderContainer) (o : Order)
    (h : o.m_Way = .BUY ∨ o.m_Way = .SELL) :
    c.AuctionInsert o
      = some (c.setOwn o.m_Way (sideInsert (ownPred o.m_Way) (c.own o.m_Way) o).1,
          (sideInsert (ownPred o.m_Way) (c.own o.m_Way) o).2) := by
  unfold OrderContainer.AuctionInsert
  rcases h with h | h <;> rw [h] <;> rfl

theorem own_setOwn (c : OrderContainer) (iWay : OrderWay) (l : List Order)
    (h : iWay = .BUY ∨ iWay = .SELL) : (c.setOwn iWay l).own iWay = l := by
  rcases h with h | h <;> subst h <;> rfl

theorem opposite_setOwn (c : OrderContainer) (iWay : OrderWay) (l : List Order) :
    (c.setOwn iWay l).opposite iWay = c.opposite iWay := by
  cases iWay <;> rfl

theorem ids_setOwn (c : OrderContainer) (iWay : OrderWay) (l : List Order) :
    (c.setOwn iWay l).m_InsertedOrderIDs = c.m_InsertedOrderIDs := by
  cases iWay <;> rfl

theorem container_ProcessDeals_zero {M : Type} [Msg M] (fuel : Nat) (clock : Nat → Nat)
    (c : OrderContainer) (iMsg : M) (iWay : OrderWay) (h : iWay = .BUY ∨ iWay = .SELL) :
    c.ProcessDeals fuel clock iMsg iWay 0 = some (c, iMsg, []) := by
  rcases h with h | h <;> subst h <;>
    simp [OrderContainer.ProcessDeals, ProcessDeals_zero]

theorem guarded_ProcessDeals {M : Type} [Msg M] (fuel : Nat) (clock : Nat → Nat)
    (c : OrderContainer) (iMsg : M) (iWay : OrderWay) (h : iWay = .BUY ∨ iWay = .SELL)
    (m : Nat) :
    (if m ≠ 0 then c.ProcessDeals fuel clock iMsg iWay m else some (c, iMsg, []))
      = c.ProcessDeals fuel clock iMsg iWay m := by
  by_cases hm : m = 0
  · subst hm; simp [container_ProcessDeals_zero fuel clock c iMsg iWay h]
  · simp [hm]

/-- What `Insert` with matching returns on a well-formed container for a key that is
not in the inserted set. -/
theorem Insert_match_eq (fuel : Nat) (clock : Nat → Nat) (c : OrderContainer) (iOrder : Order)
    (hw : WellFormed c) (hfresh : iOrder.key ∉ c.m_InsertedOrderIDs)
    (hway : iOrder.m_Way = .BUY ∨ iOrder.m_Way = .SELL)
    (hfuel : (c.opposite iOrder.m_Way).length ≤ fuel) :
    c.Insert fuel clock iOrder true
      = (let front := execFront c iOrder.m_Way iOrder.m_Price
         let E := min (totalQty front) iOrder.m_Qty
         let o1 : Order := { iOrder with m_Qty := iOrder.m_Qty - E }
         let c1 := c.setOpposite iOrder.m_Way
           ((consume iOrder clock front iOrder.m_Qty).2 ++ execBack c iOrder.m_Way iOrder.m_Price)
         let ds := (consume iOrder clock front iOrder.m_Qty).1
         if o1.m_Qty ≠ 0 then
           (if (sideInsert (ownPred iOrder.m_Way) (c1.own iOrder.m_Way) o1).2 = false then
              some ⟨false, c1.setOwn iOrder.m_Way
                (sideInsert (ownPred iOrder.m_Way) (c1.own iOrder.m_Way) o1).1, o1, ds⟩
            else
              some ⟨true,
                { c1.setOwn iOrder.m_Way
                    (sideInsert (ownPred iOrder.m_Way) (c1.own iOrder.m_Way) o1).1 with
                  m_InsertedOrderIDs := c.m_InsertedOrderIDs.insert iOrder.key }, o1, ds⟩)
         else
           some ⟨true, { c1 with m_InsertedOrderIDs := c.m_InsertedOrderIDs.insert iOrder.key },
             o1, ds⟩) := by
  have hmp := matchPass_eq fuel clock c iOrder iOrder.m_Way hw hway hfuel
  have hg : (Msg.GetQuantity iOrder) = iOrder.m_Qty := rfl
  have hp : (Msg.GetPrice iOrder) = iOrder.m_Price := rfl
  have hr : ∀ q, Msg.RemoveQuantity iOrder q = { iOrder with m_Qty := iOrder.m_Qty - q } :=
    fun _ => rfl
  rw [hg, hp, hr] at hmp
  unfold OrderContainer.Insert
  simp only [hfresh, if_false, if_true]
  rw [guarded_ProcessDeals fuel clock c iOrder iOrder.m_Way hway, hmp]
  simp only [Option.some_bind]
  have hai := AuctionInsert_eq (c.setOpposite iOrder.m_Way
      ((consume iOrder clock (execFront c iOrder.m_Way iOrder.m_Price) iOrder.m_Qty).2 ++
        execBack c iOrder.m_Way iOrder.m_Price))
    (Msg.RemoveQuantity iOrder
      (min (totalQty (execFront c iOrder.m_Way iOrder.m_Price)) iOrder.m_Qty)) hway
  rw [hr] at hai
  rw [hai]
  simp only [Option.some_bind, ids_setOwn, ids_setOpposite]

theorem sideInsert_of_absent (sp : SortingPredicate) (l : List Order) (o : Order)
    (h : findKey l o.key = none) : sideInsert sp l o = (priceInsert sp o l, true) := by
  simp [sideInsert, h]

/-- C1 (amended): on a well-formed container, for an order whose key is neither in the
inserted set nor resting on the order's own side, with way BUY or SELL and quantity
`q` (positive or not), `Insert` with matching returns `true`; the deal quantities sum to
`E = min(X, q)` with `X` the total quantity of the opposite orders executable at the
order's price; the order is left with quantity `q - E`; the opposite side has lost
exactly `E`; and the order rests on its own side, with quantity `q - E`, iff
`q - E > 0` (no other order with its key rests there). -/
theorem C1_insert_match (fuel : Nat) (clock : Nat → Nat) (c : OrderContainer) (iOrder : Order)
    (hw : WellFormed c) (hfresh : iOrder.key ∉ c.m_InsertedOrderIDs)
    (hway : iOrder.m_Way = .BUY ∨ iOrder.m_Way = .SELL)
    (hown : findKey (c.own iOrder.m_Way) iOrder.key = none)
    (hfuel : (c.opposite iOrder.m_Way).length ≤ fuel) :
    ∃ res : Outcome Order,
      c.Insert fuel clock iOrder true = some res ∧
      res.ret = true ∧
      dealQty res.deals
        = min (totalQty ((c.opposite iOrder.m_Way).filter
            (executable iOrder.m_Way iOrder.m_Price))) iOrder.m_Qty ∧
      res.msg = { iOrder with m_Qty := iOrder.m_Qty - dealQty res.deals } ∧
      totalQty (res.book.opposite iOrder.m_Way) + dealQty res.deals
        = totalQty (c.opposite iOrder.m_Way) ∧
      (res.msg ∈ res.book.own iOrder.m_Way ↔ 0 < iOrder.m_Qty - dealQty res.deals) ∧
      (∀ o ∈ res.book.own iOrder.m_Way, o.key = iOrder.key → o = res.msg) := by
  have hE := execFront_total c iOrder.m_Way iOrder.m_Price hw hway
  have hD := consume_dealQty iOrder clock (execFront c iOrder.m_Way iOrder.m_Price) iOrder.m_Qty
  have hR := consume_rest_total iOrder clock (execFront c iOrder.m_Way iOrder.m_Price)
    iOrder.m_Qty
  have hsplit := execFront_append_execBack c iOrder.m_Way iOrder.m_Price
  have hT : totalQty (c.opposite iOrder.m_Way)
      = totalQty (execFront c iOrder.m_Way iOrder.m_Price)
        + totalQty (execBack c iOrder.m_Way iOrder.m_Price) := by
    rw [← hsplit, totalQty_append]
  have hnone := (findKey_eq_none _ _).mp hown
  rw [Insert_match_eq fuel clock c iOrder hw hfresh hway hfuel]
  simp only []
  rw [own_setOpposite]
  by_cases hz : iOrder.m_Qty - min (totalQty (execFront c iOrder.m_Way iOrder.m_Price))
      iOrder.m_Qty = 0
  · -- the whole quantity is matched
    simp only [hz, ne_eq, not_true_eq_false, if_false]
    refine ⟨_, rfl, rfl, ?_, ?_, ?_, ?_, ?_⟩
    · simp only [hD, hE]
    · simp only [hD, hz]
    · have h1 : ∀ (b : OrderContainer) (ids : List OrderKey),
          ({ b with m_InsertedOrderIDs := ids } : OrderContainer).opposite iOrder.m_Way
            = b.opposite iOrder.m_Way := by
        intro b ids; cases iOrder.m_Way <;> rfl
      simp only [h1, opposite_setOpposite _ _ _ hway, totalQty_append, hD]
      omega
    · have h1 : ∀ (b : OrderContainer) (ids : List OrderKey),
          ({ b with m_InsertedOrderIDs := ids } : OrderContainer).own iOrder.m_Way
            = b.own iOrder.m_Way := by
        intro b ids; cases iOrder.m_Way <;> rfl
      simp only [h1, own_setOpposite, hD, hz, Nat.lt_irrefl, iff_false]
      intro hmem
      exact hnone _ hmem rfl
    · have h1 : ∀ (b : OrderContainer) (ids : List OrderKey),
          ({ b with m_InsertedOrderIDs := ids } : OrderContainer).own iOrder.m_Way
            = b.own iOrder.m_Way := by
        intro b ids; cases iOrder.m_Way <;> rfl
      simp only [h1, own_setOpposite]
      intro o ho hk
      exact absurd hk (hnone o ho)
  · -- a residual is left and rests on the own side
    have hown1 : findKey (c.own iOrder.m_Way)
        (Msg.RemoveQuantity iOrder
          (min (totalQty (execFront c iOrder.m_Way iOrder.m_Price)) iOrder.m_Qty)).key
          = none := hown
    have hr : ∀ q, Msg.RemoveQuantity iOrder q = { iOrder with m_Qty := iOrder.m_Qty - q } :=
      fun _ => rfl
    rw [hr] at hown1
    simp only [hz, ne_eq, not_false_eq_true, if_true, sideInsert_of_absent _ _ _ hown1,
      Bool.true_eq_false, if_false]
    refine ⟨_, rfl, rfl, ?_, ?_, ?_, ?_, ?_⟩
    · simp only [hD, hE]
    · simp only [hD]
    · have h1 : ∀ (b : OrderContainer) (ids : List OrderKey),
          ({ b with m_InsertedOrderIDs := ids } : OrderContainer).opposite iOrder.m_Way
            = b.opposite iOrder.m_Way := by
        intro b ids; cases iOrder.m_Way <;> rfl
      simp only [h1, opposite_setOwn, opposite_setOpposite _ _ _ hway, totalQty_append, hD]
      omega
    · have h1 : ∀ (b : OrderContainer) (ids : List OrderKey),
          ({ b with m_InsertedOrderIDs := ids } : OrderContainer).own iOrder.m_Way
            = b.own iOrder.m_Way := by
        intro b ids; cases iOrder.m_Way <;> rfl
      simp only [h1, own_setOwn _ _ _ hway, hD, mem_priceInsert, true_or, true_iff]
      omega
    · have h1 : ∀ (b : OrderContainer) (ids : List OrderKey),
          ({ b with m_InsertedOrderIDs := ids } : OrderContainer).own iOrder.m_Way
            = b.own iOrder.m_Way := by
        intro b ids; cases iOrder.m_Way <;> rfl
      simp only [h1, own_setOwn _ _ _ hway, mem_priceInsert]
      intro o ho hk
      rcases ho with ho | ho
      · exact ho
      · exact absurd hk (hnone o ho)

theorem PriorityFill_nil (agg : OrderKey) (old : List Order) : PriorityFill agg old [] old :=
  ⟨[], old, rfl, Or.inl ⟨List.Forall₂.nil, rfl⟩⟩

theorem GenerateDeal_resting {M : Type} [Msg M] (now : Nat) (o : Order) (iMsg : M)
    (p e : Nat) : RestingIn (aggressorKey iMsg) (GenerateDeal now o iMsg p e) o := by
  unfold RestingIn GenerateDeal
  by_cases h : o.m_Way = OrderWay.BUY
  · simp [h, Deal.new, Order.key, aggressorKey]
  · simp [h, Deal.new, Order.key, aggressorKey]

theorem consume_priority {M : Type} [Msg M] (iMsg : M) (clock : Nat → Nat)
    (pre post : List Order) (a : Nat) :
    PriorityFill (aggressorKey iMsg) (pre ++ post) (consume iMsg clock pre a).1
      ((consume iMsg clock pre a).2 ++ post) := by
  induction pre generalizing clock a with
  | nil => exact PriorityFill_nil _ _
  | cons o os ih =>
    by_cases ha : a = 0
    · simp only [consume, ha, if_true]
      exact PriorityFill_nil _ _
    · by_cases hle : o.m_Qty ≤ a
      · simp only [consume, ha, hle, if_true, if_false]
        obtain ⟨filled, rest, hsplit, hcase⟩ := ih (fun i => clock (i + 1)) (a - o.m_Qty)
        refine ⟨o :: filled, rest, by simp [hsplit], ?_⟩
        have hfull : FullFill (aggressorKey iMsg)
            (GenerateDeal (clock 0) o iMsg (min o.m_Price (Msg.GetPrice iMsg)) o.m_Qty) o :=
          ⟨GenerateDeal_resting _ _ _ _ _, GenerateDeal_qty _ _ _ _ _⟩
        rcases hcase with ⟨hall, hnew⟩ | ⟨ds, dl, r, rest1, hd, hr, hall, hres, hpos, hlt, hnew⟩
        · exact Or.inl ⟨List.Forall₂.cons hfull hall, hnew⟩
        · refine Or.inr ⟨_ :: ds, dl, r, rest1, ?_, hr, List.Forall₂.cons hfull hall, hres, hpos,
            hlt, hnew⟩
          rw [hd]; rfl
      · simp only [consume, ha, hle, if_false]
        refine ⟨[], o :: os ++ post, rfl, Or.inr ⟨[], _, o, os ++ post, rfl, rfl,
          List.Forall₂.nil, GenerateDeal_resting _ _ _ _ _, ?_, ?_, ?_⟩⟩
        · rw [GenerateDeal_qty]; omega
        · rw [GenerateDeal_qty]; omega
        · rw [GenerateDeal_qty]; rfl

theorem matchQty_eq {M : Type} [Msg M] (c : OrderContainer) (iMsg : M) (iWay : OrderWay)
    (hw : WellFormed c) (h : iWay = .BUY ∨ iWay = .SELL) :
    min (c.GetExecutableQuantity iMsg iWay) (Msg.GetQuantity iMsg)
      = min (totalQty (execFront c iWay (Msg.GetPrice iMsg))) (Msg.GetQuantity iMsg) := by
  rw [GetExecutableQuantity_msg, execFront_total c iWay _ hw h]; omega

/-- The lambda `ProcessModify` with matching on a well-formed container. -/
theorem ProcessModify_match_eq (fuel : Nat) (clock : Nat → Nat) (c : OrderContainer)
    (r : OrderReplace) (hw : WellFormed c) (hway : r.m_Way = .BUY ∨ r.m_Way = .SELL)
    (hfuel : (c.opposite r.m_Way).length ≤ fuel) :
    c.ProcessModify fuel clock r true
      = some
          (decide ¬ (min (totalQty (execFront c r.m_Way r.m_Price)) r.m_Qty ≠ 0 ∧
              r.m_Qty - min (totalQty (execFront c r.m_Way r.m_Price)) r.m_Qty = 0),
            c.setOpposite r.m_Way
              ((consume r clock (execFront c r.m_Way r.m_Price) r.m_Qty).2 ++
                execBack c r.m_Way r.m_Price),
            Msg.RemoveQuantity r (min (totalQty (execFront c r.m_Way r.m_Price)) r.m_Qty),
            (consume r clock (execFront c r.m_Way r.m_Price) r.m_Qty).1) := by
  have hmp := matchPass_eq fuel clock c r r.m_Way hw hway hfuel
  have hmq := matchQty_eq c r r.m_Way hw hway
  have hg : (Msg.GetQuantity r) = r.m_Qty := rfl
  have hp : (Msg.GetPrice r) = r.m_Price := rfl
  rw [hg, hp] at hmp hmq
  unfold OrderContainer.ProcessModify
  simp only [if_true]
  rw [hmq] at hmp ⊢
  by_cases hz : min (totalQty (execFront c r.m_Way r.m_Price)) r.m_Qty = 0
  · rw [hz] at hmp
    rw [container_ProcessDeals_zero fuel clock c r r.m_Way hway] at hmp
    simp only [hz, ne_eq, not_true_eq_false, if_false, false_and, not_false_eq_true,
      decide_True]
    have h1 := Option.some.inj hmp
    rw [← h1]
  · simp only [hz, ne_eq, not_false_eq_true, if_true, hmp, Option.map_some', true_and]
    have hq1 : (Msg.RemoveQuantity r (min (totalQty (execFront c r.m_Way r.m_Price)) r.m_Qty)).m_Qty
        = r.m_Qty - min (totalQty (execFront c r.m_Way r.m_Price)) r.m_Qty := rfl
    rw [hq1]
    by_cases hr0 : r.m_Qty - min (totalQty (execFront c r.m_Way r.m_Price)) r.m_Qty = 0
    · simp [hr0]
    · simp [hr0]

/-- What `Modify` with matching returns on a well-formed container. -/
theorem Modify_match_eq (fuel : Nat) (clock : Nat → Nat) (c : OrderContainer)
    (r : OrderReplace) (hw : WellFormed c) (hway : r.m_Way = .BUY ∨ r.m_Way = .SELL)
    (hfuel : (c.opposite r.m_Way).length ≤ fuel) :
    c.Modify fuel clock r true
      = (let OrderID := OrderIDGenerator r.m_ClientID r.m_ExistingOrderID
         let E := min (totalQty (execFront c r.m_Way r.m_Price)) r.m_Qty
         let c1 := c.setOpposite r.m_Way
           ((consume r clock (execFront c r.m_Way r.m_Price) r.m_Qty).2 ++
             execBack c r.m_Way r.m_Price)
         let r1 : OrderReplace := Msg.RemoveQuantity r E
         if OrderIDGenerator r.m_ClientID r.m_ReplacedOrderID ∈ c.m_InsertedOrderIDs then
           some ⟨false, c, r, []⟩
         else
           match findKey (c.own r.m_Way) OrderID with
           | none => some ⟨false, c, r, []⟩
           | some _ =>
             some ⟨true,
               { c1.setOwn r.m_Way
                   (if E ≠ 0 ∧ r.m_Qty - E = 0 then eraseKey OrderID (c.own r.m_Way)
                    else (sideInsert (ownPred r.m_Way) (eraseKey OrderID (c.own r.m_Way))
                      ⟨r.m_Way, r.m_Qty - E, r.m_Price, r.m_ReplacedOrderID, r.m_ClientID⟩).1) with
                 m_InsertedOrderIDs := c.m_InsertedOrderIDs.insert OrderID },
               r1, (consume r clock (execFront c r.m_Way r.m_Price) r.m_Qty).1⟩) := by
  have hpm := ProcessModify_match_eq fuel clock c r hw hway hfuel
  unfold OrderContainer.Modify
  simp only []
  by_cases hdup : OrderIDGenerator r.m_ClientID r.m_ReplacedOrderID ∈ c.m_InsertedOrderIDs
  · simp only [hdup, if_true]
  · simp only [hdup, if_false]
    rcases hway with hb | hs
    · rw [hb] at hpm ⊢
      simp only [OrderContainer.ApplyModify, OrderContainer.own, hpm]
      cases hf : findKey c.m_BidOrders (OrderIDGenerator r.m_ClientID r.m_ExistingOrderID) with
      | none => rfl
      | some x =>
        simp only [Option.map_some']
        by_cases hc : min (totalQty (execFront c OrderWay.BUY r.m_Price)) r.m_Qty ≠ 0 ∧
            r.m_Qty - min (totalQty (execFront c OrderWay.BUY r.m_Price)) r.m_Qty = 0
        · rw [decide_eq_false (not_not_intro hc), if_pos hc]
          simp [OrderContainer.setOpposite, OrderContainer.setOwn]
        · rw [decide_eq_true hc, if_neg hc]
          simp [OrderContainer.setOpposite, OrderContainer.setOwn, ownPred, hb, Msg.RemoveQuantity]
    · rw [hs] at hpm ⊢
      simp only [OrderContainer.ApplyModify, OrderContainer.own, hpm]
      cases hf : findKey c.m_AskOrders (OrderIDGenerator r.m_ClientID r.m_ExistingOrderID) with
      | none => rfl
      | some x =>
        simp only [Option.map_some']
        by_cases hc : min (totalQty (execFront c OrderWay.SELL r.m_Price)) r.m_Qty ≠ 0 ∧
            r.m_Qty - min (totalQty (execFront c OrderWay.SELL r.m_Price)) r.m_Qty = 0
        · rw [decide_eq_false (not_not_intro hc), if_pos hc]
          simp [OrderContainer.setOpposite, OrderContainer.setOwn]
        · rw [decide_eq_true hc, if_neg hc]
          simp [OrderContainer.setOpposite, OrderContainer.setOwn, ownPred, hs, Msg.RemoveQuantity]

theorem opposite_withIds (b : OrderContainer) (ids : List OrderKey) (iWay : OrderWay) :
    ({ b with m_InsertedOrderIDs := ids } : OrderContainer).opposite iWay = b.opposite iWay := by
  cases iWay <;> rfl

/-- C2: continuous matching respects price-time priority.  On a well-formed container,
`Insert` and `Modify` with matching return (given fuel for the opposite side), and the
deals they emit hit, in emission order, the orders of a front segment of the opposite
side in the order of that side (best price first, earliest arrival first within a
price); every order hit but possibly the last is filled completely and removed, and the
opposite side afterwards is the old one without the orders filled, with at most its new
front reduced in quantity. -/
theorem C2_price_time_priority (fuel : Nat) (clock : Nat → Nat) (c : OrderContainer)
    (hw : WellFormed c) :
    (∀ iOrder : Order, (iOrder.m_Way = .BUY ∨ iOrder.m_Way = .SELL) →
      (c.opposite iOrder.m_Way).length ≤ fuel →
      ∃ res : Outcome Order, c.Insert fuel clock iOrder true = some res ∧
        PriorityFill (OrderIDGenerator iOrder.m_ClientID iOrder.m_OrderID)
          (c.opposite iOrder.m_Way) res.deals (res.book.opposite iOrder.m_Way)) ∧
    (∀ r : OrderReplace, (r.m_Way = .BUY ∨ r.m_Way = .SELL) →
      (c.opposite r.m_Way).length ≤ fuel →
      ∃ res : Outcome OrderReplace, c.Modify fuel clock r true = some res ∧
        PriorityFill (OrderIDGenerator r.m_ClientID r.m_ReplacedOrderID)
          (c.opposite r.m_Way) res.deals (res.book.opposite r.m_Way)) := by
  constructor
  · intro iOrder hway hfuel
    have hpf := consume_priority iOrder clock (execFront c iOrder.m_Way iOrder.m_Price)
      (execBack c iOrder.m_Way iOrder.m_Price) iOrder.m_Qty
    rw [execFront_append_execBack] at hpf
    by_cases hdup : iOrder.key ∈ c.m_InsertedOrderIDs
    · refine ⟨⟨false, c, iOrder, []⟩, ?_, PriorityFill_nil _ _⟩
      simp [OrderContainer.Insert, hdup]
    · rw [Insert_match_eq fuel clock c iOrder hw hdup hway hfuel]
      simp only []
      split
      · split
        · refine ⟨_, rfl, ?_⟩
          simp only [opposite_setOwn, opposite_setOpposite _ _ _ hway]
          exact hpf
        · refine ⟨_, rfl, ?_⟩
          simp only [opposite_withIds, opposite_setOwn, opposite_setOpposite _ _ _ hway]
          exact hpf
      · refine ⟨_, rfl, ?_⟩
        simp only [opposite_withIds, opposite_setOpposite _ _ _ hway]
        exact hpf
  · intro r hway hfuel
    have hpf := consume_priority r clock (execFront c r.m_Way r.m_Price)
      (execBack c r.m_Way r.m_Price) r.m_Qty
    rw [execFront_append_execBack] at hpf
    rw [Modify_match_eq fuel clock c r hw hway hfuel]
    simp only []
    split
    · exact ⟨_, rfl, PriorityFill_nil _ _⟩
    · split
      · exact ⟨_, rfl, PriorityFill_nil _ _⟩
      · refine ⟨_, rfl, ?_⟩
        simp only [opposite_withIds, opposite_setOwn, opposite_setOpposite _ _ _ hway]
        exact hpf

/-- C3: `GetExecutableQuantity` over the ask side is the sum of the quantities of the
resting asks priced at or below `P`, over the bid side the sum of the quantities of the
resting bids priced at or above `P`; the message overload is the minimum of that sum,
taken on the side opposite to the way, and of the quantity of the message, for BUY and
SELL, and `0` for any other way (`MAX_WAY` stands for all of them). -/
theorem C3_executable_quantity (c : OrderContainer) (P : Nat) :
    GetExecutableQuantity .less c.m_AskOrders P
        = ((c.m_AskOrders.filter (fun o => decide (o.m_Price ≤ P))).map (fun o => o.m_Qty)).sum ∧
    GetExecutableQuantity .greater c.m_BidOrders P
        = ((c.m_BidOrders.filter (fun o => decide (P ≤ o.m_Price))).map (fun o => o.m_Qty)).sum ∧
    (∀ (M : Type) [Msg M] (iMsg : M),
      c.GetExecutableQuantity iMsg .BUY
          = min (GetExecutableQuantity .less c.m_AskOrders (Msg.GetPrice iMsg))
              (Msg.GetQuantity iMsg) ∧
      c.GetExecutableQuantity iMsg .SELL
          = min (GetExecutableQuantity .greater c.m_BidOrders (Msg.GetPrice iMsg))
              (Msg.GetQuantity iMsg) ∧
      c.GetExecutableQuantity iMsg .MAX_WAY = 0) := by
  refine ⟨?_, ?_, ?_⟩
  · rw [GetExecutableQuantity_eq]; rfl
  · rw [GetExecutableQuantity_eq]; rfl
  · intro M _ iMsg
    exact ⟨rfl, rfl, rfl⟩

theorem HitTrace_remove {M : Type} [Msg M] (iMsg : M) (q : Nat) (ds : List Deal)
    (l : List Order) (a : Nat) :
    HitTrace (Msg.RemoveQuantity iMsg q) ds l a ↔ HitTrace iMsg ds l a := by
  induction ds generalizing l a with
  | nil => simp [HitTrace]
  | cons d ds ih =>
    cases l with
    | nil => simp [HitTrace]
    | cons r rs => simp only [HitTrace, GenerateDeal_remove_msg, Msg.price_remove, ih]

theorem Order.SetQuantity_self (o : Order) : o.SetQuantity o.m_Qty = o := by
  cases o; rfl

/-- Once the aggressor has no quantity left while a match quantity remains and the
front order has a positive quantity, the loop of `ProcessDeals` makes no progress: no
amount of fuel lets it return. -/
theorem ProcessDeals_stuck {M : Type} [Msg M] (fuel : Nat) :
    ∀ (clock : Nat → Nat) (r : Order) (rest : List Order) (iMsg : M) (m : Nat),
      Msg.GetQuantity iMsg = 0 → 0 < r.m_Qty → 0 < m →
      ProcessDeals fuel clock (r :: rest) iMsg m = none := by
  induction fuel with
  | zero => intro clock r rest iMsg m _ _ hm; simp [ProcessDeals, hm]
  | succ f ih =>
    intro clock r rest iMsg m ha hr hm
    have hne : ¬ r.m_Qty = 0 := by omega
    simp only [ProcessDeals, hm, if_true, ha, Nat.min_zero, Nat.not_lt_zero, if_false,
      Nat.sub_zero, Order.SetQuantity_self, hne, Msg.remove_zero, ih _ r rest iMsg m ha hr hm,
      Option.map_none']

/-- Every returning run of `ProcessDeals` builds its deals against the front of the
side, one deal per order. -/
theorem ProcessDeals_trace {M : Type} [Msg M] (fuel : Nat) :
    ∀ (clock : Nat → Nat) (Orders : List Order) (iMsg : M) (m : Nat)
      (res : List Order × M × List Deal),
      ProcessDeals fuel clock Orders iMsg m = some res →
      HitTrace iMsg res.2.2 Orders (Msg.GetQuantity iMsg) := by
  induction fuel with
  | zero =>
    intro clock Orders iMsg m res h
    by_cases hm : 0 < m
    · simp [ProcessDeals, hm] at h
    · simp only [ProcessDeals, hm, if_false, Option.some.injEq] at h
      subst h; simp [HitTrace]
  | succ f ih =>
    intro clock Orders iMsg m res h
    by_cases hm : 0 < m
    · cases Orders with
      | nil => simp [ProcessDeals, hm] at h
      | cons r rest =>
        by_cases hlt : m < min r.m_Qty (Msg.GetQuantity iMsg)
        · simp [ProcessDeals, hm, hlt] at h
        · simp only [ProcessDeals, hm, if_true, hlt, if_false, Option.map_eq_some'] at h
          obtain ⟨res1, hrec, hres⟩ := h
          subst hres
          simp only [HitTrace, GenerateDeal_remove]
          refine ⟨⟨clock 0, rfl⟩, ?_⟩
          by_cases hq : (r.SetQuantity (r.m_Qty - min r.m_Qty (Msg.GetQuantity iMsg))).m_Qty = 0
          · rw [if_pos hq] at hrec
            have := ih _ _ _ _ _ hrec
            rw [HitTrace_remove, Msg.qty_remove] at this
            exact this
          · rw [if_neg hq] at hrec
            rw [Order.SetQuantity_qty] at hq
            have hexec : min r.m_Qty (Msg.GetQuantity iMsg) = Msg.GetQuantity iMsg := by omega
            by_cases hm1 : 0 < m - min r.m_Qty (Msg.GetQuantity iMsg)
            · have hs := ProcessDeals_stuck f (fun i => clock (i + 1))
                (r.SetQuantity (r.m_Qty - min r.m_Qty (Msg.GetQuantity iMsg))) rest
                (Msg.RemoveQuantity iMsg (min r.m_Qty (Msg.GetQuantity iMsg)))
                (m - min r.m_Qty (Msg.GetQuantity iMsg))
                (by rw [Msg.qty_remove]; omega)
                (by rw [Order.SetQuantity_qty]; omega) hm1
              rw [hs] at hrec
              exact absurd hrec (by simp)
            · have hz : m - min r.m_Qty (Msg.GetQuantity iMsg) = 0 := by omega
              rw [hz, ProcessDeals_zero] at hrec
              have := Option.some.inj hrec
              subst this
              simp [HitTrace]
    · simp only [ProcessDeals, hm, if_false, Option.some.injEq] at h
      subst h; simp [HitTrace]

theorem container_ProcessDeals_trace {M : Type} [Msg M] (fuel : Nat) (clock : Nat → Nat)
    (c : OrderContainer) (iMsg : M) (iWay : OrderWay) (m : Nat)
    (s : OrderContainer × M × List Deal)
    (h : c.ProcessDeals fuel clock iMsg iWay m = some s) :
    HitTrace iMsg s.2.2 (c.opposite iWay) (Msg.GetQuantity iMsg) := by
  cases iWay
  · simp only [OrderContainer.ProcessDeals, Option.map_eq_some'] at h
    obtain ⟨res, hres, hs⟩ := h
    subst hs
    exact ProcessDeals_trace fuel clock _ iMsg m res hres
  · simp only [OrderContainer.ProcessDeals, Option.map_eq_some'] at h
    obtain ⟨res, hres, hs⟩ := h
    subst hs
    exact ProcessDeals_trace fuel clock _ iMsg m res hres
  · simp [OrderContainer.ProcessDeals] at h

/-- Every returning `Insert` builds its deals against the front of the opposite side. -/
theorem Insert_trace (fuel : Nat) (clock : Nat → Nat) (c : OrderContainer) (iOrder : Order)
    (Match : Bool) (res : Outcome Order) (h : c.Insert fuel clock iOrder Match = some res) :
    HitTrace iOrder res.deals (c.opposite iOrder.m_Way) iOrder.m_Qty := by
  unfold OrderContainer.Insert at h
  simp only [] at h
  by_cases hdup : iOrder.key ∈ c.m_InsertedOrderIDs
  · simp only [hdup, if_true, Option.some.injEq] at h
    subst h; simp [HitTrace]
  · simp only [hdup, if_false, Option.bind_eq_some] at h
    obtain ⟨s, hs, hrest⟩ := h
    have hd : res.deals = s.2.2 := by
      split at hrest
      · simp only [Option.bind_eq_some] at hrest
        obtain ⟨a, _, ha⟩ := hrest
        split at ha <;> (simp only [Option.some.injEq] at ha; subst ha; rfl)
      · simp only [Option.some.injEq] at hrest; subst hrest; rfl
    rw [hd]
    by_cases hM : Match = true
    · simp only [hM, if_true] at hs
      split at hs
      · exact container_ProcessDeals_trace fuel clock c iOrder _ _ s hs
      · simp only [Option.some.injEq] at hs; subst hs; simp [HitTrace]
    · simp only [Bool.not_eq_true] at hM
      simp only [hM, Bool.false_eq_true, if_false, Option.some.injEq] at hs
      subst hs; simp [HitTrace]

/-- Every returning `Modify` builds its deals against the front of the opposite side. -/
theorem Modify_trace (fuel : Nat) (clock : Nat → Nat) (c : OrderContainer) (r : OrderReplace)
    (Match : Bool) (res : Outcome OrderReplace) (h : c.Modify fuel clock r Match = some res) :
    HitTrace r res.deals (c.opposite r.m_Way) r.m_Qty := by
  have hpm : ∀ p, c.ProcessModify fuel clock r Match = some p →
      HitTrace r p.2.2.2 (c.opposite r.m_Way) r.m_Qty := by
    intro p hp
    unfold OrderContainer.ProcessModify at hp
    by_cases hM : Match = true
    · simp only [hM, if_true] at hp
      split at hp
      · simp only [Option.map_eq_some'] at hp
        obtain ⟨s, hs, hsp⟩ := hp
        have := container_ProcessDeals_trace fuel clock c r _ _ s hs
        split at hsp <;> (subst hsp; exact this)
      · simp only [Option.some.injEq] at hp; subst hp; simp [HitTrace]
    · simp only [Bool.not_eq_true] at hM
      simp only [hM, Bool.false_eq_true, if_false, Option.some.injEq] at hp
      subst hp; simp [HitTrace]
  have ham : ∀ sp side setSide,
      c.ApplyModify fuel clock r Match sp side setSide = some res →
      HitTrace r res.deals (c.opposite r.m_Way) r.m_Qty := by
    intro sp side setSide ha
    unfold OrderContainer.ApplyModify at ha
    simp only [] at ha
    split at ha
    · simp only [Option.map_eq_some'] at ha
      obtain ⟨p, hp, hres⟩ := ha
      subst hres
      exact hpm p hp
    · simp only [Option.some.injEq] at ha; subst ha; simp [HitTrace]
  unfold OrderContainer.Modify at h
  simp only [] at h
  split at h
  · simp only [Option.some.injEq] at h; subst h; simp [HitTrace]
  · split at h
    · exact ham _ _ _ h
    · exact ham _ _ _ h
    · simp at h

theorem HitTrace_prices {M : Type} [Msg M] (iMsg : M) (ds : List Deal) :
    ∀ (l : List Order) (a : Nat), HitTrace iMsg ds l a →
      List.Forall₂ (LowerPriceRule (Msg.GetPrice iMsg)) ds (l.take ds.length) := by
  induction ds with
  | nil => intro l a _; simp
  | cons d ds ih =>
    intro l a h
    cases l with
    | nil => simp [HitTrace] at h
    | cons r rs =>
      simp only [HitTrace] at h
      obtain ⟨⟨now, hd⟩, hrest⟩ := h
      simp only [List.length_cons, List.take_succ_cons]
      refine List.Forall₂.cons ?_ (ih rs _ hrest)
      subst hd
      unfold LowerPriceRule
      rw [GenerateDeal_price]
      constructor <;> intro hlt <;> omega

theorem HitTrace_roles {M : Type} [Msg M] (iMsg : M) (ds : List Deal) :
    ∀ (l : List Order) (a : Nat), HitTrace iMsg ds l a →
      DealRoles (Msg.GetClientID iMsg) (Msg.GetAggressorID iMsg) ds l a := by
  induction ds with
  | nil => intro l a _; simp [DealRoles]
  | cons d ds ih =>
    intro l a h
    cases l with
    | nil => simp [HitTrace] at h
    | cons r rs =>
      simp only [HitTrace] at h
      obtain ⟨⟨now, hd⟩, hrest⟩ := h
      subst hd
      simp only [DealRoles, GenerateDeal_qty, true_and]
      refine ⟨?_, ?_, ih rs _ hrest⟩
      · intro hb
        simp [GenerateDeal, hb, Deal.new]
      · intro hs
        simp [GenerateDeal, hs, Deal.new]

/-- C4 (amended): for every deal produced by continuous matching (every returning
`Insert` or `Modify`), the deal, built against the order of the same rank at the front
of the opposite side, is priced at the resting order's price whenever that price is
lower than the aggressor's limit, and at the aggressor's limit otherwise, for a BUY
and for a SELL aggressor alike. -/
theorem C4_deal_price (fuel : Nat) (clock : Nat → Nat) (c : OrderContainer) (Match : Bool) :
    (∀ (iOrder : Order) (res : Outcome Order),
      c.Insert fuel clock iOrder Match = some res →
      List.Forall₂ (LowerPriceRule iOrder.m_Price) res.deals
        ((c.opposite iOrder.m_Way).take res.deals.length)) ∧
    (∀ (r : OrderReplace) (res : Outcome OrderReplace),
      c.Modify fuel clock r Match = some res →
      List.Forall₂ (LowerPriceRule r.m_Price) res.deals
        ((c.opposite r.m_Way).take res.deals.length)) :=
  ⟨fun iOrder res h =>
      HitTrace_prices iOrder res.deals _ _ (Insert_trace fuel clock c iOrder Match res h),
    fun r res h => HitTrace_prices r res.deals _ _ (Modify_trace fuel clock c r Match res h)⟩

/-- C5: in every returning `Insert` or `Modify`, each deal is built against the order of
its rank at the front of the opposite side; when that resting order is a BUY the buyer
of the deal is (resting client id, resting order id) and the seller is (aggressor client
id, aggressor id), when it is a SELL the roles are swapped; the aggressor id is the
order id of an inserted order and the replacement order id of a replace message; the
deal quantity is the minimum of the resting quantity and of the quantity the aggressor
has left. -/
theorem C5_deal_parties (fuel : Nat) (clock : Nat → Nat) (c : OrderContainer) (Match : Bool) :
    (∀ (iOrder : Order) (res : Outcome Order),
      c.Insert fuel clock iOrder Match = some res →
      DealRoles iOrder.m_ClientID iOrder.m_OrderID res.deals (c.opposite iOrder.m_Way)
        iOrder.m_Qty) ∧
    (∀ (r : OrderReplace) (res : Outcome OrderReplace),
      c.Modify fuel clock r Match = some res →
      DealRoles r.m_ClientID r.m_ReplacedOrderID res.deals (c.opposite r.m_Way) r.m_Qty) :=
  ⟨fun iOrder res h =>
      HitTrace_roles iOrder res.deals _ _ (Insert_trace fuel clock c iOrder Match res h),
    fun r res h => HitTrace_roles r res.deals _ _ (Modify_trace fuel clock c r Match res h)⟩

/-- C6: an order whose key is already in the inserted set is refused, with or without
matching: `Insert` returns `false`, emits no deal and leaves the bids, the asks, the
inserted set and the quantity of the order as they were. -/
theorem C6_insert_duplicate (fuel : Nat) (clock : Nat → Nat) (c : OrderContainer)
    (iOrder : Order) (Match : Bool)
    (hdup : OrderIDGenerator iOrder.m_ClientID iOrder.m_OrderID ∈ c.m_InsertedOrderIDs) :
    c.Insert fuel clock iOrder Match = some ⟨false, c, iOrder, []⟩ := by
  have h : iOrder.key ∈ c.m_InsertedOrderIDs := hdup
  simp [OrderContainer.Insert, h]

/-- C10: `Modify` returns `false` whenever the replacement key is in the inserted set,
and whenever no order with the existing key rests on the side named by the way of the
replace message (wherever else it rests); in both cases no deal is emitted and the
bids, the asks, the inserted set and the quantity of the message are unchanged, with or
without matching. -/
theorem C10_modify_rejected (fuel : Nat) (clock : Nat → Nat) (c : OrderContainer)
    (r : OrderReplace) (Match : Bool) :
    (OrderIDGenerator r.m_ClientID r.m_ReplacedOrderID ∈ c.m_InsertedOrderIDs →
      c.Modify fuel clock r Match = some ⟨false, c, r, []⟩) ∧
    ((r.m_Way = .BUY ∨ r.m_Way = .SELL) →
      findKey (c.own r.m_Way) (OrderIDGenerator r.m_ClientID r.m_ExistingOrderID) = none →
      c.Modify fuel clock r Match = some ⟨false, c, r, []⟩) := by
  constructor
  · intro hdup
    simp [OrderContainer.Modify, hdup]
  · intro hway hnone
    by_cases hdup : OrderIDGenerator r.m_ClientID r.m_ReplacedOrderID ∈ c.m_InsertedOrderIDs
    · simp [OrderContainer.Modify, hdup]
    · rcases hway with hb | hs
      · rw [hb] at hnone
        simp only [OrderContainer.own] at hnone
        simp [OrderContainer.Modify, hdup, hb, OrderContainer.ApplyModify, hnone]
      · rw [hs] at hnone
        simp only [OrderContainer.own] at hnone
        simp [OrderContainer.Modify, hdup, hs, OrderContainer.ApplyModify, hnone]

theorem container_ProcessDeals_ids {M : Type} [Msg M] (fuel : Nat) (clock : Nat → Nat)
    (c : OrderContainer) (iMsg : M) (iWay : OrderWay) (m : Nat)
    (s : OrderContainer × M × List Deal) (h : c.ProcessDeals fuel clock iMsg iWay m = some s) :
    s.1.m_InsertedOrderIDs = c.m_InsertedOrderIDs := by
  cases iWay
  · simp only [OrderContainer.ProcessDeals, Option.map_eq_some'] at h
    obtain ⟨res, _, hs⟩ := h
    subst hs; rfl
  · simp only [OrderContainer.ProcessDeals, Option.map_eq_some'] at h
    obtain ⟨res, _, hs⟩ := h
    subst hs; rfl
  · simp [OrderContainer.ProcessDeals] at h

theorem AuctionInsert_ids (c : OrderContainer) (o : Order) (a : OrderContainer × Bool)
    (h : c.AuctionInsert o = some a) : a.1.m_InsertedOrderIDs = c.m_InsertedOrderIDs := by
  unfold OrderContainer.AuctionInsert at h
  split at h
  · simp only [Option.some.injEq] at h; subst h; rfl
  · simp only [Option.some.injEq] at h; subst h; rfl
  · simp at h

/-- A returning `Insert` keeps every key of the inserted set, and adds the key of the
order when it returns `true`. -/
theorem Insert_ids (fuel : Nat) (clock : Nat → Nat) (c : OrderContainer) (iOrder : Order)
    (Match : Bool) (res : Outcome Order) (h : c.Insert fuel clock iOrder Match = some res) :
    (∀ k ∈ c.m_InsertedOrderIDs, k ∈ res.book.m_InsertedOrderIDs) ∧
      (res.ret = true → iOrder.key ∈ res.book.m_InsertedOrderIDs) := by
  unfold OrderContainer.Insert at h
  simp only [] at h
  by_cases hdup : iOrder.key ∈ c.m_InsertedOrderIDs
  · simp only [hdup, if_true, Option.some.injEq] at h
    subst h
    exact ⟨fun k hk => hk, fun _ => hdup⟩
  · simp only [hdup, if_false, Option.bind_eq_some] at h
    obtain ⟨s, hs, hrest⟩ := h
    have hsid : s.1.m_InsertedOrderIDs = c.m_InsertedOrderIDs := by
      cases Match
      · simp only [Bool.false_eq_true, if_false, Option.some.injEq] at hs
        subst hs; rfl
      · simp only [if_true] at hs
        split at hs
        · exact container_ProcessDeals_ids fuel clock c iOrder _ _ s hs
        · simp only [Option.some.injEq] at hs; subst hs; rfl
    split at hrest
    · simp only [Option.bind_eq_some] at hrest
      obtain ⟨a, ha, hres⟩ := hrest
      have haid := AuctionInsert_ids _ _ _ ha
      split at hres
      · simp only [Option.some.injEq] at hres
        subst hres
        refine ⟨fun k hk => ?_, fun hr => ?_⟩
        · show k ∈ a.1.m_InsertedOrderIDs
          rw [haid, hsid]; exact hk
        · simp at hr
      · simp only [Option.some.injEq] at hres
        subst hres
        refine ⟨fun k hk => ?_, fun _ => ?_⟩
        · show k ∈ a.1.m_InsertedOrderIDs.insert iOrder.key
          rw [haid, hsid]; exact List.mem_insert_of_mem hk
        · show iOrder.key ∈ a.1.m_InsertedOrderIDs.insert iOrder.key
          exact List.mem_insert_self _ _
    · simp only [Option.some.injEq] at hrest
      subst hrest
      refine ⟨fun k hk => ?_, fun _ => ?_⟩
      · show k ∈ s.1.m_InsertedOrderIDs.insert iOrder.key
        rw [hsid]; exact List.mem_insert_of_mem hk
      · show iOrder.key ∈ s.1.m_InsertedOrderIDs.insert iOrder.key
        exact List.mem_insert_self _ _

theorem ProcessModify_ids (fuel : Nat) (clock : Nat → Nat) (c : OrderContainer)
    (r : OrderReplace) (Match : Bool) (p : Bool × OrderContainer × OrderReplace × List Deal)
    (h : c.ProcessModify fuel clock r Match = some p) :
    p.2.1.m_InsertedOrderIDs = c.m_InsertedOrderIDs := by
  unfold OrderContainer.ProcessModify at h
  cases Match
  · simp only [Bool.false_eq_true, if_false, Option.some.injEq] at h
    subst h; rfl
  · simp only [if_true] at h
    split at h
    · simp only [Option.map_eq_some'] at h
      obtain ⟨s, hs, hsp⟩ := h
      have := container_ProcessDeals_ids fuel clock c r _ _ s hs
      split at hsp <;> (subst hsp; exact this)
    · simp only [Option.some.injEq] at h; subst h; rfl

/-- A returning `Modify` keeps every key of the inserted set. -/
theorem Modify_ids (fuel : Nat) (clock : Nat → Nat) (c : OrderContainer) (r : OrderReplace)
    (Match : Bool) (res : Outcome OrderReplace) (h : c.Modify fuel clock r Match = some res) :
    ∀ k ∈ c.m_InsertedOrderIDs, k ∈ res.book.m_InsertedOrderIDs := by
  unfold OrderContainer.Modify at h
  simp only [] at h
  split at h
  · simp only [Option.some.injEq] at h; subst h; exact fun k hk => hk
  · split at h
    · unfold OrderContainer.ApplyModify at h
      simp only [] at h
      split at h
      · simp only [Option.map_eq_some'] at h
        obtain ⟨p, hp, hres⟩ := h
        have hpid := ProcessModify_ids _ _ _ _ _ _ hp
        subst hres
        intro k hk
        show k ∈ List.insert _ p.2.1.m_InsertedOrderIDs
        rw [hpid]; exact List.mem_insert_of_mem hk
      · simp only [Option.some.injEq] at h; subst h; exact fun k hk => hk
    · unfold OrderContainer.ApplyModify at h
      simp only [] at h
      split at h
      · simp only [Option.map_eq_some'] at h
        obtain ⟨p, hp, hres⟩ := h
        have hpid := ProcessModify_ids _ _ _ _ _ _ hp
        subst hres
        intro k hk
        show k ∈ List.insert _ p.2.1.m_InsertedOrderIDs
        rw [hpid]; exact List.mem_insert_of_mem hk
      · simp only [Option.some.injEq] at h; subst h; exact fun k hk => hk
    · simp at h

/-- No call removes a key from the inserted set. -/
theorem apply_ids {ord : IterationOrder}
    (fuel : Nat) (clock : Nat → Nat) (c : OrderContainer) (op : Op)
    (c1 : OrderContainer) (h : c.apply ord fuel clock op = some c1) :
    ∀ k ∈ c.m_InsertedOrderIDs, k ∈ c1.m_InsertedOrderIDs := by
  cases op with
  | Insert iOrder Match =>
    simp only [OrderContainer.apply, Option.map_eq_some'] at h
    obtain ⟨res, hres, hb⟩ := h
    subst hb
    exact (Insert_ids fuel clock c iOrder Match res hres).1
  | Modify r Match =>
    simp only [OrderContainer.apply, Option.map_eq_some'] at h
    obtain ⟨res, hres, hb⟩ := h
    subst hb
    exact Modify_ids fuel clock c r Match res hres
  | Delete iOrderId iClientId iWay =>
    simp only [OrderContainer.apply, Option.map_eq_some'] at h
    obtain ⟨res, hres, hb⟩ := h
    subst hb
    unfold OrderContainer.Delete at hres
    simp only [] at hres
    split at hres
    · simp only [Option.some.injEq] at hres; subst hres; exact fun k hk => hk
    · simp only [Option.some.injEq] at hres; subst hres; exact fun k hk => hk
    · simp at hres
  | CancelAllOrders =>
    simp only [OrderContainer.apply, Option.some.injEq] at h
    subst h
    exact fun k hk => hk
  | MatchOrders =>
    simp only [OrderContainer.apply, Option.map_eq_some'] at h
    obtain ⟨res, hres, hb⟩ := h
    subst hb
    simp only [OrderContainer.MatchOrders, Option.map_eq_some'] at hres
    obtain ⟨t, _, ht⟩ := hres
    subst ht
    exact fun k hk => hk

theorem Reaches_ids {ord : IterationOrder} (c c1 : OrderContainer) (h : Reaches ord c c1) :
    ∀ k ∈ c.m_InsertedOrderIDs, k ∈ c1.m_InsertedOrderIDs := by
  induction h with
  | refl => exact fun k hk => hk
  | step fuel clock op _ hstep ih =>
    exact fun k hk => apply_ids fuel clock _ op _ hstep k (ih k hk)

/-- C7: the inserted set is never pruned.  No call of `Insert`, `Modify`, `Delete`,
`CancelAllOrders` or `MatchOrders` removes a key from it; so once `Insert` has returned
`true` for a key, then after any sequence of further calls every `Insert` carrying this
key returns `false`, and so does every `Modify` whose replacement key it is (neither
changes the container nor emits a deal). -/
theorem C7_inserted_ids_never_pruned (ord : IterationOrder) :
    (∀ (fuel : Nat) (clock : Nat → Nat) (c : OrderContainer) (op : Op) (c1 : OrderContainer),
      c.apply ord fuel clock op = some c1 →
      ∀ k ∈ c.m_InsertedOrderIDs, k ∈ c1.m_InsertedOrderIDs) ∧
    (∀ (fuel : Nat) (clock : Nat → Nat) (c : OrderContainer) (iOrder : Order) (Match : Bool)
      (res : Outcome Order),
      c.Insert fuel clock iOrder Match = some res → res.ret = true →
      ∀ c1 : OrderContainer, Reaches ord res.book c1 →
        (∀ (fuel1 : Nat) (clock1 : Nat → Nat) (o : Order) (Match1 : Bool),
          OrderIDGenerator o.m_ClientID o.m_OrderID
              = OrderIDGenerator iOrder.m_ClientID iOrder.m_OrderID →
          c1.Insert fuel1 clock1 o Match1 = some ⟨false, c1, o, []⟩) ∧
        (∀ (fuel1 : Nat) (clock1 : Nat → Nat) (r : OrderReplace) (Match1 : Bool),
          OrderIDGenerator r.m_ClientID r.m_ReplacedOrderID
              = OrderIDGenerator iOrder.m_ClientID iOrder.m_OrderID →
          c1.Modify fuel1 clock1 r Match1 = some ⟨false, c1, r, []⟩)) := by
  refine ⟨apply_ids, ?_⟩
  intro fuel clock c iOrder Match res hres hret c1 hreach
  have hmem : OrderIDGenerator iOrder.m_ClientID iOrder.m_OrderID ∈ c1.m_InsertedOrderIDs :=
    Reaches_ids _ _ hreach _ ((Insert_ids fuel clock c iOrder Match res hres).2 hret)
  constructor
  · intro fuel1 clock1 o Match1 hk
    have h : o.key ∈ c1.m_InsertedOrderIDs := by
      show OrderIDGenerator o.m_ClientID o.m_OrderID ∈ _
      rw [hk]; exact hmem
    simp [OrderContainer.Insert, h]
  · intro fuel1 clock1 r Match1 hk
    rw [← hk] at hmem
    simp [OrderContainer.Modify, hmem]

/-- C1 (counterexample): the book reached by inserting the bid 100@150 as order 5 of
client 1 and replacing it by order 6 is well-formed and its inserted set does not hold
the key `(1, 6)`; yet `Insert` of a BUY 50@140 under that key returns `false`, whatever
the fuel. -/
theorem C1_counterexample :
    (∀ ord : IterationOrder, Reaches ord OrderContainer.empty bookAfterReplace) ∧
    WellFormed bookAfterReplace ∧
    (⟨.BUY, 50, 140, 6, 1⟩ : Order).key ∉ bookAfterReplace.m_InsertedOrderIDs ∧
    (∀ (fuel : Nat) (clock : Nat → Nat),
      bookAfterReplace.Insert fuel clock ⟨.BUY, 50, 140, 6, 1⟩ true
        = some ⟨false, bookAfterReplace, ⟨.BUY, 50, 140, 6, 1⟩, []⟩) := by
  refine ⟨?_, by decide, by decide, fun fuel clock => rfl⟩
  intro ord
  have h1 : Reaches ord OrderContainer.empty bookOneBid :=
    Reaches.step 0 clock0 (.Insert ⟨.BUY, 100, 150, 5, 1⟩ false) (Reaches.refl _) rfl
  exact Reaches.step 0 clock0 (.Modify ⟨.BUY, 100, 150, 5, 6, 1⟩ false) h1 rfl

/-- C1 (witness): a BUY of 45 at 102 against asks 10@100, 20@100, 30@101, 5@103. -/
theorem C1_insert_match_witness :
    WellFormed bookFourAsks ∧
    (⟨.BUY, 45, 102, 9, 2⟩ : Order).key ∉ bookFourAsks.m_InsertedOrderIDs ∧
    ∃ res : Outcome Order,
      bookFourAsks.Insert 4 clock0 ⟨.BUY, 45, 102, 9, 2⟩ true = some res ∧
      res.ret = true ∧ dealQty res.deals = 45 ∧ res.msg.m_Qty = 0 ∧
      totalQty res.book.m_AskOrders + 45 = 65 := by
  refine ⟨by decide, by decide, ?_⟩
  obtain ⟨res, h1, h2, h3, h4, h5, _, _⟩ :=
    C1_insert_match 4 clock0 bookFourAsks ⟨.BUY, 45, 102, 9, 2⟩ (by decide) (by decide)
      (Or.inl rfl) rfl (by decide)
  have hX : totalQty ((bookFourAsks.opposite OrderWay.BUY).filter
      (executable OrderWay.BUY 102)) = 60 := by decide
  have hT : totalQty (bookFourAsks.opposite OrderWay.BUY) = 65 := by decide
  simp only [hX, hT] at h3 h5
  have h3' : dealQty res.deals = 45 := by simpa using h3
  refine ⟨res, h1, h2, h3', ?_, ?_⟩
  · rw [h4, h3']; rfl
  · rw [h3'] at h5; exact h5

/-- C2 (witness): a BUY of 45 at 102 and a replace to a BUY of 45 at 102 against asks
10@100, 20@100, 30@101, 5@103. -/
theorem C2_price_time_priority_witness :
    WellFormed bookFourAsks ∧
    (∃ res : Outcome Order,
      bookFourAsks.Insert 4 clock0 ⟨.BUY, 45, 102, 9, 2⟩ true = some res ∧
        PriorityFill (2, 9) bookFourAsks.m_AskOrders res.deals res.book.m_AskOrders) ∧
    (∃ res : Outcome OrderReplace,
      bookFourAsks.Modify 4 clock0 ⟨.BUY, 45, 102, 8, 9, 2⟩ true = some res ∧
        PriorityFill (2, 9) bookFourAsks.m_AskOrders res.deals res.book.m_AskOrders) :=
  ⟨by decide,
    (C2_price_time_priority 4 clock0 bookFourAsks (by decide)).1 ⟨.BUY, 45, 102, 9, 2⟩
      (Or.inl rfl) (by decide),
    (C2_price_time_priority 4 clock0 bookFourAsks (by decide)).2 ⟨.BUY, 45, 102, 8, 9, 2⟩
      (Or.inl rfl) (by decide)⟩

/-- C4 (counterexample): a SELL of 100 at 140 hits the resting bid 100@150; the price of
the resting bid is higher than the limit of the seller, so more favourable to the
aggressor, yet the deal is priced 140, the limit of the aggressor. -/
theorem C4_counterexample :
    WellFormed bookOneBid ∧
    bookOneBid.Insert 1 clock0 ⟨.SELL, 100, 140, 6, 1⟩ true
      = some ⟨true, ⟨[], [], [(1, 6), (1, 5)]⟩, ⟨.SELL, 0, 140, 6, 1⟩,
          [Deal.new 0 140 100 1 5 1 6]⟩ ∧
    bookOneBid.m_BidOrders = [⟨.BUY, 100, 150, 5, 1⟩] ∧
    (140 : Nat) < 150 ∧ (Deal.new 0 140 100 1 5 1 6).m_Price ≠ 150 := by
  refine ⟨by decide, rfl, rfl, by decide, by decide⟩

/-- C4 (witness): the SELL of 100 at 140 against the bid 100@150, and a BUY of 45 at
102 against asks at 100, 100, 101. -/
theorem C4_deal_price_witness :
    List.Forall₂ (LowerPriceRule 140) [Deal.new 0 140 100 1 5 1 6] [⟨.BUY, 100, 150, 5, 1⟩] ∧
    ∀ res : Outcome OrderReplace,
      bookFourAsks.Modify 4 clock0 ⟨.BUY, 45, 102, 8, 9, 2⟩ true = some res →
      List.Forall₂ (LowerPriceRule 102) res.deals
        (bookFourAsks.m_AskOrders.take res.deals.length) :=
  ⟨(C4_deal_price 1 clock0 bookOneBid true).1 ⟨.SELL, 100, 140, 6, 1⟩
      ⟨true, ⟨[], [], [(1, 6), (1, 5)]⟩, ⟨.SELL, 0, 140, 6, 1⟩, [Deal.new 0 140 100 1 5 1 6]⟩ rfl,
    (C4_deal_price 4 clock0 bookFourAsks true).2 ⟨.BUY, 45, 102, 8, 9, 2⟩⟩

/-- C5 (witness): the deals of a BUY of 45 at 102 (order 9 of client 2) against asks
10@100, 20@100, 30@101 of client 1, and of a replace of order 7 by order 8 of client 2
selling 100 at 140 into the bid 100@150. -/
theorem C5_deal_parties_witness :
    DealRoles 2 9
      [Deal.new 0 100 10 2 9 1 1, Deal.new 0 100 20 2 9 1 2, Deal.new 0 101 15 2 9 1 3]
      bookFourAsks.m_AskOrders 45 ∧
    DealRoles 2 8 [Deal.new 0 140 100 1 5 2 8] bookOneBid.m_BidOrders 100 :=
  ⟨(C5_deal_parties 4 clock0 bookFourAsks true).1 ⟨.BUY, 45, 102, 9, 2⟩
      ⟨true, ⟨[], [⟨.SELL, 15, 101, 3, 1⟩, ⟨.SELL, 5, 103, 4, 1⟩],
        [(2, 9), (1, 1), (1, 2), (1, 3), (1, 4)]⟩, ⟨.BUY, 0, 102, 9, 2⟩,
        [Deal.new 0 100 10 2 9 1 1, Deal.new 0 100 20 2 9 1 2, Deal.new 0 101 15 2 9 1 3]⟩ rfl,
    (C5_deal_parties 1 clock0
        ⟨[⟨.BUY, 100, 150, 5, 1⟩], [⟨.SELL, 100, 160, 7, 2⟩], [(1, 5), (2, 7)]⟩ true).2
      ⟨.SELL, 100, 140, 7, 8, 2⟩
      ⟨true, ⟨[], [], [(1, 5), (2, 7)]⟩, ⟨.SELL, 0, 140, 7, 8, 2⟩,
        [Deal.new 0 140 100 1 5 2 8]⟩ rfl⟩

/-- C6 (witness): order 5 of client 1 again, with and without matching. -/
theorem C6_insert_duplicate_witness :
    (1, 5) ∈ bookOneBid.m_InsertedOrderIDs ∧
    bookOneBid.Insert 3 clock0 ⟨.SELL, 10, 150, 5, 1⟩ true
      = some ⟨false, bookOneBid, ⟨.SELL, 10, 150, 5, 1⟩, []⟩ ∧
    bookOneBid.Insert 3 clock0 ⟨.SELL, 10, 150, 5, 1⟩ false
      = some ⟨false, bookOneBid, ⟨.SELL, 10, 150, 5, 1⟩, []⟩ :=
  ⟨by decide, C6_insert_duplicate 3 clock0 bookOneBid ⟨.SELL, 10, 150, 5, 1⟩ true (by decide),
    C6_insert_duplicate 3 clock0 bookOneBid ⟨.SELL, 10, 150, 5, 1⟩ false (by decide)⟩

/-- C7 (witness): order 5 of client 1 is inserted, then replaced by order 6; its key
stays refused by `Insert` and as a replacement key by `Modify`. -/
theorem C7_inserted_ids_never_pruned_witness :
    OrderContainer.empty.Insert 0 clock0 ⟨.BUY, 100, 150, 5, 1⟩ false
      = some ⟨true, bookOneBid, ⟨.BUY, 100, 150, 5, 1⟩, []⟩ ∧
    Reaches priceIteration bookOneBid bookAfterReplace ∧
    bookAfterReplace.Insert 2 clock0 ⟨.SELL, 10, 150, 5, 1⟩ true
      = some ⟨false, bookAfterReplace, ⟨.SELL, 10, 150, 5, 1⟩, []⟩ ∧
    bookAfterReplace.Modify 2 clock0 ⟨.BUY, 10, 150, 6, 5, 1⟩ true
      = some ⟨false, bookAfterReplace, ⟨.BUY, 10, 150, 6, 5, 1⟩, []⟩ :=
  have hreach : Reaches priceIteration bookOneBid bookAfterReplace :=
    Reaches.step 0 clock0 (.Modify ⟨.BUY, 100, 150, 5, 6, 1⟩ false) (Reaches.refl _) rfl
  ⟨rfl, hreach,
    ((C7_inserted_ids_never_pruned priceIteration).2 0 clock0 OrderContainer.empty ⟨.BUY, 100, 150, 5, 1⟩ false
      ⟨true, bookOneBid, ⟨.BUY, 100, 150, 5, 1⟩, []⟩ rfl rfl bookAfterReplace hreach).1
        2 clock0 ⟨.SELL, 10, 150, 5, 1⟩ true rfl,
    ((C7_inserted_ids_never_pruned priceIteration).2 0 clock0 OrderContainer.empty ⟨.BUY, 100, 150, 5, 1⟩ false
      ⟨true, bookOneBid, ⟨.BUY, 100, 150, 5, 1⟩, []⟩ rfl rfl bookAfterReplace hreach).2
        2 clock0 ⟨.BUY, 10, 150, 6, 5, 1⟩ true rfl⟩

/-- C8 (the code at the failing input): order 5 of client 1 is inserted and replaced by
order 6, both calls return `true`; the inserted set then holds `(1, 5)` only, and both
an `Insert` under key `(1, 6)` and a `Modify` whose replacement id is 6 return
`true`. -/
theorem C8_replacement_key_not_recorded :
    OrderContainer.empty.Insert 0 clock0 ⟨.BUY, 100, 150, 5, 1⟩ false
      = some ⟨true, bookOneBid, ⟨.BUY, 100, 150, 5, 1⟩, []⟩ ∧
    bookOneBid.Modify 0 clock0 ⟨.BUY, 100, 150, 5, 6, 1⟩ false
      = some ⟨true, bookAfterReplace, ⟨.BUY, 100, 150, 5, 6, 1⟩, []⟩ ∧
    bookAfterReplace.m_InsertedOrderIDs = [(1, 5)] ∧
    bookAfterReplace.Insert 0 clock0 ⟨.SELL, 10, 200, 6, 1⟩ false
      = some ⟨true, ⟨[⟨.BUY, 100, 150, 6, 1⟩], [⟨.SELL, 10, 200, 6, 1⟩], [(1, 6), (1, 5)]⟩,
          ⟨.SELL, 10, 200, 6, 1⟩, []⟩ ∧
    bookAfterReplace.Modify 0 clock0 ⟨.BUY, 10, 200, 6, 6, 1⟩ false
      = some ⟨true, ⟨[⟨.BUY, 10, 200, 6, 1⟩], [], [(1, 6), (1, 5)]⟩,
          ⟨.BUY, 10, 200, 6, 6, 1⟩, []⟩ :=
  ⟨rfl, rfl, rfl, rfl, rfl⟩

/-- C9 (the code at the failing input): in the well-formed book reached by inserting
orders 5 and 7 of client 1 (both BUY 100@150) and replacing order 5 by order 6, the
replace of order 7 by a BUY 50@140 under the id 6 returns `true` with 50 left in the
message; order 7 is erased, but no order 6 of price 140 and quantity 50 rests: the bid
side holds the older order 6 only. -/
theorem C9_replacement_dropped :
    (∀ ord : IterationOrder, Reaches ord OrderContainer.empty bookTwoBids) ∧
    WellFormed bookTwoBids ∧
    bookTwoBids.Modify 0 clock0 ⟨.BUY, 50, 140, 7, 6, 1⟩ false
      = some ⟨true, ⟨[⟨.BUY, 100, 150, 6, 1⟩], [], [(1, 7), (1, 5)]⟩,
          ⟨.BUY, 50, 140, 7, 6, 1⟩, []⟩ ∧
    (⟨.BUY, 50, 140, 6, 1⟩ : Order) ∉ [(⟨.BUY, 100, 150, 6, 1⟩ : Order)] := by
  refine ⟨?_, by decide, rfl, by decide⟩
  intro ord
  have h1 : Reaches ord OrderContainer.empty bookOneBid :=
    Reaches.step 0 clock0 (.Insert ⟨.BUY, 100, 150, 5, 1⟩ false) (Reaches.refl _) rfl
  have h2 : Reaches ord OrderContainer.empty
      ⟨[⟨.BUY, 100, 150, 5, 1⟩, ⟨.BUY, 100, 150, 7, 1⟩], [], [(1, 7), (1, 5)]⟩ :=
    Reaches.step 0 clock0 (.Insert ⟨.BUY, 100, 150, 7, 1⟩ false) h1 rfl
  exact Reaches.step 0 clock0 (.Modify ⟨.BUY, 100, 150, 5, 6, 1⟩ false) h2 rfl

/-- C10 (witness): a replace whose replacement key `(1, 5)` is in the inserted set, and
a SELL replace of order 5 of client 1, which rests on the bid side only, with matching
and an executable bid. -/
theorem C10_modify_rejected_witness :
    (1, 5) ∈ bookBidAsk.m_InsertedOrderIDs ∧
    bookBidAsk.Modify 3 clock0 ⟨.SELL, 100, 140, 7, 5, 1⟩ true
      = some ⟨false, bookBidAsk, ⟨.SELL, 100, 140, 7, 5, 1⟩, []⟩ ∧
    findKey bookBidAsk.m_AskOrders (1, 5) = none ∧
    findKey bookBidAsk.m_BidOrders (1, 5) = some ⟨.BUY, 100, 150, 5, 1⟩ ∧
    bookBidAsk.Modify 3 clock0 ⟨.SELL, 100, 140, 5, 8, 1⟩ true
      = some ⟨false, bookBidAsk, ⟨.SELL, 100, 140, 5, 8, 1⟩, []⟩ :=
  ⟨by decide,
    (C10_modify_rejected 3 clock0 bookBidAsk ⟨.SELL, 100, 140, 7, 5, 1⟩ true).1 (by decide),
    rfl, rfl,
    (C10_modify_rejected 3 clock0 bookBidAsk ⟨.SELL, 100, 140, 5, 8, 1⟩ true).2 (Or.inr rfl) rfl⟩

theorem Deal.operatorEq_iff (same : Bool) (a b : Deal) (hsame : same = true → a = b) :
    Deal.operatorEq same a b = true ↔ Deal.SameTrade a b := by
  cases same
  · simp [Deal.operatorEq, Deal.SameTrade, and_assoc]
  · have := hsame rfl
    subst this
    simp [Deal.operatorEq, Deal.SameTrade]

/-- C20: `a == b` holds exactly when price, quantity, buyer client id, buyer order id,
seller client id and seller order id are equal, whatever the timestamps and the
references; so the equality of deals is reflexive, symmetric and transitive, and two
deals constructed from the same six arguments at different times are equal. -/
theorem C20_deal_equality :
    (∀ (same : Bool) (a b : Deal), (same = true → a = b) →
      (Deal.operatorEq same a b = true ↔
        a.m_Price = b.m_Price ∧ a.m_Qty = b.m_Qty ∧ a.m_BuyerClientID = b.m_BuyerClientID ∧
          a.m_BuyerOrderID = b.m_BuyerOrderID ∧ a.m_SellerClientID = b.m_SellerClientID ∧
          a.m_SellerOrderID = b.m_SellerOrderID)) ∧
    (∀ (same : Bool) (a : Deal), Deal.operatorEq same a a = true) ∧
    (∀ (s1 s2 : Bool) (a b : Deal), (s1 = true → a = b) → (s2 = true → b = a) →
      Deal.operatorEq s1 a b = true → Deal.operatorEq s2 b a = true) ∧
    (∀ (s1 s2 s3 : Bool) (a b c : Deal), (s1 = true → a = b) → (s2 = true → b = c) →
      (s3 = true → a = c) →
      Deal.operatorEq s1 a b = true → Deal.operatorEq s2 b c = true →
      Deal.operatorEq s3 a c = true) ∧
    (∀ (t1 t2 iPrice iQty iBuyerClientID iBuyerOrderID iSellerClientID iSellerOrderID : Nat),
      Deal.operatorEq false
        (Deal.new t1 iPrice iQty iBuyerClientID iBuyerOrderID iSellerClientID iSellerOrderID)
        (Deal.new t2 iPrice iQty iBuyerClientID iBuyerOrderID iSellerClientID iSellerOrderID)
        = true) := by
  refine ⟨fun same a b h => Deal.operatorEq_iff same a b h, ?_, ?_, ?_, ?_⟩
  · intro same a
    exact (Deal.operatorEq_iff same a a (fun _ => rfl)).mpr ⟨rfl, rfl, rfl, rfl, rfl, rfl⟩
  · intro s1 s2 a b h1 h2 hab
    obtain ⟨e1, e2, e3, e4, e5, e6⟩ := (Deal.operatorEq_iff s1 a b h1).mp hab
    exact (Deal.operatorEq_iff s2 b a h2).mpr ⟨e1.symm, e2.symm, e3.symm, e4.symm, e5.symm, e6.symm⟩
  · intro s1 s2 s3 a b c h1 h2 h3 hab hbc
    obtain ⟨e1, e2, e3, e4, e5, e6⟩ := (Deal.operatorEq_iff s1 a b h1).mp hab
    obtain ⟨f1, f2, f3, f4, f5, f6⟩ := (Deal.operatorEq_iff s2 b c h2).mp hbc
    exact (Deal.operatorEq_iff s3 a c h3).mpr
      ⟨e1.trans f1, e2.trans f2, e3.trans f3, e4.trans f4, e5.trans f5, e6.trans f6⟩
  · intro t1 t2 p q bc bo sc so
    simp [Deal.operatorEq, Deal.new]

/-- C20 (witness): two deals that differ in timestamp and reference only. -/
theorem C20_deal_equality_witness :
    Deal.operatorEq false ⟨[], 150, 100, 1, 5, 1, 6, 10⟩ ⟨['x'], 150, 100, 1, 5, 1, 6, 20⟩ = true ∧
    Deal.operatorEq false ⟨['x'], 150, 100, 1, 5, 1, 6, 20⟩ ⟨[], 150, 100, 1, 5, 1, 6, 10⟩ = true :=
  have h : Deal.operatorEq false ⟨[], 150, 100, 1, 5, 1, 6, 10⟩
      ⟨['x'], 150, 100, 1, 5, 1, 6, 20⟩ = true :=
    (C20_deal_equality.1 false ⟨[], 150, 100, 1, 5, 1, 6, 10⟩ ⟨['x'], 150, 100, 1, 5, 1, 6, 20⟩
      (fun h => absurd h (by decide))).mpr ⟨rfl, rfl, rfl, rfl, rfl, rfl⟩
  ⟨h, C20_deal_equality.2.2.1 false false _ _ (fun h => absurd h (by decide))
    (fun h => absurd h (by decide)) h⟩

theorem DoCancelAllOrders_eq (l : List Order) :
    OrderContainer.DoCancelAllOrders l = (l, []) := by
  induction l with
  | nil => rfl
  | cons o os ih => simp [OrderContainer.DoCancelAllOrders, ih]

theorem keyBefore_iff (a b : Order) :
    keyBefore a b = true ↔
      a.m_ClientID < b.m_ClientID ∨ (a.m_ClientID = b.m_ClientID ∧ a.m_OrderID ≤ b.m_OrderID) := by
  simp [keyBefore]

/-- The iteration by ascending key is given by the keys alone. -/
theorem keyIteration_keyDetermined : keyIteration.KeyDetermined := by
  intro l1 l2 hp
  haveI : IsTotal Order (fun a b => keyBefore a b = true) :=
    ⟨fun a b => by simp only [keyBefore_iff]; omega⟩
  haveI : IsTrans Order (fun a b => keyBefore a b = true) :=
    ⟨fun a b c hab hbc => by simp only [keyBefore_iff] at hab hbc ⊢; omega⟩
  haveI : IsAntisymm OrderKey (fun k1 k2 => k1.1 < k2.1 ∨ (k1.1 = k2.1 ∧ k1.2 ≤ k2.2)) :=
    ⟨fun k1 k2 h12 h21 => by
      have h1 : k1.1 = k2.1 := by omega
      have h2 : k1.2 = k2.2 := by omega
      exact Prod.ext h1 h2⟩
  have hs : ∀ l : List Order,
      List.Sorted (fun k1 k2 : OrderKey => k1.1 < k2.1 ∨ (k1.1 = k2.1 ∧ k1.2 ≤ k2.2))
        ((keyIteration.visit l).map Order.key) := by
    intro l
    have h := List.sorted_insertionSort (fun a b => keyBefore a b = true) l
    unfold List.Sorted at h ⊢
    rw [List.pairwise_map]
    refine List.Pairwise.imp ?_ h
    intro a b hab
    exact (keyBefore_iff a b).mp hab
  have hperm : ((keyIteration.visit l1).map Order.key).Perm
      ((keyIteration.visit l2).map Order.key) :=
    ((keyIteration.perm l1).map _).trans (hp.trans ((keyIteration.perm l2).map _).symm)
  exact List.eq_of_perm_of_sorted hperm (hs l1) (hs l2)

/-- What `CancelAllOrders` returns: the emptied container and the orders cancelled, the
asks then the bids, each side in its iteration order. -/
theorem CancelAllOrders_eq (ord : IterationOrder) (c : OrderContainer) :
    c.CancelAllOrders ord
      = (⟨[], [], c.m_InsertedOrderIDs⟩, ord.visit c.m_AskOrders ++ ord.visit c.m_BidOrders) := by
  simp [OrderContainer.CancelAllOrders, DoCancelAllOrders_eq]

theorem visit_nil (ord : IterationOrder) : ord.visit [] = [] :=
  List.perm_nil.mp (ord.perm [])

/-- Whatever iteration order is given by the keys alone, one of the two books
`bookAsksA`, `bookAsksB`, which hold the same keys at swapped prices, is not drained in
price-priority order. -/
theorem swapped_books_drained (ord : IterationOrder) (hk : ord.KeyDetermined) :
    (bookAsksA.CancelAllOrders ord).2 ≠ bookAsksA.m_AskOrders ++ bookAsksA.m_BidOrders ∨
    (bookAsksB.CancelAllOrders ord).2 ≠ bookAsksB.m_AskOrders ++ bookAsksB.m_BidOrders := by
  by_contra hcon
  rw [not_or, not_not, not_not] at hcon
  obtain ⟨hA, hB⟩ := hcon
  rw [CancelAllOrders_eq] at hA hB
  have hA1 : ord.visit bookAsksA.m_AskOrders = bookAsksA.m_AskOrders := by
    have : bookAsksA.m_BidOrders = [] := rfl
    rw [this, visit_nil] at hA
    simpa using hA
  have hB1 : ord.visit bookAsksB.m_AskOrders = bookAsksB.m_AskOrders := by
    have : bookAsksB.m_BidOrders = [] := rfl
    rw [this, visit_nil] at hB
    simpa using hB
  have h := hk bookAsksA.m_AskOrders bookAsksB.m_AskOrders (List.Perm.swap _ _ _)
  rw [hA1, hB1] at h
  exact absurd h (by decide)

theorem perm_two {α : Type} (a b : α) (l : List α) (h : l.Perm [a, b]) :
    l = [a, b] ∨ l = [b, a] := by
  match l, h with
  | [], h => exact absurd h.length_eq (by simp)
  | [_], h => exact absurd h.length_eq (by simp)
  | _ :: _ :: _ :: _, h => exact absurd h.length_eq (by simp)
  | [x, y], h =>
    have hx : x ∈ [a, b] := h.subset (List.mem_cons_self _ _)
    rcases List.mem_cons.mp hx with rfl | hx
    · have := List.perm_singleton.mp (List.Perm.cons_inv h)
      left; rw [List.cons.injEq] at this; rw [this.1]
    · have hxb : x = b := by simpa using hx
      subst hxb
      have h2 : [x, y].Perm [x, a] := h.trans (List.Perm.swap _ _ _)
      have := List.perm_singleton.mp (List.Perm.cons_inv h2)
      right; rw [List.cons.injEq] at this; rw [this.1]

/-- Whatever iteration order is given by the keys alone, in one of the two books
`bookTie`, `bookTieSwapped`, which hold the same keys, the ask at 101 is visited first
and the open price is 101. -/
theorem swapped_books_tie (ord : IterationOrder) (hk : ord.KeyDetermined) :
    (bookTie.GetTheoriticalAuctionInformations ord).1 = 101 ∨
    (bookTieSwapped.GetTheoriticalAuctionInformations ord).1 = 101 := by
  have h := hk bookTie.m_AskOrders bookTieSwapped.m_AskOrders (List.Perm.swap _ _ _)
  rcases perm_two _ _ _ (ord.perm bookTie.m_AskOrders) with h1 | h1
  · rcases perm_two _ _ _ (ord.perm bookTieSwapped.m_AskOrders) with h2 | h2
    · rw [h1, h2] at h
      exact absurd h (by decide)
    · right
      unfold OrderContainer.GetTheoriticalAuctionInformations
      rw [h2]
      rfl
  · left
    unfold OrderContainer.GetTheoriticalAuctionInformations
    rw [h1]
    rfl

/-- C16 (amended): whatever the iteration order of the side containers,
`CancelAllOrders` leaves both sides empty and the inserted set unchanged; it hands to
`OnUnsolicitedCancelledOrder` (and nothing to `OnDeal`) first the asks, then the bids,
each side in the sequence in which its container is iterated: every resting order once,
with its data.  When that sequence is the price-priority order, so is the emission. -/
theorem C16_cancel_all_orders (ord : IterationOrder) (c : OrderContainer) :
    c.CancelAllOrders ord
      = (⟨[], [], c.m_InsertedOrderIDs⟩, ord.visit c.m_AskOrders ++ ord.visit c.m_BidOrders) ∧
    (ord.visit c.m_AskOrders).Perm c.m_AskOrders ∧
    (ord.visit c.m_BidOrders).Perm c.m_BidOrders ∧
    (ord.visit c.m_AskOrders = c.m_AskOrders → ord.visit c.m_BidOrders = c.m_BidOrders →
      (c.CancelAllOrders ord).2 = c.m_AskOrders ++ c.m_BidOrders) := by
  have h := CancelAllOrders_eq ord c
  refine ⟨h, ord.perm _, ord.perm _, ?_⟩
  intro ha hb
  rw [h, ha, hb]

/-- C16 (counterexample): a container whose first index is an identity index ordered by
key, with asks 10@100 (order 2 of client 1) and 5@101 (order 1 of client 1) and one bid:
the ask at 101 is cancelled before the ask at 100, which is not the price-priority
order of the ask side.  And whatever iteration order is given by the keys alone, as that
of an identity index is: one of two books holding the same two keys, at swapped prices,
is not drained in price-priority order. -/
theorem C16_counterexample :
    (bookTie.CancelAllOrders keyIteration).2
      = [⟨.SELL, 5, 101, 1, 1⟩, ⟨.SELL, 10, 100, 2, 1⟩, ⟨.BUY, 10, 101, 3, 1⟩] ∧
    PriceSorted .less bookTie.m_AskOrders ∧
    (bookTie.CancelAllOrders keyIteration).2 ≠ bookTie.m_AskOrders ++ bookTie.m_BidOrders ∧
    keyIteration.KeyDetermined ∧
    (WellFormed bookAsksA ∧ WellFormed bookAsksB) ∧
    (∀ ord : IterationOrder, ord.KeyDetermined →
      (bookAsksA.CancelAllOrders ord).2 ≠ bookAsksA.m_AskOrders ++ bookAsksA.m_BidOrders ∨
      (bookAsksB.CancelAllOrders ord).2 ≠ bookAsksB.m_AskOrders ++ bookAsksB.m_BidOrders) :=
  ⟨by decide, by decide, by decide, keyIteration_keyDetermined, ⟨by decide, by decide⟩,
    swapped_books_drained⟩

/-- C16 (witness): the same book drained through a first index in price order and
through one ordered by key. -/
theorem C16_cancel_all_orders_witness :
    bookTie.CancelAllOrders priceIteration
      = (⟨[], [], []⟩,
        [⟨.SELL, 10, 100, 2, 1⟩, ⟨.SELL, 5, 101, 1, 1⟩, ⟨.BUY, 10, 101, 3, 1⟩]) ∧
    bookTie.CancelAllOrders keyIteration
      = (⟨[], [], []⟩,
        [⟨.SELL, 5, 101, 1, 1⟩, ⟨.SELL, 10, 100, 2, 1⟩, ⟨.BUY, 10, 101, 3, 1⟩]) :=
  ⟨(C16_cancel_all_orders priceIteration bookTie).1, (C16_cancel_all_orders keyIteration bookTie).1⟩

theorem findKey_isSome_iff (l : List Order) (k : OrderKey) :
    (findKey l k).isSome = true ↔ ∃ o ∈ l, o.key = k := by
  simp [findKey, List.find?_isSome]

theorem eraseKey_of_absent (k : OrderKey) (l : List Order) (h : ∀ o ∈ l, o.key ≠ k) :
    eraseKey k l = l := by
  induction l with
  | nil => rfl
  | cons x xs ih =>
    have hx : x.key ≠ k := h x (List.mem_cons_self _ _)
    simp only [eraseKey, hx, if_false]
    rw [ih (fun o ho => h o (List.mem_cons_of_mem _ ho))]

theorem eraseKey_split (k : OrderKey) (l : List Order) (h : ∃ o ∈ l, o.key = k) :
    ∃ l1 o l2, l = l1 ++ o :: l2 ∧ o.key = k ∧ (∀ x ∈ l1, x.key ≠ k) ∧
      eraseKey k l = l1 ++ l2 := by
  induction l with
  | nil => simp at h
  | cons x xs ih =>
    by_cases hx : x.key = k
    · exact ⟨[], x, xs, rfl, hx, by simp, by simp [eraseKey, hx]⟩
    · have h2 : ∃ o ∈ xs, o.key = k := by
        obtain ⟨o, ho, hk⟩ := h
        rcases List.mem_cons.mp ho with rfl | ho
        · exact absurd hk hx
        · exact ⟨o, ho, hk⟩
      obtain ⟨l1, o, l2, hl, hk, hne, he⟩ := ih h2
      refine ⟨x :: l1, o, l2, by simp [hl], hk, ?_, by simp [eraseKey, hx, he]⟩
      intro y hy
      rcases List.mem_cons.mp hy with rfl | hy
      · exact hx
      · exact hne y hy

theorem eraseKey_removes (k : OrderKey) (l : List Order) (hd : KeysDistinct l) :
    ∀ x ∈ eraseKey k l, x.key ≠ k := by
  induction l with
  | nil => simp [eraseKey]
  | cons y ys ih =>
    have hy := (List.pairwise_cons.mp hd).1
    have hd2 : KeysDistinct ys := (List.pairwise_cons.mp hd).2
    by_cases hk : y.key = k
    · simp only [eraseKey, hk, if_true]
      intro x hx
      rw [← hk]
      exact fun h => hy x hx h.symm
    · simp only [eraseKey, hk, if_false]
      intro x hx
      rcases List.mem_cons.mp hx with rfl | hx
      · exact hk
      · exact ih hd2 x hx

/-- C12: `Delete(order id, client id, way)` with way BUY or SELL returns, and returns
`true` iff an order with the key rested on the side named by the way; it then removes
that order and leaves the other orders of the side as they were, in the same order (with
distinct keys on the side no order with the key is left); otherwise the side is
unchanged; the other side and the inserted set are unchanged in every case (the call
hands nothing to the event handler). -/
theorem C12_delete (c : OrderContainer) (iOrderId iClientId : Nat) (iWay : OrderWay)
    (hway : iWay = .BUY ∨ iWay = .SELL) :
    ∃ (ret : Bool) (c1 : OrderContainer),
      c.Delete iOrderId iClientId iWay = some (ret, c1) ∧
      (ret = true ↔ ∃ o ∈ c.own iWay, o.key = OrderIDGenerator iClientId iOrderId) ∧
      (ret = true →
        ∃ l1 o l2, c.own iWay = l1 ++ o :: l2 ∧ o.key = OrderIDGenerator iClientId iOrderId ∧
          (∀ x ∈ l1, x.key ≠ OrderIDGenerator iClientId iOrderId) ∧ c1.own iWay = l1 ++ l2) ∧
      (ret = true → KeysDistinct (c.own iWay) →
        ∀ x ∈ c1.own iWay, x.key ≠ OrderIDGenerator iClientId iOrderId) ∧
      (ret = false → c1.own iWay = c.own iWay) ∧
      c1.opposite iWay = c.opposite iWay ∧
      c1.m_InsertedOrderIDs = c.m_InsertedOrderIDs := by
  have key : ∀ l : List Order,
      (((findKey l (OrderIDGenerator iClientId iOrderId)).isSome = true ↔
          ∃ o ∈ l, o.key = OrderIDGenerator iClientId iOrderId) ∧
        ((findKey l (OrderIDGenerator iClientId iOrderId)).isSome = true →
          ∃ l1 o l2, l = l1 ++ o :: l2 ∧ o.key = OrderIDGenerator iClientId iOrderId ∧
            (∀ x ∈ l1, x.key ≠ OrderIDGenerator iClientId iOrderId) ∧
            eraseKey (OrderIDGenerator iClientId iOrderId) l = l1 ++ l2) ∧
        ((findKey l (OrderIDGenerator iClientId iOrderId)).isSome = true → KeysDistinct l →
          ∀ x ∈ eraseKey (OrderIDGenerator iClientId iOrderId) l,
            x.key ≠ OrderIDGenerator iClientId iOrderId) ∧
        ((findKey l (OrderIDGenerator iClientId iOrderId)).isSome = false →
          eraseKey (OrderIDGenerator iClientId iOrderId) l = l)) := by
    intro l
    refine ⟨findKey_isSome_iff l _, fun h => eraseKey_split _ l ((findKey_isSome_iff l _).mp h),
      fun _ hd => eraseKey_removes _ l hd, fun h => ?_⟩
    apply eraseKey_of_absent
    intro o ho hk
    have : (findKey l (OrderIDGenerator iClientId iOrderId)).isSome = true :=
      (findKey_isSome_iff l _).mpr ⟨o, ho, hk⟩
    rw [h] at this
    exact absurd this (by decide)
  rcases hway with h | h <;> subst h
  · obtain ⟨k1, k2, k3, k4⟩ := key c.m_BidOrders
    exact ⟨_, _, rfl, k1, k2, k3, k4, rfl, rfl⟩
  · obtain ⟨k1, k2, k3, k4⟩ := key c.m_AskOrders
    exact ⟨_, _, rfl, k1, k2, k3, k4, rfl, rfl⟩

/-- C12 (witness): order 5 of client 1 is deleted from the bid side of a book with one
bid and one ask. -/
theorem C12_delete_witness :
    bookBidAsk.Delete 5 1 .BUY = some (true, ⟨[], [⟨.SELL, 10, 160, 7, 2⟩], [(1, 5), (2, 7)]⟩) ∧
    ∃ (ret : Bool) (c1 : OrderContainer),
      bookBidAsk.Delete 5 1 .SELL = some (ret, c1) ∧ (ret = false → c1.m_AskOrders = bookBidAsk.m_AskOrders) ∧
        c1.m_BidOrders = bookBidAsk.m_BidOrders := by
  refine ⟨rfl, ?_⟩
  obtain ⟨ret, c1, h1, _, _, _, h5, h6, _⟩ := C12_delete bookBidAsk 5 1 .SELL (Or.inr rfl)
  exact ⟨ret, c1, h1, h5, h6⟩

/-- A run of `ProcessDeals` whose match quantity is the whole quantity of the message,
against a side holding at least that quantity, returns with the message emptied and
deals adding up to that quantity. -/
theorem ProcessDeals_exhaust {M : Type} [Msg M] (l : List Order) :
    ∀ (fuel : Nat) (clock : Nat → Nat) (iMsg : M),
      Msg.GetQuantity iMsg ≤ totalQty l → l.length ≤ fuel →
      ∃ (l1 : List Order) (ds : List Deal),
        ProcessDeals fuel clock l iMsg (Msg.GetQuantity iMsg)
          = some (l1, Msg.RemoveQuantity iMsg (Msg.GetQuantity iMsg), ds) ∧
        dealQty ds = Msg.GetQuantity iMsg := by
  induction l with
  | nil =>
    intro fuel clock iMsg hle _
    have h0 : Msg.GetQuantity iMsg = 0 := by simpa [totalQty] using hle
    exact ⟨[], [], by simp [h0, ProcessDeals_zero, Msg.remove_zero], by simp [h0, dealQty]⟩
  | cons o os ih =>
    intro fuel clock iMsg hle hfuel
    have htot : totalQty (o :: os) = o.m_Qty + totalQty os := by simp [totalQty]
    by_cases ha : Msg.GetQuantity iMsg = 0
    · exact ⟨o :: os, [], by simp [ha, ProcessDeals_zero, Msg.remove_zero], by simp [ha, dealQty]⟩
    · cases fuel with
      | zero => simp at hfuel
      | succ f =>
        have hf : os.length ≤ f := by simpa using hfuel
        have hpos : 0 < Msg.GetQuantity iMsg := Nat.pos_of_ne_zero ha
        by_cases hq : o.m_Qty ≤ Msg.GetQuantity iMsg
        · have hexec : min o.m_Qty (Msg.GetQuantity iMsg) = o.m_Qty := by omega
          have hnlt : ¬ Msg.GetQuantity iMsg < o.m_Qty := by omega
          have hle1 : Msg.GetQuantity (Msg.RemoveQuantity iMsg o.m_Qty) ≤ totalQty os := by
            rw [Msg.qty_remove]; rw [htot] at hle; omega
          obtain ⟨l1, ds, hrun, hsum⟩ :=
            ih f (fun i => clock (i + 1)) (Msg.RemoveQuantity iMsg o.m_Qty) hle1 hf
          rw [Msg.qty_remove, Msg.remove_remove] at hrun
          rw [Msg.qty_remove] at hsum
          have hadd : o.m_Qty + (Msg.GetQuantity iMsg - o.m_Qty) = Msg.GetQuantity iMsg := by
            omega
          rw [hadd] at hrun
          refine ⟨l1, GenerateDeal (clock 0) o iMsg (min o.m_Price (Msg.GetPrice iMsg)) o.m_Qty
            :: ds, ?_, ?_⟩
          · simp only [ProcessDeals, hpos, if_true, hexec, hnlt, if_false,
              Order.SetQuantity_qty, Nat.sub_self, hrun, Option.map_some', GenerateDeal_remove]
          · simp only [dealQty, List.map_cons, List.sum_cons, GenerateDeal_qty] at hsum ⊢
            omega
        · have hexec : min o.m_Qty (Msg.GetQuantity iMsg) = Msg.GetQuantity iMsg := by omega
          have hne : ¬ o.m_Qty - Msg.GetQuantity iMsg = 0 := by omega
          refine ⟨o.SetQuantity (o.m_Qty - Msg.GetQuantity iMsg) :: os,
            [GenerateDeal (clock 0) o iMsg (min o.m_Price (Msg.GetPrice iMsg))
              (Msg.GetQuantity iMsg)], ?_, ?_⟩
          · simp only [ProcessDeals, hpos, if_true, hexec, Nat.lt_irrefl, if_false,
              Order.SetQuantity_qty, hne, Nat.sub_self, ProcessDeals_zero, Option.map_some',
              GenerateDeal_remove]
          · simp [dealQty, GenerateDeal_qty]

theorem totalQty_filter_le (p : Order → Bool) (l : List Order) :
    totalQty (l.filter p) ≤ totalQty l := by
  induction l with
  | nil => simp
  | cons x xs ih =>
    have htot : totalQty (x :: xs) = x.m_Qty + totalQty xs := by simp [totalQty]
    by_cases hx : p x
    · have : totalQty ((x :: xs).filter p) = x.m_Qty + totalQty (xs.filter p) := by
        simp [totalQty, List.filter_cons, hx]
      omega
    · have : totalQty ((x :: xs).filter p) = totalQty (xs.filter p) := by
        simp [List.filter_cons, hx]
      omega

/-- C11: a `Modify` with matching whose replacement key is not in the inserted set,
whose old order is found on the side named by its way, and whose quantity `q > 0` is
covered by the opposite quantity executable at the new price, returns `true`; the deals
add up to `q`, the message is left with quantity `0`, and the side of the order is the
old one with the old order erased: nothing is inserted under the new key. -/
theorem C11_modify_fully_filled (fuel : Nat) (clock : Nat → Nat) (c : OrderContainer)
    (r : OrderReplace) (old : Order)
    (hnew : OrderIDGenerator r.m_ClientID r.m_ReplacedOrderID ∉ c.m_InsertedOrderIDs)
    (hway : r.m_Way = .BUY ∨ r.m_Way = .SELL)
    (hfound : findKey (c.own r.m_Way) (OrderIDGenerator r.m_ClientID r.m_ExistingOrderID)
      = some old)
    (hq : 0 < r.m_Qty)
    (hexec : r.m_Qty ≤ totalQty ((c.opposite r.m_Way).filter (executable r.m_Way r.m_Price)))
    (hfuel : (c.opposite r.m_Way).length ≤ fuel) :
    ∃ res : Outcome OrderReplace,
      c.Modify fuel clock r true = some res ∧
      res.ret = true ∧
      dealQty res.deals = r.m_Qty ∧
      res.msg.m_Qty = 0 ∧
      res.book.own r.m_Way
        = eraseKey (OrderIDGenerator r.m_ClientID r.m_ExistingOrderID) (c.own r.m_Way) := by
  have hmq : min (c.GetExecutableQuantity r r.m_Way) r.m_Qty = r.m_Qty := by
    rw [GetExecutableQuantity_msg]
    have hg : (Msg.GetQuantity r) = r.m_Qty := rfl
    have hp : (Msg.GetPrice r) = r.m_Price := rfl
    rw [hg, hp]; omega
  have hne : min (c.GetExecutableQuantity r r.m_Way) r.m_Qty ≠ 0 := by rw [hmq]; omega
  have hopp : r.m_Qty ≤ totalQty (c.opposite r.m_Way) :=
    Nat.le_trans hexec (totalQty_filter_le _ _)
  obtain ⟨l1, ds, hrun, hsum⟩ :=
    ProcessDeals_exhaust (c.opposite r.m_Way) fuel clock r hopp hfuel
  have hg : (Msg.GetQuantity r) = r.m_Qty := rfl
  rw [hg] at hrun hsum
  have hrq : (Msg.RemoveQuantity r r.m_Qty).m_Qty = 0 := by
    show r.m_Qty - r.m_Qty = 0
    omega
  have hq0 : ¬ r.m_Qty = 0 := by omega
  rcases hway with hb | hs
  · rw [hb] at hfound hrun hmq hne
    simp only [OrderContainer.own, OrderContainer.opposite] at hfound hrun
    refine ⟨⟨true, ⟨eraseKey (OrderIDGenerator r.m_ClientID r.m_ExistingOrderID) c.m_BidOrders, l1,
      c.m_InsertedOrderIDs.insert (OrderIDGenerator r.m_ClientID r.m_ExistingOrderID)⟩,
      Msg.RemoveQuantity r r.m_Qty, ds⟩, ?_, rfl, hsum, hrq, ?_⟩
    · simp only [OrderContainer.Modify, hnew, if_false, hb, OrderContainer.ApplyModify, hfound,
        OrderContainer.ProcessModify, if_true, hne, hmq, OrderContainer.ProcessDeals, hrun,
        Option.map_some', hrq, hq0, ne_eq, not_false_eq_true, Bool.false_eq_true]
    · rw [hb]; rfl
  · rw [hs] at hfound hrun hmq hne
    simp only [OrderContainer.own, OrderContainer.opposite] at hfound hrun
    refine ⟨⟨true, ⟨l1, eraseKey (OrderIDGenerator r.m_ClientID r.m_ExistingOrderID) c.m_AskOrders,
      c.m_InsertedOrderIDs.insert (OrderIDGenerator r.m_ClientID r.m_ExistingOrderID)⟩,
      Msg.RemoveQuantity r r.m_Qty, ds⟩, ?_, rfl, hsum, hrq, ?_⟩
    · simp only [OrderContainer.Modify, hnew, if_false, hs, OrderContainer.ApplyModify, hfound,
        OrderContainer.ProcessModify, if_true, hne, hmq, OrderContainer.ProcessDeals, hrun,
        Option.map_some', hrq, hq0, ne_eq, not_false_eq_true, Bool.false_eq_true]
    · rw [hs]; rfl

/-- The scan of `GetTheoriticalAuctionInformations` over a list, for any quantity
function `f` and any start: either nothing beats the start, or the result is the first
order of the list whose quantity is the largest. -/
theorem auction_scan (f : Order → Nat) (l : List Order) :
    ∀ acc : Nat × Nat,
      (l.foldl (fun (a : Nat × Nat) o => if a.2 < f o then (o.m_Price, f o) else a) acc = acc ∧
          ∀ o ∈ l, f o ≤ acc.2) ∨
      ∃ l1 o l2, l = l1 ++ o :: l2 ∧
        l.foldl (fun (a : Nat × Nat) o => if a.2 < f o then (o.m_Price, f o) else a) acc
          = (o.m_Price, f o) ∧
        acc.2 < f o ∧ (∀ x ∈ l1, f x < f o) ∧ (∀ x ∈ l2, f x ≤ f o) := by
  induction l with
  | nil => intro acc; exact Or.inl ⟨rfl, by simp⟩
  | cons x xs ih =>
    intro acc
    simp only [List.foldl_cons]
    by_cases hx : acc.2 < f x
    · simp only [hx, if_true]
      rcases ih (x.m_Price, f x) with ⟨heq, hall⟩ | ⟨l1, o, l2, hl, heq, hlt, h1, h2⟩
      · exact Or.inr ⟨[], x, xs, rfl, heq, hx, by simp, hall⟩
      · refine Or.inr ⟨x :: l1, o, l2, by simp [hl], heq, Nat.lt_trans hx hlt, ?_, h2⟩
        intro y hy
        rcases List.mem_cons.mp hy with rfl | hy
        · exact hlt
        · exact h1 y hy
    · simp only [hx, if_false]
      rcases ih acc with ⟨heq, hall⟩ | ⟨l1, o, l2, hl, heq, hlt, h1, h2⟩
      · refine Or.inl ⟨heq, ?_⟩
        intro y hy
        rcases List.mem_cons.mp hy with rfl | hy
        · omega
        · exact hall y hy
      · refine Or.inr ⟨x :: l1, o, l2, by simp [hl], heq, hlt, ?_, h2⟩
        intro y hy
        rcases List.mem_cons.mp hy with rfl | hy
        · omega
        · exact h1 y hy

/-- Every order of a side is visited, and nothing else. -/
theorem visit_mem (ord : IterationOrder) (l : List Order) (x : Order) :
    x ∈ ord.visit l ↔ x ∈ l := (ord.perm l).mem_iff

/-- The result of `GetTheoriticalAuctionInformations`: `(0, 0)` when no ask price lets
anything trade, otherwise the price and the quantity of the first ask, in the iteration
order of the ask side, whose price lets the largest quantity trade. -/
theorem GetTheoriticalAuctionInformations_cases {ord : IterationOrder} (c : OrderContainer) :
    (c.GetTheoriticalAuctionInformations ord = (0, 0) ∧
        ∀ o ∈ c.m_AskOrders, c.auctionQty o.m_Price = 0) ∨
    ∃ l1 o l2, ord.visit c.m_AskOrders = l1 ++ o :: l2 ∧
      c.GetTheoriticalAuctionInformations ord = (o.m_Price, c.auctionQty o.m_Price) ∧
      0 < c.auctionQty o.m_Price ∧
      (∀ x ∈ l1, c.auctionQty x.m_Price < c.auctionQty o.m_Price) ∧
      (∀ x ∈ l2, c.auctionQty x.m_Price ≤ c.auctionQty o.m_Price) := by
  have h := auction_scan (fun o => c.auctionQty o.m_Price) (ord.visit c.m_AskOrders) (0, 0)
  rcases h with ⟨heq, hall⟩ | ⟨l1, o, l2, hl, heq, hlt, h1, h2⟩
  · refine Or.inl ⟨heq, ?_⟩
    intro o ho
    have := hall o ((visit_mem ord c.m_AskOrders o).mpr ho)
    simpa using this
  · exact Or.inr ⟨l1, o, l2, hl, heq, hlt, h1, h2⟩

/-- When nothing can trade at any resting ask price the result is `(0, 0)`, whatever
the iteration order. -/
theorem GetTheoriticalAuctionInformations_zero {ord : IterationOrder} (c : OrderContainer)
    (h : ∀ o ∈ c.m_AskOrders, c.auctionQty o.m_Price = 0) :
    c.GetTheoriticalAuctionInformations ord = (0, 0) := by
  rcases @GetTheoriticalAuctionInformations_cases ord c with
    ⟨heq, _⟩ | ⟨l1, o, l2, hl, _, hpos, _, _⟩
  · exact heq
  · have hmem : o ∈ c.m_AskOrders := by
      rw [← visit_mem ord, hl]; simp
    rw [h o hmem] at hpos
    exact absurd hpos (by decide)

/-- The quantity returned is at least what can trade at any resting ask price, and is
what can trade at one of them when it is positive. -/
theorem GetTheoriticalAuctionInformations_max {ord : IterationOrder} (c : OrderContainer) :
    (∀ x ∈ c.m_AskOrders, c.auctionQty x.m_Price ≤ (c.GetTheoriticalAuctionInformations ord).2) ∧
    (0 < (c.GetTheoriticalAuctionInformations ord).2 →
      ∃ o ∈ c.m_AskOrders, c.auctionQty o.m_Price = (c.GetTheoriticalAuctionInformations ord).2) := by
  rcases @GetTheoriticalAuctionInformations_cases ord c with
    ⟨heq, hall⟩ | ⟨l1, o, l2, hl, heq, hpos, h1, h2⟩
  · refine ⟨fun x hx => by rw [heq, hall x hx], ?_⟩
    intro hpos; rw [heq] at hpos; exact absurd hpos (by decide)
  · have hmem : o ∈ c.m_AskOrders := by
      rw [← visit_mem ord, hl]; simp
    refine ⟨?_, fun _ => ⟨o, hmem, by rw [heq]⟩⟩
    intro x hx
    rw [heq]
    rw [← visit_mem ord, hl] at hx
    rcases List.mem_append.mp hx with hx | hx
    · exact Nat.le_of_lt (h1 x hx)
    · rcases List.mem_cons.mp hx with rfl | hx
      · exact Nat.le_refl _
      · exact h2 x hx

/-- The quantity returned does not depend on the iteration order. -/
theorem GetTheoriticalAuctionInformations_qty (c : OrderContainer) (ord1 ord2 : IterationOrder) :
    (c.GetTheoriticalAuctionInformations ord1).2 = (c.GetTheoriticalAuctionInformations ord2).2 := by
  have key : ∀ a b : IterationOrder,
      (c.GetTheoriticalAuctionInformations a).2 ≤ (c.GetTheoriticalAuctionInformations b).2 := by
    intro a b
    by_cases hz : 0 < (c.GetTheoriticalAuctionInformations a).2
    · obtain ⟨o, ho, hq⟩ := (@GetTheoriticalAuctionInformations_max a c).2 hz
      rw [← hq]
      exact (@GetTheoriticalAuctionInformations_max b c).1 o ho
    · omega
  exact Nat.le_antisymm (key ord1 ord2) (key ord2 ord1)

/-- A side of one order is visited as it is. -/
theorem visit_singleton (ord : IterationOrder) (a : Order) : ord.visit [a] = [a] :=
  List.perm_singleton.mp (ord.perm [a])

/-- One bid and one ask of the same price `p` and quantity `q > 0` give `(p, q)`. -/
theorem GetTheoriticalAuctionInformations_single (ord : IterationOrder) (bid ask : Order)
    (ids : List OrderKey) (p q : Nat) (hq : 0 < q) (hbp : bid.m_Price = p) (hbq : bid.m_Qty = q)
    (hap : ask.m_Price = p) (haq : ask.m_Qty = q) :
    (OrderContainer.mk [bid] [ask] ids).GetTheoriticalAuctionInformations ord = (p, q) := by
  simp [OrderContainer.GetTheoriticalAuctionInformations, visit_singleton, GetExecutableQuantity,
    ExecutableQtyPredHelper, hbp, hbq, hap, haq, hq]

/-- C13 (amended): `GetTheoriticalAuctionInformations` returns `(OpenPrice, MaxQty)`
where `MaxQty` is the maximum, over the prices `p` of the resting asks, of
`min(ExecutableBidQuantity(p), ExecutableAskQuantity(p))` (`0` when the ask side is
empty); when `MaxQty > 0`, `OpenPrice` is a resting ask price at which the maximum is
attained; when `MaxQty = 0` (empty ask side, or nothing can trade at any ask price) the
result is `(0, 0)`.  For a book of one bid and one ask of the same price `p` and
quantity `q > 0` it is `(p, q)`. -/
theorem C13_auction_information (ord : IterationOrder) :
    (∀ c : OrderContainer,
      (∀ o ∈ c.m_AskOrders, c.auctionQty o.m_Price ≤ (c.GetTheoriticalAuctionInformations ord).2) ∧
      (c.m_AskOrders ≠ [] →
        ∃ o ∈ c.m_AskOrders, c.auctionQty o.m_Price = (c.GetTheoriticalAuctionInformations ord).2) ∧
      (0 < (c.GetTheoriticalAuctionInformations ord).2 →
        ∃ o ∈ c.m_AskOrders, o.m_Price = (c.GetTheoriticalAuctionInformations ord).1 ∧
          c.auctionQty (c.GetTheoriticalAuctionInformations ord).1
            = (c.GetTheoriticalAuctionInformations ord).2) ∧
      ((c.GetTheoriticalAuctionInformations ord).2 = 0 →
        c.GetTheoriticalAuctionInformations ord = (0, 0)) ∧
      (c.m_AskOrders = [] → c.GetTheoriticalAuctionInformations ord = (0, 0))) ∧
    (∀ (p q : Nat) (bid ask : Order) (ids : List OrderKey),
      0 < q → bid.m_Price = p → bid.m_Qty = q → ask.m_Price = p → ask.m_Qty = q →
      (OrderContainer.mk [bid] [ask] ids).GetTheoriticalAuctionInformations ord = (p, q)) := by
  constructor
  · intro c
    rcases GetTheoriticalAuctionInformations_cases c with
      ⟨heq, hall⟩ | ⟨l1, o, l2, hl, heq, hpos, h1, h2⟩
    · refine ⟨?_, ?_, ?_, ?_, ?_⟩
      · intro o ho; rw [heq, hall o ho]
      · intro hne
        obtain ⟨o, ho⟩ := List.exists_mem_of_ne_nil _ hne
        exact ⟨o, ho, by rw [heq, hall o ho]⟩
      · intro hpos; rw [heq] at hpos; exact absurd hpos (by decide)
      · intro _; exact heq
      · intro _; exact heq
    · have hmem : o ∈ c.m_AskOrders := by
        rw [← visit_mem ord, hl]; simp
      refine ⟨?_, ?_, ?_, ?_, ?_⟩
      · intro x hx
        rw [heq]
        rw [← visit_mem ord, hl] at hx
        rcases List.mem_append.mp hx with hx | hx
        · exact Nat.le_of_lt (h1 x hx)
        · rcases List.mem_cons.mp hx with rfl | hx
          · exact Nat.le_refl _
          · exact h2 x hx
      · intro _; exact ⟨o, hmem, by rw [heq]⟩
      · intro _; exact ⟨o, hmem, by rw [heq], by rw [heq]⟩
      · intro hz; rw [heq] at hz; simp only at hz; omega
      · intro hnil; rw [hnil] at hmem; simp at hmem
  · intro p q bid ask ids hq hbp hbq hap haq
    exact GetTheoriticalAuctionInformations_single ord bid ask ids p q hq hbp hbq hap haq

/-- C13 (counterexample): with one resting ask 10@100 and no bid, the ask side is not
empty and the result is `(0, 0)`, whatever the iteration order: the open price returned
is not a resting ask price. -/
theorem C13_counterexample :
    (∀ ord : IterationOrder,
      (OrderContainer.mk [] [⟨.SELL, 10, 100, 1, 1⟩] [(1, 1)]).GetTheoriticalAuctionInformations
        ord = (0, 0)) ∧
    ¬ ∃ o ∈ (OrderContainer.mk [] [⟨.SELL, 10, 100, 1, 1⟩] [(1, 1)]).m_AskOrders,
        o.m_Price = 0 := by
  refine ⟨fun ord => GetTheoriticalAuctionInformations_zero _ (by decide), ?_⟩
  decide

/-- C13 (witness): the book of the opening-auction test, one bid and one ask of 100 at
150. -/
theorem C13_auction_information_witness :
    (OrderContainer.mk [⟨.BUY, 100, 150, 1, 5⟩] [⟨.SELL, 100, 150, 1, 6⟩]
        [(6, 1), (5, 1)]).GetTheoriticalAuctionInformations priceIteration = (150, 100) :=
  (C13_auction_information priceIteration).2 150 100 ⟨.BUY, 100, 150, 1, 5⟩
    ⟨.SELL, 100, 150, 1, 6⟩ [(6, 1), (5, 1)] (by decide) rfl rfl rfl rfl

/-- C14 (amended): whatever the iteration order of the ask container: when the largest
quantity that can trade at a resting ask price is positive,
`GetTheoriticalAuctionInformations` returns as `OpenPrice` the price of the first order
attaining it in the iteration of the ask side (every ask visited before it lets strictly
less trade), and if the asks are visited in price-priority order no ask price attaining
the maximum is lower; when nothing can trade at any resting ask price, the result is
`(0, 0)` whatever the resting ask prices; the quantity returned does not depend on the
iteration order. -/
theorem C14_auction_tie_break (ord : IterationOrder) (c : OrderContainer) :
    (0 < (c.GetTheoriticalAuctionInformations ord).2 →
      ∃ l1 o l2, ord.visit c.m_AskOrders = l1 ++ o :: l2 ∧
        (c.GetTheoriticalAuctionInformations ord).1 = o.m_Price ∧
        c.auctionQty o.m_Price = (c.GetTheoriticalAuctionInformations ord).2 ∧
        (∀ x ∈ l1, c.auctionQty x.m_Price < (c.GetTheoriticalAuctionInformations ord).2) ∧
        (ord.visit c.m_AskOrders = c.m_AskOrders → PriceSorted .less c.m_AskOrders →
          ∀ x ∈ c.m_AskOrders,
            c.auctionQty x.m_Price = (c.GetTheoriticalAuctionInformations ord).2 →
            (c.GetTheoriticalAuctionInformations ord).1 ≤ x.m_Price)) ∧
    ((∀ o ∈ c.m_AskOrders, c.auctionQty o.m_Price = 0) →
      c.GetTheoriticalAuctionInformations ord = (0, 0)) ∧
    (∀ ord2 : IterationOrder,
      (c.GetTheoriticalAuctionInformations ord2).2
        = (c.GetTheoriticalAuctionInformations ord).2) := by
  refine ⟨?_, GetTheoriticalAuctionInformations_zero c, ?_⟩
  · intro hpos
    rcases @GetTheoriticalAuctionInformations_cases ord c with
      ⟨heq, _⟩ | ⟨l1, o, l2, hl, heq, _, h1, _⟩
    · rw [heq] at hpos; exact absurd hpos (by decide)
    · refine ⟨l1, o, l2, hl, by rw [heq], by rw [heq], by rw [heq]; exact h1, ?_⟩
      intro hv hs x hx hmax
      rw [heq] at hmax ⊢
      simp only at hmax ⊢
      rw [hv] at hl
      rw [hl] at hx hs
      rcases List.mem_append.mp hx with hx | hx
      · have := h1 x hx; omega
      · rcases List.mem_cons.mp hx with rfl | hx
        · exact Nat.le_refl _
        · have hs2 := (List.pairwise_append.mp hs).2.1
          have := (List.pairwise_cons.mp hs2).1 x hx
          simp only [SortingPredicate.comp, decide_eq_false_iff_not] at this
          omega
  · intro ord2
    exact GetTheoriticalAuctionInformations_qty c ord2 ord

/-- C14 (counterexample): asks 10@100 and 10@101 and no bid: both ask prices attain the
maximum quantity `0`, the first in price-priority order is 100, the open price returned
is `0` whatever the iteration order.  And with a bid 10@101 and the asks 10@100 (order 2
of client 1) and 5@101 (order 1 of client 1) in a container whose first index is an
identity index ordered by key: both ask prices let 10 trade, the ask at 101 is visited
first and the open price returned is 101, not the lowest such price 100; whatever
iteration order is given by the keys alone, this happens in that book or in the book
holding the same keys the other way round. -/
theorem C14_counterexample :
    (∀ ord : IterationOrder,
      (OrderContainer.mk [] [⟨.SELL, 10, 100, 1, 1⟩, ⟨.SELL, 10, 101, 2, 1⟩]
          [(1, 1), (1, 2)]).GetTheoriticalAuctionInformations ord = (0, 0)) ∧
    (OrderContainer.mk [] [⟨.SELL, 10, 100, 1, 1⟩, ⟨.SELL, 10, 101, 2, 1⟩]
        [(1, 1), (1, 2)]).auctionQty 100 = 0 ∧
    (OrderContainer.mk [] [⟨.SELL, 10, 100, 1, 1⟩, ⟨.SELL, 10, 101, 2, 1⟩]
        [(1, 1), (1, 2)]).auctionQty 101 = 0 ∧
    (0 : Nat) ≠ 100 ∧
    bookTie.GetTheoriticalAuctionInformations keyIteration = (101, 10) ∧
    PriceSorted .less bookTie.m_AskOrders ∧
    bookTie.auctionQty 100 = 10 ∧ bookTie.auctionQty 101 = 10 ∧
    PriceSorted .less bookTieSwapped.m_AskOrders ∧
    bookTieSwapped.auctionQty 100 = 10 ∧ bookTieSwapped.auctionQty 101 = 10 ∧
    (∀ ord : IterationOrder, ord.KeyDetermined →
      (bookTie.GetTheoriticalAuctionInformations ord).1 = 101 ∨
      (bookTieSwapped.GetTheoriticalAuctionInformations ord).1 = 101) :=
  ⟨fun ord => GetTheoriticalAuctionInformations_zero _ (by decide), rfl, rfl, by decide,
    by decide, by decide, rfl, rfl, by decide, rfl, rfl, swapped_books_tie⟩

/-- C14 (witness): bid 10@101, asks 10@100 and 5@101: both ask prices let 10 trade; the
open price is 100 when the asks are visited in price-priority order. -/
theorem C14_auction_tie_break_witness :
    bookTie.GetTheoriticalAuctionInformations priceIteration = (100, 10) ∧
    ∃ l1 o l2, priceIteration.visit bookTie.m_AskOrders = l1 ++ o :: l2 ∧
      (bookTie.GetTheoriticalAuctionInformations priceIteration).1 = o.m_Price ∧
      bookTie.auctionQty o.m_Price = (bookTie.GetTheoriticalAuctionInformations priceIteration).2 ∧
      (∀ x ∈ l1,
        bookTie.auctionQty x.m_Price < (bookTie.GetTheoriticalAuctionInformations priceIteration).2) ∧
      (priceIteration.visit bookTie.m_AskOrders = bookTie.m_AskOrders →
        PriceSorted .less bookTie.m_AskOrders →
        ∀ x ∈ bookTie.m_AskOrders,
          bookTie.auctionQty x.m_Price = (bookTie.GetTheoriticalAuctionInformations priceIteration).2 →
          (bookTie.GetTheoriticalAuctionInformations priceIteration).1 ≤ x.m_Price) :=
  ⟨by decide, (C14_auction_tie_break priceIteration bookTie).1 (by decide)⟩

theorem AggregatedViewLoop_group (rest : List Order) :
    ∀ (pre : List LimitType) (n s p : Nat),
      AggregatedViewLoop rest p (pre.length + 1) (pre ++ [(n, s, p)])
        = some (pre ++ groupFrom rest n s p) := by
  induction rest with
  | nil => intro pre n s p; rfl
  | cons o os ih =>
    intro pre n s p
    by_cases hp : o.m_Price = p
    · have h := ih pre (n + 1) (s + o.m_Qty) p
      simp only [AggregatedViewLoop, hp, ne_eq, not_true_eq_false, if_false,
        Nat.add_sub_cancel, Nat.add_one_ne_zero, groupFrom]
      rw [List.getElem?_append_right (Nat.le_refl _)]
      simp only [Nat.sub_self, List.getElem?_cons_zero]
      rw [List.set_append_right _ _ (Nat.le_refl _)]
      simpa using h
    · have h := ih (pre ++ [(n, s, p)]) 1 o.m_Qty o.m_Price
      simp only [List.length_append, List.length_singleton] at h
      simp only [AggregatedViewLoop, hp, ne_eq, not_false_eq_true, if_true,
        Nat.add_sub_cancel, Nat.add_one_ne_zero, if_false, groupFrom]
      have hlen : (pre ++ [(n, s, p)]).length = pre.length + 1 := by simp
      rw [List.getElem?_append_right (by rw [hlen])]
      simp only [hlen, Nat.sub_self, List.getElem?_cons_zero]
      rw [List.set_append_right _ _ (by rw [hlen])]
      simp only [hlen, Nat.sub_self, List.set_cons_zero, Nat.zero_add]
      rw [h]
      simp

/-- Away from the sentinel the helper is right: on a side whose first price is not the
sentinel, with an empty output container, it returns the grouping by price. -/
theorem AggregatedViewHelper_group (sentinel : Nat) (o : Order) (rest : List Order)
    (h : o.m_Price ≠ sentinel) :
    AggregatedViewHelper sentinel (o :: rest) [] = some (groupByPrice (o :: rest)) := by
  have key := AggregatedViewLoop_group rest [] 1 o.m_Qty o.m_Price
  simp only [List.length_nil, Nat.zero_add, List.nil_append] at key
  simp only [AggregatedViewHelper, AggregatedViewLoop, h, ne_eq, not_false_eq_true, if_true,
    Nat.zero_add, Nat.add_one_ne_zero, if_false, List.nil_append, Nat.sub_self,
    List.getElem?_cons_zero, List.set_cons_zero, groupByPrice]
  simpa using key

/-- C19 (the code at the failing input): when the best bid is priced at the initial
`CurrentPrice` of the helper, no entry is appended for it and the helper subscripts the
empty output container with `ContainerIndex - 1 = 0 - 1`: `AggregatedView` has no normal
run, whatever the sentinel is, while the by-order view of the same book holds one
order. -/
theorem C19_aggregated_view_sentinel (sentinel : Nat) :
    (OrderContainer.mk [⟨.BUY, 100, sentinel, 5, 1⟩] [] [(1, 5)]).AggregatedView sentinel [] []
      = none ∧
    (OrderContainer.mk [⟨.BUY, 100, sentinel, 5, 1⟩] [] [(1, 5)]).ByOrderView [] []
      = ([⟨.BUY, 100, sentinel, 5, 1⟩], []) := by
  constructor
  · simp [OrderContainer.AggregatedView, AggregatedViewHelper, AggregatedViewLoop]
  · rfl

theorem ProcessDeals_preserves {M : Type} [Msg M] (sp : SortingPredicate) (Q : Order → Prop)
    (P : List Order → Prop) (hP : SideClosed sp Q P) (fuel : Nat) :
    ∀ (clock : Nat → Nat) (Orders : List Order) (iMsg : M) (m : Nat)
      (res : List Order × M × List Deal),
      P Orders → ProcessDeals fuel clock Orders iMsg m = some res →
      P res.1 ∧ ∃ e, res.2.1 = Msg.RemoveQuantity iMsg e := by
  induction fuel with
  | zero =>
    intro clock Orders iMsg m res hO h
    by_cases hm : 0 < m
    · simp [ProcessDeals, hm] at h
    · simp only [ProcessDeals, hm, if_false, Option.some.injEq] at h
      subst h
      exact ⟨hO, 0, (Msg.remove_zero iMsg).symm⟩
  | succ f ih =>
    intro clock Orders iMsg m res hO h
    by_cases hm : 0 < m
    · cases Orders with
      | nil => simp [ProcessDeals, hm] at h
      | cons r rest =>
        by_cases hlt : m < min r.m_Qty (Msg.GetQuantity iMsg)
        · simp [ProcessDeals, hm, hlt] at h
        · simp only [ProcessDeals, hm, if_true, hlt, if_false, Option.map_eq_some'] at h
          obtain ⟨res1, hrec, hres⟩ := h
          subst hres
          have hO1 : P (if (r.SetQuantity (r.m_Qty - min r.m_Qty (Msg.GetQuantity iMsg))).m_Qty = 0
              then rest
              else r.SetQuantity (r.m_Qty - min r.m_Qty (Msg.GetQuantity iMsg)) :: rest) := by
            split
            · exact hP.tail r rest hO
            · rename_i hq
              rw [Order.SetQuantity_qty] at hq
              exact hP.lower r rest _ hO (Nat.pos_of_ne_zero hq) (Nat.sub_le _ _)
          obtain ⟨h1, e, he⟩ := ih _ _ _ _ _ hO1 hrec
          exact ⟨h1, _, by rw [he, Msg.remove_remove]⟩
    · simp only [ProcessDeals, hm, if_false, Option.some.injEq] at h
      subst h
      exact ⟨hO, 0, (Msg.remove_zero iMsg).symm⟩

theorem Order.SetQuantity_SetQuantity (o : Order) (a b : Nat) :
    (o.SetQuantity a).SetQuantity b = o.SetQuantity b := rfl

theorem MatchOrdersInner_preserves (sp : SortingPredicate) (Q : Order → Prop)
    (P : List Order → Prop) (hP : SideClosed sp Q P) (MatchingPrice : Nat) (fuel : Nat) :
    ∀ (clock : Nat → Nat) (BidOrder : Order) (Asks : List Order) (m : Nat)
      (res : Order × List Order × Nat × List Deal),
      P Asks → OrderContainer.MatchOrdersInner MatchingPrice fuel clock BidOrder Asks m = some res →
      P res.2.1 ∧ ∃ q, q ≤ BidOrder.m_Qty ∧ res.1 = BidOrder.SetQuantity q := by
  induction fuel with
  | zero =>
    intro clock b Asks m res hA h
    by_cases hc : 0 < b.m_Qty ∧ 0 < m
    · simp [OrderContainer.MatchOrdersInner, hc] at h
    · simp only [OrderContainer.MatchOrdersInner, hc, if_false, Option.some.injEq] at h
      subst h
      exact ⟨hA, b.m_Qty, Nat.le_refl _, (Order.SetQuantity_self b).symm⟩
  | succ f ih =>
    intro clock b Asks m res hA h
    by_cases hc : 0 < b.m_Qty ∧ 0 < m
    · cases Asks with
      | nil => simp [OrderContainer.MatchOrdersInner, hc] at h
      | cons a rest =>
        by_cases hlt : m < min a.m_Qty b.m_Qty
        · simp [OrderContainer.MatchOrdersInner, hc, hlt] at h
        · simp only [OrderContainer.MatchOrdersInner, hc, and_self, if_true, hlt, if_false,
            Option.map_eq_some'] at h
          obtain ⟨res1, hrec, hres⟩ := h
          subst hres
          have hA1 : P (if (a.SetQuantity (a.m_Qty - min a.m_Qty b.m_Qty)).m_Qty = 0 then rest
              else a.SetQuantity (a.m_Qty - min a.m_Qty b.m_Qty) :: rest) := by
            split
            · exact hP.tail a rest hA
            · rename_i hq
              rw [Order.SetQuantity_qty] at hq
              exact hP.lower a rest _ hA (Nat.pos_of_ne_zero hq) (Nat.sub_le _ _)
          obtain ⟨h1, q, hq, he⟩ := ih _ _ _ _ _ hA1 hrec
          rw [Order.SetQuantity_qty] at hq
          exact ⟨h1, q, Nat.le_trans hq (Nat.sub_le _ _), by rw [he, Order.SetQuantity_SetQuantity]⟩
    · simp only [OrderContainer.MatchOrdersInner, hc, if_false, Option.some.injEq] at h
      subst h
      exact ⟨hA, b.m_Qty, Nat.le_refl _, (Order.SetQuantity_self b).symm⟩

theorem MatchOrdersLoop_preserves (QB QA : Order → Prop) (PB PA : List Order → Prop)
    (hB : SideClosed .greater QB PB) (hA : SideClosed .less QA PA) (MatchingPrice : Nat)
    (fuel : Nat) :
    ∀ (clock : Nat → Nat) (Bids Asks : List Order) (m : Nat)
      (res : List Order × List Order × List Deal),
      PB Bids → PA Asks →
      OrderContainer.MatchOrdersLoop MatchingPrice fuel clock Bids Asks m = some res →
      PB res.1 ∧ PA res.2.1 := by
  induction fuel with
  | zero =>
    intro clock Bids Asks m res hb ha h
    by_cases hm : 0 < m
    · simp [OrderContainer.MatchOrdersLoop, hm] at h
    · simp only [OrderContainer.MatchOrdersLoop, hm, if_false, Option.some.injEq] at h
      subst h
      exact ⟨hb, ha⟩
  | succ f ih =>
    intro clock Bids Asks m res hb ha h
    by_cases hm : 0 < m
    · cases Bids with
      | nil => simp [OrderContainer.MatchOrdersLoop, hm] at h
      | cons b rest =>
        simp only [OrderContainer.MatchOrdersLoop, hm, if_true, Option.bind_eq_some,
          Option.map_eq_some'] at h
        obtain ⟨r, hinner, t, hrec, hres⟩ := h
        subst hres
        obtain ⟨ha1, q, hq, he⟩ :=
          MatchOrdersInner_preserves .less QA PA hA MatchingPrice f clock b Asks m r ha hinner
        have hb1 : PB (if r.1.m_Qty = 0 then rest else r.1 :: rest) := by
          split
          · exact hB.tail b rest hb
          · rename_i hne
            rw [he] at hne ⊢
            rw [Order.SetQuantity_qty] at hne
            exact hB.lower b rest q hb (Nat.pos_of_ne_zero hne) hq
        exact ih _ _ _ _ t hb1 ha1 hrec
    · simp only [OrderContainer.MatchOrdersLoop, hm, if_false, Option.some.injEq] at h
      subst h
      exact ⟨hb, ha⟩

theorem sideInsert_preserves (sp : SortingPredicate) (Q : Order → Prop) (P : List Order → Prop)
    (hP : SideClosed sp Q P) (l : List Order) (o : Order) (hQ : Q o) (hl : P l) :
    P (sideInsert sp l o).1 := by
  unfold sideInsert
  cases hf : findKey l o.key with
  | none => exact hP.insert o l hQ hf hl
  | some x => exact hl

theorem container_ProcessDeals_preserves {M : Type} [Msg M] (QB QA : Order → Prop)
    (PB PA : List Order → Prop) (hB : SideClosed .greater QB PB) (hA : SideClosed .less QA PA)
    (fuel : Nat) (clock : Nat → Nat) (c : OrderContainer) (iMsg : M) (iWay : OrderWay) (m : Nat)
    (s : OrderContainer × M × List Deal) (hb : PB c.m_BidOrders) (ha : PA c.m_AskOrders)
    (h : c.ProcessDeals fuel clock iMsg iWay m = some s) :
    PB s.1.m_BidOrders ∧ PA s.1.m_AskOrders ∧ ∃ e, s.2.1 = Msg.RemoveQuantity iMsg e := by
  cases iWay
  · simp only [OrderContainer.ProcessDeals, Option.map_eq_some'] at h
    obtain ⟨res, hres, hs⟩ := h
    subst hs
    obtain ⟨h1, h2⟩ := ProcessDeals_preserves .less QA PA hA fuel clock _ iMsg m res ha hres
    exact ⟨hb, h1, h2⟩
  · simp only [OrderContainer.ProcessDeals, Option.map_eq_some'] at h
    obtain ⟨res, hres, hs⟩ := h
    subst hs
    obtain ⟨h1, h2⟩ := ProcessDeals_preserves .greater QB PB hB fuel clock _ iMsg m res hb hres
    exact ⟨h1, ha, h2⟩
  · simp [OrderContainer.ProcessDeals] at h

theorem Insert_preserves (QB QA : Order → Prop) (PB PA : List Order → Prop)
    (hB : SideClosed .greater QB PB) (hA : SideClosed .less QA PA)
    (fuel : Nat) (clock : Nat → Nat) (c : OrderContainer) (iOrder : Order) (Match : Bool)
    (res : Outcome Order) (hins : (Op.Insert iOrder Match).Inserts QB QA)
    (hb : PB c.m_BidOrders) (ha : PA c.m_AskOrders)
    (h : c.Insert fuel clock iOrder Match = some res) :
    PB res.book.m_BidOrders ∧ PA res.book.m_AskOrders := by
  unfold OrderContainer.Insert at h
  simp only [] at h
  by_cases hdup : iOrder.key ∈ c.m_InsertedOrderIDs
  · simp only [hdup, if_true, Option.some.injEq] at h
    subst h
    exact ⟨hb, ha⟩
  · simp only [hdup, if_false, Option.bind_eq_some] at h
    obtain ⟨s, hs, hrest⟩ := h
    have hs1 : PB s.1.m_BidOrders ∧ PA s.1.m_AskOrders ∧ ∃ q, s.2.1 = iOrder.SetQuantity q := by
      have hself : (c, iOrder, ([] : List Deal)) = s →
          PB s.1.m_BidOrders ∧ PA s.1.m_AskOrders ∧ ∃ q, s.2.1 = iOrder.SetQuantity q := by
        intro he; subst he
        exact ⟨hb, ha, iOrder.m_Qty, (Order.SetQuantity_self iOrder).symm⟩
      cases Match
      · simp only [Bool.false_eq_true, if_false, Option.some.injEq] at hs
        exact hself hs
      · simp only [if_true] at hs
        split at hs
        · obtain ⟨h1, h2, e, he⟩ :=
            container_ProcessDeals_preserves QB QA PB PA hB hA fuel clock c iOrder _ _ s hb ha hs
          exact ⟨h1, h2, iOrder.m_Qty - e, he⟩
        · simp only [Option.some.injEq] at hs
          exact hself hs
    obtain ⟨hsb, hsa, q, hq⟩ := hs1
    split at hrest
    · rename_i hne
      simp only [Option.bind_eq_some] at hrest
      obtain ⟨a, ha1, hres⟩ := hrest
      have hqpos : 0 < s.2.1.m_Qty := Nat.pos_of_ne_zero hne
      have hform : s.2.1 = iOrder.SetQuantity s.2.1.m_Qty := by
        rw [hq, Order.SetQuantity_qty]
      have hQ := hins s.2.1.m_Qty hqpos
      rw [← hform] at hQ
      have hway : s.2.1.m_Way = iOrder.m_Way := by rw [hq]; rfl
      have hside : PB a.1.m_BidOrders ∧ PA a.1.m_AskOrders := by
        unfold OrderContainer.AuctionInsert at ha1
        split at ha1
        · rename_i hw
          simp only [Option.some.injEq] at ha1
          subst ha1
          exact ⟨sideInsert_preserves .greater QB PB hB _ _ (hQ.1 (hway ▸ hw)) hsb, hsa⟩
        · rename_i hw
          simp only [Option.some.injEq] at ha1
          subst ha1
          exact ⟨hsb, sideInsert_preserves .less QA PA hA _ _ (hQ.2 (hway ▸ hw)) hsa⟩
        · simp at ha1
      split at hres
      · simp only [Option.some.injEq] at hres; subst hres; exact hside
      · simp only [Option.some.injEq] at hres; subst hres; exact hside
    · simp only [Option.some.injEq] at hrest
      subst hrest
      exact ⟨hsb, hsa⟩

theorem ProcessModify_preserves (QB QA : Order → Prop) (PB PA : List Order → Prop)
    (hB : SideClosed .greater QB PB) (hA : SideClosed .less QA PA)
    (fuel : Nat) (clock : Nat → Nat) (c : OrderContainer) (r : OrderReplace) (Match : Bool)
    (p : Bool × OrderContainer × OrderReplace × List Deal)
    (hb : PB c.m_BidOrders) (ha : PA c.m_AskOrders)
    (h : c.ProcessModify fuel clock r Match = some p) :
    PB p.2.1.m_BidOrders ∧ PA p.2.1.m_AskOrders ∧
      (∃ e, p.2.2.1 = Msg.RemoveQuantity r e) ∧
      (p.1 = true → 0 < r.m_Qty → 0 < p.2.2.1.m_Qty) := by
  have hself : (true, c, r, ([] : List Deal)) = p →
      PB p.2.1.m_BidOrders ∧ PA p.2.1.m_AskOrders ∧
        (∃ e, p.2.2.1 = Msg.RemoveQuantity r e) ∧
        (p.1 = true → 0 < r.m_Qty → 0 < p.2.2.1.m_Qty) := by
    intro he; subst he
    exact ⟨hb, ha, ⟨0, rfl⟩, fun _ hq => hq⟩
  unfold OrderContainer.ProcessModify at h
  cases Match
  · simp only [Bool.false_eq_true, if_false, Option.some.injEq] at h
    exact hself h
  · simp only [if_true] at h
    split at h
    · simp only [Option.map_eq_some'] at h
      obtain ⟨s, hs, hsp⟩ := h
      obtain ⟨h1, h2, h3⟩ :=
        container_ProcessDeals_preserves QB QA PB PA hB hA fuel clock c r _ _ s hb ha hs
      split at hsp
      · subst hsp
        exact ⟨h1, h2, h3, fun hf => absurd hf (by simp)⟩
      · rename_i hne
        subst hsp
        exact ⟨h1, h2, h3, fun _ _ => Nat.pos_of_ne_zero hne⟩
    · simp only [Option.some.injEq] at h
      exact hself h

theorem Modify_preserves (QB QA : Order → Prop) (PB PA : List Order → Prop)
    (hB : SideClosed .greater QB PB) (hA : SideClosed .less QA PA)
    (fuel : Nat) (clock : Nat → Nat) (c : OrderContainer) (r : OrderReplace) (Match : Bool)
    (res : Outcome OrderReplace) (hins : (Op.Modify r Match).Inserts QB QA)
    (hb : PB c.m_BidOrders) (ha : PA c.m_AskOrders)
    (h : c.Modify fuel clock r Match = some res) :
    PB res.book.m_BidOrders ∧ PA res.book.m_AskOrders := by
  unfold OrderContainer.Modify at h
  simp only [] at h
  split at h
  · simp only [Option.some.injEq] at h; subst h; exact ⟨hb, ha⟩
  · split at h
    · rename_i hw
      unfold OrderContainer.ApplyModify at h
      simp only [] at h
      split at h
      · simp only [Option.map_eq_some'] at h
        obtain ⟨p, hp, hres⟩ := h
        obtain ⟨h1, h2, ⟨e, he⟩, hpos⟩ :=
          ProcessModify_preserves QB QA PB PA hB hA fuel clock c r Match p hb ha hp
        subst hres
        refine ⟨?_, h2⟩
        show PB (if p.1 = true then _ else _)
        split
        · rename_i hp1
          apply sideInsert_preserves .greater QB PB hB _ _ _ (hB.erase _ _ h1)
          have hQ := (hins p.2.2.1.m_Qty (hpos hp1)).1 hw
          rw [he] at hQ ⊢
          exact hQ
        · exact hB.erase _ _ h1
      · simp only [Option.some.injEq] at h; subst h; exact ⟨hb, ha⟩
    · rename_i hw
      unfold OrderContainer.ApplyModify at h
      simp only [] at h
      split at h
      · simp only [Option.map_eq_some'] at h
        obtain ⟨p, hp, hres⟩ := h
        obtain ⟨h1, h2, ⟨e, he⟩, hpos⟩ :=
          ProcessModify_preserves QB QA PB PA hB hA fuel clock c r Match p hb ha hp
        subst hres
        refine ⟨h1, ?_⟩
        show PA (if p.1 = true then _ else _)
        split
        · rename_i hp1
          apply sideInsert_preserves .less QA PA hA _ _ _ (hA.erase _ _ h2)
          have hQ := (hins p.2.2.1.m_Qty (hpos hp1)).2 hw
          rw [he] at hQ ⊢
          exact hQ
        · exact hA.erase _ _ h2
      · simp only [Option.some.injEq] at h; subst h; exact ⟨hb, ha⟩
    · simp at h

/-- Every returning call keeps a pair of closed side properties, provided the orders it
may insert satisfy the insertion conditions. -/
theorem apply_preserves {ord : IterationOrder} (QB QA : Order → Prop) (PB PA : List Order → Prop)
    (hB : SideClosed .greater QB PB) (hA : SideClosed .less QA PA)
    (fuel : Nat) (clock : Nat → Nat) (c : OrderContainer) (op : Op) (c1 : OrderContainer)
    (hins : op.Inserts QB QA) (hb : PB c.m_BidOrders) (ha : PA c.m_AskOrders)
    (h : c.apply ord fuel clock op = some c1) :
    PB c1.m_BidOrders ∧ PA c1.m_AskOrders := by
  cases op with
  | Insert iOrder Match =>
    simp only [OrderContainer.apply, Option.map_eq_some'] at h
    obtain ⟨res, hres, hbk⟩ := h
    subst hbk
    exact Insert_preserves QB QA PB PA hB hA fuel clock c iOrder Match res hins hb ha hres
  | Modify r Match =>
    simp only [OrderContainer.apply, Option.map_eq_some'] at h
    obtain ⟨res, hres, hbk⟩ := h
    subst hbk
    exact Modify_preserves QB QA PB PA hB hA fuel clock c r Match res hins hb ha hres
  | Delete iOrderId iClientId iWay =>
    simp only [OrderContainer.apply, Option.map_eq_some'] at h
    obtain ⟨res, hres, hbk⟩ := h
    subst hbk
    unfold OrderContainer.Delete at hres
    simp only [] at hres
    split at hres
    · simp only [Option.some.injEq] at hres; subst hres; exact ⟨hB.erase _ _ hb, ha⟩
    · simp only [Option.some.injEq] at hres; subst hres; exact ⟨hb, hA.erase _ _ ha⟩
    · simp at hres
  | CancelAllOrders =>
    simp only [OrderContainer.apply, Option.some.injEq] at h
    subst h
    simp only [OrderContainer.CancelAllOrders, DoCancelAllOrders_eq]
    exact ⟨hB.nil, hA.nil⟩
  | MatchOrders =>
    simp only [OrderContainer.apply, Option.map_eq_some'] at h
    obtain ⟨res, hres, hbk⟩ := h
    subst hbk
    simp only [OrderContainer.MatchOrders, Option.map_eq_some'] at hres
    obtain ⟨t, ht, hr⟩ := hres
    subst hr
    exact MatchOrdersLoop_preserves QB QA PB PA hB hA _ fuel clock _ _ _ t hb ha ht

theorem comp_chain (sp : SortingPredicate) (a b c : Nat) (h1 : sp.comp a b = true)
    (h2 : sp.comp c b = false) : sp.comp a c = true := by
  cases sp <;> simp only [SortingPredicate.comp, decide_eq_true_eq, decide_eq_false_iff_not]
    at h1 h2 ⊢ <;> omega

theorem comp_asymm (sp : SortingPredicate) (a b : Nat) (h : sp.comp a b = true) :
    sp.comp b a = false := by
  cases sp <;> simp only [SortingPredicate.comp, decide_eq_true_eq, decide_eq_false_iff_not]
    at h ⊢ <;> omega

theorem priceInsert_split (sp : SortingPredicate) (o : Order) (l : List Order) :
    ∃ l1 l2, l = l1 ++ l2 ∧ priceInsert sp o l = l1 ++ o :: l2 ∧
      (∀ x ∈ l1, sp.comp o.m_Price x.m_Price = false) ∧
      (PriceSorted sp l → ∀ y ∈ l2, sp.comp o.m_Price y.m_Price = true) := by
  induction l with
  | nil => exact ⟨[], [], rfl, rfl, by simp, by simp⟩
  | cons x xs ih =>
    by_cases hc : sp.comp o.m_Price x.m_Price = true
    · refine ⟨[], x :: xs, rfl, by simp [priceInsert, hc], by simp, ?_⟩
      intro hs y hy
      rcases List.mem_cons.mp hy with rfl | hy
      · exact hc
      · exact comp_chain sp _ _ _ hc ((List.pairwise_cons.mp hs).1 y hy)
    · obtain ⟨l1, l2, hl, hins, h1, h2⟩ := ih
      refine ⟨x :: l1, l2, by simp [hl], by simp [priceInsert, hc, hins], ?_, ?_⟩
      · intro y hy
        rcases List.mem_cons.mp hy with rfl | hy
        · simpa using hc
        · exact h1 y hy
      · intro hs
        exact h2 (List.pairwise_cons.mp hs).2

theorem eraseKey_sublist (k : OrderKey) (l : List Order) : List.Sublist (eraseKey k l) l := by
  induction l with
  | nil => exact List.Sublist.slnil
  | cons x xs ih =>
    unfold eraseKey
    split
    · exact List.sublist_cons_self x xs
    · exact List.Sublist.cons₂ x ih

theorem priceInsert_sorted (sp : SortingPredicate) (o : Order) (l : List Order)
    (hs : PriceSorted sp l) : PriceSorted sp (priceInsert sp o l) := by
  obtain ⟨l1, l2, hl, hins, h1, h2⟩ := priceInsert_split sp o l
  have h2' := h2 hs
  rw [hins]
  rw [hl] at hs
  unfold PriceSorted at hs ⊢
  rw [List.pairwise_append] at hs ⊢
  obtain ⟨hs1, hs2, hs12⟩ := hs
  refine ⟨hs1, ?_, ?_⟩
  · rw [List.pairwise_cons]
    exact ⟨fun y hy => comp_asymm sp _ _ (h2' y hy), hs2⟩
  · intro a ha b hb
    rcases List.mem_cons.mp hb with rfl | hb
    · exact h1 a ha
    · exact hs12 a ha b hb

/-- Being in price-priority order is a closed side property. -/
theorem sorted_closed (sp : SortingPredicate) :
    SideClosed sp (fun _ => True) (PriceSorted sp) where
  nil := List.Pairwise.nil
  tail := fun _ _ h => (List.pairwise_cons.mp h).2
  lower := fun o l q h _ _ => by
    unfold PriceSorted at h ⊢
    rw [List.pairwise_cons] at h ⊢
    exact ⟨h.1, h.2⟩
  erase := fun k l h => List.Pairwise.sublist (eraseKey_sublist k l) h
  insert := fun o l _ _ h => priceInsert_sorted sp o l h

/-- Validity of a side of way `w` is a closed side property, for inserted orders that
are themselves valid. -/
theorem valid_closed (sp : SortingPredicate) (w : OrderWay) :
    SideClosed sp (fun o => 0 < o.m_Qty ∧ 0 < o.m_Price ∧ o.m_Way = w) (SideValid w) where
  nil := ⟨List.Pairwise.nil, by simp⟩
  tail := fun o l h =>
    ⟨(List.pairwise_cons.mp h.1).2, fun x hx => h.2 x (List.mem_cons_of_mem _ hx)⟩
  lower := fun o l q h hq _ => by
    refine ⟨?_, ?_⟩
    · have := h.1
      unfold KeysDistinct at this ⊢
      rw [List.pairwise_cons] at this ⊢
      exact ⟨this.1, this.2⟩
    · intro x hx
      rcases List.mem_cons.mp hx with rfl | hx
      · have := h.2 o (List.mem_cons_self _ _)
        exact ⟨hq, this.2.1, this.2.2⟩
      · exact h.2 x (List.mem_cons_of_mem _ hx)
  erase := fun k l h =>
    ⟨List.Pairwise.sublist (eraseKey_sublist k l) h.1,
      fun x hx => h.2 x ((eraseKey_sublist k l).subset hx)⟩
  insert := fun o l hQ hf h => by
    obtain ⟨l1, l2, hl, hins, _, _⟩ := priceInsert_split sp o l
    have hne := (findKey_eq_none l o.key).mp hf
    refine ⟨?_, ?_⟩
    · rw [hins]
      unfold KeysDistinct
      rw [List.pairwise_middle (fun hab => Ne.symm hab), List.pairwise_cons, ← hl]
      exact ⟨fun x hx => Ne.symm (hne x hx), h.1⟩
    · intro x hx
      rcases (mem_priceInsert sp o x l).mp hx with rfl | hx
      · exact hQ
      · exact h.2 x hx

theorem inserts_trivial (op : Op) : op.Inserts (fun _ => True) (fun _ => True) := by
  cases op <;> simp [Op.Inserts]

theorem Reaches_sorted {ord : IterationOrder} (c c1 : OrderContainer) (h : Reaches ord c c1)
    (hb : PriceSorted .greater c.m_BidOrders) (ha : PriceSorted .less c.m_AskOrders) :
    PriceSorted .greater c1.m_BidOrders ∧ PriceSorted .less c1.m_AskOrders := by
  induction h with
  | refl => exact ⟨hb, ha⟩
  | step fuel clock op _ hstep ih =>
    exact apply_preserves _ _ _ _ (sorted_closed .greater) (sorted_closed .less) fuel clock _ op _
      (inserts_trivial op) ih.1 ih.2 hstep

theorem inserts_of_validated (op : Op) (h : op.Validated) :
    op.Inserts (fun o => 0 < o.m_Qty ∧ 0 < o.m_Price ∧ o.m_Way = .BUY)
      (fun o => 0 < o.m_Qty ∧ 0 < o.m_Price ∧ o.m_Way = .SELL) := by
  cases op with
  | Insert iOrder Match =>
    intro q hq
    exact ⟨fun hw => ⟨hq, h.2.1, hw⟩, fun hw => ⟨hq, h.2.1, hw⟩⟩
  | Modify r Match =>
    intro q hq
    exact ⟨fun hw => ⟨hq h.1, h.2.1, hw⟩, fun hw => ⟨hq h.1, h.2.1, hw⟩⟩
  | Delete _ _ _ => trivial
  | CancelAllOrders => trivial
  | MatchOrders => trivial

theorem ReachesValidated_valid {ord : IterationOrder}
    (c c1 : OrderContainer) (h : ReachesValidated ord c c1)
    (hb : SideValid .BUY c.m_BidOrders) (ha : SideValid .SELL c.m_AskOrders) :
    SideValid .BUY c1.m_BidOrders ∧ SideValid .SELL c1.m_AskOrders := by
  induction h with
  | refl => exact ⟨hb, ha⟩
  | step fuel clock op _ hv hstep ih =>
    exact apply_preserves _ _ _ _ (valid_closed .greater .BUY) (valid_closed .less .SELL)
      fuel clock _ op _ (inserts_of_validated op hv) ih.1 ih.2 hstep

/-- C17: in every state reached from the empty container by validated calls (messages
with quantity > 0, price > 0 and way BUY or SELL), every resting order has a positive
quantity and a positive price, every order of the bid side is a BUY and every order of
the ask side a SELL, and no two orders of a side share a key. -/
theorem C17_resting_order_invariant (ord : IterationOrder) (c : OrderContainer)
    (h : ReachesValidated ord OrderContainer.empty c) :
    (∀ o ∈ c.m_BidOrders, 0 < o.m_Qty ∧ 0 < o.m_Price ∧ o.m_Way = .BUY) ∧
    (∀ o ∈ c.m_AskOrders, 0 < o.m_Qty ∧ 0 < o.m_Price ∧ o.m_Way = .SELL) ∧
    c.m_BidOrders.Pairwise (fun a b => a.key ≠ b.key) ∧
    c.m_AskOrders.Pairwise (fun a b => a.key ≠ b.key) := by
  have hv := ReachesValidated_valid _ _ h ⟨List.Pairwise.nil, by simp [OrderContainer.empty]⟩
    ⟨List.Pairwise.nil, by simp [OrderContainer.empty]⟩
  exact ⟨hv.1.2, hv.2.2, hv.1.1, hv.2.1⟩

theorem afterFill_zero (l : List Order) : afterFill l 0 = l := by
  cases l <;> simp [afterFill]

theorem afterFill_afterFill (l : List Order) :
    ∀ a b : Nat, afterFill (afterFill l a) b = afterFill l (a + b) := by
  induction l with
  | nil => intro a b; simp [afterFill]
  | cons o os ih =>
    intro a b
    by_cases ha : a = 0
    · subst ha; simp [afterFill_zero]
    · by_cases hle : o.m_Qty ≤ a
      · have hab : ¬ a + b = 0 := by omega
        have hle2 : o.m_Qty ≤ a + b := by omega
        simp only [afterFill, ha, hle, hab, hle2, if_true, if_false, ih]
        congr 1
        omega
      · by_cases hb : b = 0
        · subst hb; simp [afterFill_zero]
        · have hab : ¬ a + b = 0 := by omega
          simp only [afterFill, ha, hle, if_false, hb, Order.SetQuantity_qty, hab]
          by_cases h2 : o.m_Qty - a ≤ b
          · have h3 : o.m_Qty ≤ a + b := by omega
            simp only [h2, h3, if_true]
            congr 1
            omega
          · have h3 : ¬ o.m_Qty ≤ a + b := by omega
            simp only [h2, h3, if_false, Order.SetQuantity_SetQuantity]
            congr 2
            omega

theorem afterFill_append (l post : List Order) :
    ∀ a : Nat, a ≤ totalQty l → afterFill (l ++ post) a = afterFill l a ++ post := by
  induction l with
  | nil => intro a ha; simp [totalQty] at ha; subst ha; simp [afterFill_zero, afterFill]
  | cons o os ih =>
    intro a ha
    have htot : totalQty (o :: os) = o.m_Qty + totalQty os := by simp [totalQty]
    by_cases h0 : a = 0
    · subst h0; simp [afterFill_zero]
    · by_cases hle : o.m_Qty ≤ a
      · simp only [List.cons_append, afterFill, h0, hle, if_true, if_false]
        exact ih _ (by omega)
      · simp only [List.cons_append, afterFill, h0, hle, if_false]
        rfl

theorem afterFill_total (l : List Order) :
    ∀ a : Nat, a ≤ totalQty l → totalQty (afterFill l a) + a = totalQty l := by
  induction l with
  | nil => intro a ha; simp [totalQty] at ha; subst ha; simp [afterFill]
  | cons o os ih =>
    intro a ha
    have htot : totalQty (o :: os) = o.m_Qty + totalQty os := by simp [totalQty]
    by_cases h0 : a = 0
    · subst h0; simp [afterFill_zero]
    · by_cases hle : o.m_Qty ≤ a
      · simp only [afterFill, h0, hle, if_true, if_false]
        have := ih (a - o.m_Qty) (by omega)
        omega
      · simp only [afterFill, h0, hle, if_false]
        have h2 : totalQty (o.SetQuantity (o.m_Qty - a) :: os) = (o.m_Qty - a) + totalQty os := by
          simp [totalQty, Order.SetQuantity]
        omega

theorem afterFill_pos (l : List Order) :
    ∀ a : Nat, (∀ o ∈ l, 0 < o.m_Qty) → ∀ o ∈ afterFill l a, 0 < o.m_Qty := by
  induction l with
  | nil => intro a _ o ho; simp [afterFill] at ho
  | cons x xs ih =>
    intro a hpos o ho
    by_cases h0 : a = 0
    · subst h0; rw [afterFill_zero] at ho; exact hpos o ho
    · by_cases hle : x.m_Qty ≤ a
      · simp only [afterFill, h0, hle, if_true, if_false] at ho
        exact ih _ (fun y hy => hpos y (List.mem_cons_of_mem _ hy)) o ho
      · simp only [afterFill, h0, hle, if_false] at ho
        rcases List.mem_cons.mp ho with rfl | ho
        · rw [Order.SetQuantity_qty]; omega
        · exact hpos o (List.mem_cons_of_mem _ ho)

theorem afterFill_length (l : List Order) : ∀ a : Nat, (afterFill l a).length ≤ l.length := by
  induction l with
  | nil => intro a; simp [afterFill]
  | cons x xs ih =>
    intro a
    by_cases h0 : a = 0
    · subst h0; rw [afterFill_zero]
    · by_cases hle : x.m_Qty ≤ a
      · simp only [afterFill, h0, hle, if_true, if_false, List.length_cons]
        exact Nat.le_succ_of_le (ih _)
      · simp only [afterFill, h0, hle, if_false, List.length_cons]
        exact Nat.le_refl _

theorem AuctionRun_append (P : Nat) {ds1 ds2 : List Deal} {b a b1 a1 b2 a2 : List Order}
    (h1 : AuctionRun P ds1 b a b1 a1) (h2 : AuctionRun P ds2 b1 a1 b2 a2) :
    AuctionRun P (ds1 ++ ds2) b a b2 a2 := by
  induction h1 with
  | nil => exact h2
  | cons now b bs a as ds bids1 asks1 _ ih =>
    exact AuctionRun.cons now b bs a as (ds ++ ds2) b2 a2 (ih h2)

theorem AuctionRun_price (P : Nat) {ds : List Deal} {b a b1 a1 : List Order}
    (h : AuctionRun P ds b a b1 a1) : ∀ d ∈ ds, d.m_Price = P := by
  induction h with
  | nil => simp
  | cons now b bs a as ds bids1 asks1 _ ih =>
    intro d hd
    rcases List.mem_cons.mp hd with rfl | hd
    · rfl
    · exact ih d hd

theorem MatchOrdersInner_stop (P fuel : Nat) (clock : Nat → Nat) (b : Order)
    (Asks : List Order) (m : Nat) (h : ¬ (0 < b.m_Qty ∧ 0 < m)) :
    OrderContainer.MatchOrdersInner P fuel clock b Asks m = some (b, Asks, m, []) := by
  cases fuel <;> simp only [OrderContainer.MatchOrdersInner, h, if_false]

theorem MatchOrdersLoop_stop (P fuel : Nat) (clock : Nat → Nat) (Bids Asks : List Order) :
    OrderContainer.MatchOrdersLoop P fuel clock Bids Asks 0 = some (Bids, Asks, []) := by
  cases fuel <;> simp [OrderContainer.MatchOrdersLoop]

theorem MatchOrdersInner_step (P fuel : Nat) (clock : Nat → Nat) (b a : Order)
    (rest : List Order) (m : Nat) (hc : 0 < b.m_Qty ∧ 0 < m) (hle : min a.m_Qty b.m_Qty ≤ m) :
    OrderContainer.MatchOrdersInner P (fuel + 1) clock b (a :: rest) m
      = (OrderContainer.MatchOrdersInner P fuel (fun i => clock (i + 1))
            (b.SetQuantity (b.m_Qty - min a.m_Qty b.m_Qty))
            (if a.m_Qty - min a.m_Qty b.m_Qty = 0 then rest
              else a.SetQuantity (a.m_Qty - min a.m_Qty b.m_Qty) :: rest)
            (m - min a.m_Qty b.m_Qty)).map
          (fun r => (r.1, r.2.1, r.2.2.1,
            Deal.new (clock 0) P (min a.m_Qty b.m_Qty) b.m_ClientID b.m_OrderID
              a.m_ClientID a.m_OrderID :: r.2.2.2)) := by
  have hlt : ¬ m < min a.m_Qty b.m_Qty := Nat.not_lt.mpr hle
  simp only [OrderContainer.MatchOrdersInner, hc, and_self, if_true, hlt, if_false,
    Order.SetQuantity_qty]
  rfl

/-- The inner loop of `MatchOrders` on a front bid `b` facing the asks `as` (all of
positive quantity) with a match quantity `m` that the asks can serve and that is not
smaller than what `b` can take from them: it returns, having filled
`f = min b.m_Qty m` from `b` and from the front of the asks. -/
theorem MatchOrdersInner_run (P : Nat) (as : List Order) :
    ∀ (apost brest : List Order) (fuel : Nat) (clock : Nat → Nat) (b : Order) (m f : Nat),
      (∀ o ∈ as, 0 < o.m_Qty) → min b.m_Qty (totalQty as) ≤ m → m ≤ totalQty as →
      as.length ≤ fuel → f = min b.m_Qty m →
      ∃ ds, OrderContainer.MatchOrdersInner P fuel clock b (as ++ apost) m
          = some (b.SetQuantity (b.m_Qty - f), afterFill as f ++ apost, m - f, ds) ∧
        dealQty ds = f ∧
        AuctionRun P ds (b :: brest) (as ++ apost) (afterFill (b :: brest) f)
          (afterFill as f ++ apost) := by
  induction as with
  | nil =>
    intro apost brest fuel clock b m f _ _ hm _ hf
    have hm0 : m = 0 := by simpa [totalQty] using hm
    subst hm0
    have hf0 : f = 0 := by omega
    subst hf0
    refine ⟨[], ?_, rfl, ?_⟩
    · rw [MatchOrdersInner_stop P fuel clock b _ 0 (by omega)]
      simp [afterFill, Order.SetQuantity_self]
    · rw [afterFill_zero]
      exact AuctionRun.nil _ _
  | cons a as1 ih =>
    intro apost brest fuel clock b m f hpos hmin hm hfuel hf
    have htot : totalQty (a :: as1) = a.m_Qty + totalQty as1 := by simp [totalQty]
    have hapos : 0 < a.m_Qty := hpos a (List.mem_cons_self _ _)
    have hpos1 : ∀ o ∈ as1, 0 < o.m_Qty := fun o ho => hpos o (List.mem_cons_of_mem _ ho)
    by_cases hc : 0 < b.m_Qty ∧ 0 < m
    · obtain ⟨hb, hmpos⟩ := hc
      cases fuel with
      | zero => simp at hfuel
      | succ fuel1 =>
        have hfuel1 : as1.length ≤ fuel1 := by simpa using hfuel
        have hle : min a.m_Qty b.m_Qty ≤ m := by omega
        rw [List.cons_append, MatchOrdersInner_step P fuel1 clock b a _ m ⟨hb, hmpos⟩ hle]
        by_cases hab : a.m_Qty ≤ b.m_Qty
        · have he : min a.m_Qty b.m_Qty = a.m_Qty := Nat.min_eq_left hab
          have hf0 : ¬ f = 0 := by omega
          have haf : a.m_Qty ≤ f := by omega
          obtain ⟨ds, hrun, hq, hr⟩ := ih apost brest fuel1 (fun i => clock (i + 1))
            (b.SetQuantity (b.m_Qty - a.m_Qty)) (m - a.m_Qty) (f - a.m_Qty) hpos1
            (by rw [Order.SetQuantity_qty]; omega) (by omega) hfuel1
            (by rw [Order.SetQuantity_qty]; omega)
          have e1 : b.m_Qty - a.m_Qty - (f - a.m_Qty) = b.m_Qty - f := by omega
          have e2 : m - a.m_Qty - (f - a.m_Qty) = m - f := by omega
          refine ⟨Deal.new (clock 0) P (min a.m_Qty b.m_Qty) b.m_ClientID b.m_OrderID
            a.m_ClientID a.m_OrderID :: ds, ?_, ?_, ?_⟩
          · rw [he]
            simp only [Nat.sub_self, if_true]
            rw [hrun]
            simp only [Option.map_some', Order.SetQuantity_qty, Order.SetQuantity_SetQuantity,
              afterFill, hf0, haf, if_true, if_false, e1, e2]
          · simp only [dealQty, List.map_cons, List.sum_cons] at hq ⊢
            show min a.m_Qty b.m_Qty + _ = f
            omega
          · refine AuctionRun.cons (clock 0) b brest a (as1 ++ apost) ds _ _ ?_
            rw [he]
            have h1 : afterFill (a :: (as1 ++ apost)) a.m_Qty = as1 ++ apost := by
              simp [afterFill, Nat.ne_of_gt hapos, afterFill_zero]
            rw [h1]
            by_cases hbe : b.m_Qty ≤ a.m_Qty
            · have hfe : f = a.m_Qty := by omega
              have hstop := MatchOrdersInner_stop P fuel1 (fun i => clock (i + 1))
                (b.SetQuantity (b.m_Qty - a.m_Qty)) (as1 ++ apost) (m - a.m_Qty)
                (by rw [Order.SetQuantity_qty]; omega)
              rw [hstop] at hrun
              have hds : ([] : List Deal) = ds := by
                injection hrun with h
                exact (Prod.mk.inj (Prod.mk.inj (Prod.mk.inj h).2).2).2
              have h2 : afterFill (b :: brest) a.m_Qty = brest := by
                have hz : a.m_Qty - b.m_Qty = 0 := by omega
                simp [afterFill, Nat.ne_of_gt hapos, hbe, afterFill_zero, hz]
              have h4 : afterFill (a :: as1) a.m_Qty = as1 := by
                simp [afterFill, Nat.ne_of_gt hapos, afterFill_zero]
              rw [hfe, h2, h4, ← hds]
              exact AuctionRun.nil _ _
            · have h2 : afterFill (b :: brest) a.m_Qty
                  = b.SetQuantity (b.m_Qty - a.m_Qty) :: brest := by
                simp [afterFill, Nat.ne_of_gt hapos, hbe]
              rw [h2]
              have h3 : afterFill (b :: brest) f
                  = afterFill (b.SetQuantity (b.m_Qty - a.m_Qty) :: brest) (f - a.m_Qty) := by
                rw [← h2, afterFill_afterFill]
                congr 1; omega
              have h4 : afterFill (a :: as1) f = afterFill as1 (f - a.m_Qty) := by
                simp [afterFill, hf0, haf]
              rw [h3, h4]
              exact hr
        · have he : min a.m_Qty b.m_Qty = b.m_Qty := Nat.min_eq_right (by omega)
          have hfb : f = b.m_Qty := by omega
          have hne : ¬ a.m_Qty - b.m_Qty = 0 := by omega
          refine ⟨[Deal.new (clock 0) P (min a.m_Qty b.m_Qty) b.m_ClientID b.m_OrderID
            a.m_ClientID a.m_OrderID], ?_, ?_, ?_⟩
          · rw [he]
            simp only [hne, if_false]
            rw [MatchOrdersInner_stop P fuel1 _ _ _ _
              (by rw [Order.SetQuantity_qty]; omega)]
            simp only [Option.map_some', hfb, afterFill, Nat.ne_of_gt hb, hab, if_false,
              List.cons_append]
          · simp [dealQty, Deal.new, hfb, he]
          · refine AuctionRun.cons (clock 0) b brest a (as1 ++ apost) [] _ _ ?_
            rw [he, hfb]
            have h1 : afterFill (a :: as1) b.m_Qty
                = a.SetQuantity (a.m_Qty - b.m_Qty) :: as1 := by
              simp [afterFill, Nat.ne_of_gt hb, hab]
            have h2 : afterFill (a :: (as1 ++ apost)) b.m_Qty
                = a.SetQuantity (a.m_Qty - b.m_Qty) :: (as1 ++ apost) := by
              simp [afterFill, Nat.ne_of_gt hb, hab]
            rw [h1, h2]
            exact AuctionRun.nil _ _
    · have hf0 : f = 0 := by omega
      subst hf0
      refine ⟨[], ?_, rfl, ?_⟩
      · rw [MatchOrdersInner_stop P fuel clock b _ m hc]
        simp [afterFill_zero, Order.SetQuantity_self]
      · rw [afterFill_zero, afterFill_zero]
        exact AuctionRun.nil _ _

theorem MatchOrdersLoop_step (P fuel : Nat) (clock : Nat → Nat) (b : Order)
    (rest Asks : List Order) (m : Nat) (hm : 0 < m)
    (r : Order × List Order × Nat × List Deal)
    (hr : OrderContainer.MatchOrdersInner P fuel clock b Asks m = some r) :
    OrderContainer.MatchOrdersLoop P (fuel + 1) clock (b :: rest) Asks m
      = (OrderContainer.MatchOrdersLoop P fuel (fun i => clock (i + r.2.2.2.length))
            (if r.1.m_Qty = 0 then rest else r.1 :: rest) r.2.1 r.2.2.1).map
          (fun t => (t.1, t.2.1, r.2.2.2 ++ t.2.2)) := by
  simp only [OrderContainer.MatchOrdersLoop, hm, if_true, hr]
  rfl

theorem dealQty_append (l1 l2 : List Deal) : dealQty (l1 ++ l2) = dealQty l1 + dealQty l2 := by
  simp [dealQty]

/-- The outer loop of `MatchOrders` on bids `bs` and asks `as` of positive quantities
with the match quantity `m = min (total of bs) (total of as)`: it returns, having
filled `m` from the front of each side. -/
theorem MatchOrdersLoop_run (P : Nat) (bs : List Order) :
    ∀ (bpost as apost : List Order) (fuel : Nat) (clock : Nat → Nat) (m : Nat),
      (∀ o ∈ bs, 0 < o.m_Qty) → (∀ o ∈ as, 0 < o.m_Qty) →
      m = min (totalQty bs) (totalQty as) → bs.length + as.length ≤ fuel →
      ∃ ds, OrderContainer.MatchOrdersLoop P fuel clock (bs ++ bpost) (as ++ apost) m
          = some (afterFill bs m ++ bpost, afterFill as m ++ apost, ds) ∧
        dealQty ds = m ∧
        AuctionRun P ds (bs ++ bpost) (as ++ apost) (afterFill bs m ++ bpost)
          (afterFill as m ++ apost) := by
  induction bs with
  | nil =>
    intro bpost as apost fuel clock m _ _ hm _
    have hm0 : m = 0 := by simp [totalQty] at hm; exact hm
    subst hm0
    refine ⟨[], ?_, rfl, ?_⟩
    · rw [MatchOrdersLoop_stop]; simp [afterFill, afterFill_zero]
    · simp only [afterFill_zero, afterFill, List.nil_append]
      exact AuctionRun.nil _ _
  | cons b bs1 ih =>
    intro bpost as apost fuel clock m hposB hposA hm hfuel
    have htot : totalQty (b :: bs1) = b.m_Qty + totalQty bs1 := by simp [totalQty]
    have hbpos : 0 < b.m_Qty := hposB b (List.mem_cons_self _ _)
    have hposB1 : ∀ o ∈ bs1, 0 < o.m_Qty := fun o ho => hposB o (List.mem_cons_of_mem _ ho)
    by_cases hm0 : m = 0
    · subst hm0
      refine ⟨[], ?_, rfl, ?_⟩
      · rw [MatchOrdersLoop_stop]; simp [afterFill_zero]
      · simp only [afterFill_zero]
        exact AuctionRun.nil _ _
    · cases fuel with
      | zero => simp at hfuel
      | succ fuel1 =>
        have hfuel1 : bs1.length + as.length ≤ fuel1 := by
          simp only [List.length_cons] at hfuel; omega
        obtain ⟨ds1, hin, hq1, hr1⟩ := MatchOrdersInner_run P as apost (bs1 ++ bpost) fuel1 clock
          b m (min b.m_Qty m) hposA (by omega) (by omega) (by omega) rfl
        rw [List.cons_append, MatchOrdersLoop_step P fuel1 clock b _ _ m (by omega) _ hin]
        simp only [Order.SetQuantity_qty]
        by_cases hbm : b.m_Qty ≤ m
        · have hf : min b.m_Qty m = b.m_Qty := Nat.min_eq_left hbm
          rw [hf] at hq1 hr1 ⊢
          have hbT : b.m_Qty ≤ totalQty as := by omega
          have hT := afterFill_total as b.m_Qty hbT
          have hL := afterFill_length as b.m_Qty
          obtain ⟨ds2, hloop, hq2, hr2⟩ := ih bpost (afterFill as b.m_Qty) apost fuel1
            (fun i => clock (i + ds1.length)) (m - b.m_Qty) hposB1
            (afterFill_pos as b.m_Qty hposA) (by omega) (by omega)
          have hB : afterFill (b :: bs1) m = afterFill bs1 (m - b.m_Qty) := by
            simp [afterFill, hm0, hbm]
          have hA : afterFill (afterFill as b.m_Qty) (m - b.m_Qty) = afterFill as m := by
            rw [afterFill_afterFill]; congr 1; omega
          have hB0 : afterFill (b :: (bs1 ++ bpost)) b.m_Qty = bs1 ++ bpost := by
            simp [afterFill, Nat.ne_of_gt hbpos, afterFill_zero]
          rw [hA] at hloop hr2
          rw [hB0] at hr1
          refine ⟨ds1 ++ ds2, ?_, ?_, ?_⟩
          · simp only [Nat.sub_self, if_true, hloop, Option.map_some', hB]
          · rw [dealQty_append, hq1, hq2]; omega
          · rw [hB]
            exact AuctionRun_append P hr1 hr2
        · have hf : min b.m_Qty m = m := Nat.min_eq_right (by omega)
          rw [hf] at hq1 hr1 ⊢
          have hne : ¬ b.m_Qty - m = 0 := by omega
          have hB : afterFill (b :: bs1) m = b.SetQuantity (b.m_Qty - m) :: bs1 := by
            simp [afterFill, hm0, hbm]
          have hB0 : afterFill (b :: (bs1 ++ bpost)) m
              = b.SetQuantity (b.m_Qty - m) :: (bs1 ++ bpost) := by
            simp [afterFill, hm0, hbm]
          rw [hB0] at hr1
          refine ⟨ds1, ?_, hq1, ?_⟩
          · simp only [hne, if_false, Nat.sub_self, MatchOrdersLoop_stop, Option.map_some', hB,
              List.append_nil, List.cons_append]
          · rw [hB]
            exact hr1

theorem totalQty_takeWhile_le (p : Order → Bool) (l : List Order) :
    totalQty (l.takeWhile p) ≤ totalQty l := by
  have h := List.takeWhile_append_dropWhile p l
  have h2 := totalQty_append (l.takeWhile p) (l.dropWhile p)
  rw [h] at h2
  omega

/-- On a well-formed container `MatchOrders` returns, with enough fuel, the container
whose two sides have been relieved from the front of the quantity computed by
`GetTheoriticalAuctionInformations`, by a run of deals at the price computed. -/
theorem MatchOrders_eq {ord : IterationOrder} (fuel : Nat) (clock : Nat → Nat) (c : OrderContainer)
    (hw : WellFormed c) (hfuel : c.m_BidOrders.length + c.m_AskOrders.length ≤ fuel) :
    (c.GetTheoriticalAuctionInformations ord).2 ≤ totalQty c.m_BidOrders ∧
    (c.GetTheoriticalAuctionInformations ord).2 ≤ totalQty c.m_AskOrders ∧
    ∃ ds, c.MatchOrders ord fuel clock
        = some (⟨afterFill c.m_BidOrders (c.GetTheoriticalAuctionInformations ord).2,
            afterFill c.m_AskOrders (c.GetTheoriticalAuctionInformations ord).2,
            c.m_InsertedOrderIDs⟩, ds) ∧
      dealQty ds = (c.GetTheoriticalAuctionInformations ord).2 ∧
      AuctionRun (c.GetTheoriticalAuctionInformations ord).1 ds c.m_BidOrders c.m_AskOrders
        (afterFill c.m_BidOrders (c.GetTheoriticalAuctionInformations ord).2)
        (afterFill c.m_AskOrders (c.GetTheoriticalAuctionInformations ord).2) := by
  obtain ⟨hsB, hsA, hpB, hpA⟩ := hw
  rcases GetTheoriticalAuctionInformations_cases c with ⟨h0, _⟩ | ⟨l1, o, l2, _, hres, _, _, _⟩
  · refine ⟨by rw [h0]; exact Nat.zero_le _, by rw [h0]; exact Nat.zero_le _, [], ?_, ?_, ?_⟩
    · simp only [OrderContainer.MatchOrders, h0, MatchOrdersLoop_stop, Option.map_some',
        afterFill_zero]
    · rw [h0]; rfl
    · rw [h0]; simp only [afterFill_zero]; exact AuctionRun.nil _ _
  · have hq : c.auctionQty o.m_Price
        = min (totalQty (c.m_BidOrders.takeWhile
              (fun x => ExecutableQtyPredHelper .greater x.m_Price o.m_Price)))
            (totalQty (c.m_AskOrders.takeWhile
              (fun x => ExecutableQtyPredHelper .less x.m_Price o.m_Price))) := by
      unfold OrderContainer.auctionQty
      rw [GetExecutableQuantity_eq, GetExecutableQuantity_eq,
        filter_eq_takeWhile_of_sorted _ _ _ hsB, filter_eq_takeWhile_of_sorted _ _ _ hsA]
    have hB := List.takeWhile_append_dropWhile
      (fun x => ExecutableQtyPredHelper .greater x.m_Price o.m_Price) c.m_BidOrders
    have hA := List.takeWhile_append_dropWhile
      (fun x => ExecutableQtyPredHelper .less x.m_Price o.m_Price) c.m_AskOrders
    have hlB := totalQty_takeWhile_le
      (fun x => ExecutableQtyPredHelper .greater x.m_Price o.m_Price) c.m_BidOrders
    have hlA := totalQty_takeWhile_le
      (fun x => ExecutableQtyPredHelper .less x.m_Price o.m_Price) c.m_AskOrders
    have hnB : (c.m_BidOrders.takeWhile
        (fun x => ExecutableQtyPredHelper .greater x.m_Price o.m_Price)).length
          ≤ c.m_BidOrders.length := (List.takeWhile_sublist _).length_le
    have hnA : (c.m_AskOrders.takeWhile
        (fun x => ExecutableQtyPredHelper .less x.m_Price o.m_Price)).length
          ≤ c.m_AskOrders.length := (List.takeWhile_sublist _).length_le
    obtain ⟨ds, hloop, hdq, hrun⟩ := MatchOrdersLoop_run o.m_Price
      (c.m_BidOrders.takeWhile (fun x => ExecutableQtyPredHelper .greater x.m_Price o.m_Price))
      (c.m_BidOrders.dropWhile (fun x => ExecutableQtyPredHelper .greater x.m_Price o.m_Price))
      (c.m_AskOrders.takeWhile (fun x => ExecutableQtyPredHelper .less x.m_Price o.m_Price))
      (c.m_AskOrders.dropWhile (fun x => ExecutableQtyPredHelper .less x.m_Price o.m_Price))
      fuel clock (c.auctionQty o.m_Price)
      (fun x hx => hpB x ((List.takeWhile_sublist _).subset hx))
      (fun x hx => hpA x ((List.takeWhile_sublist _).subset hx))
      hq (by omega)
    rw [← afterFill_append _ _ _ (by omega), ← afterFill_append _ _ _ (by omega), hB, hA]
      at hloop hrun
    refine ⟨by rw [hres]; show c.auctionQty o.m_Price ≤ _; omega,
      by rw [hres]; show c.auctionQty o.m_Price ≤ _; omega, ds, ?_, ?_, ?_⟩
    · simp only [OrderContainer.MatchOrders, hres, hloop, Option.map_some']
    · rw [hres]; exact hdq
    · rw [hres]; exact hrun

/-- C15: on every well-formed container `MatchOrders` returns (with fuel for one turn
per resting order); its deals form a run in which each deal pairs the front bid with the
front ask of the moment, buyer the bid and seller the ask, all at the price computed by
`GetTheoriticalAuctionInformations`, for quantities that add up to the quantity
computed; each side is left as it was with exactly that quantity filled from its front,
so its total has decreased by it and no order of quantity zero rests.  With one bid and
one ask of the same price and quantity there is exactly one deal, at that price for that
quantity, and both sides are left empty. -/
theorem C15_match_orders (ord : IterationOrder) :
    (∀ (fuel : Nat) (clock : Nat → Nat) (c : OrderContainer), WellFormed c →
      c.m_BidOrders.length + c.m_AskOrders.length ≤ fuel →
      ∃ (c1 : OrderContainer) (deals : List Deal),
        c.MatchOrders ord fuel clock = some (c1, deals) ∧
        AuctionRun (c.GetTheoriticalAuctionInformations ord).1 deals c.m_BidOrders c.m_AskOrders
          c1.m_BidOrders c1.m_AskOrders ∧
        (∀ d ∈ deals, d.m_Price = (c.GetTheoriticalAuctionInformations ord).1) ∧
        dealQty deals = (c.GetTheoriticalAuctionInformations ord).2 ∧
        totalQty c1.m_BidOrders + (c.GetTheoriticalAuctionInformations ord).2
          = totalQty c.m_BidOrders ∧
        totalQty c1.m_AskOrders + (c.GetTheoriticalAuctionInformations ord).2
          = totalQty c.m_AskOrders ∧
        c1.m_BidOrders = afterFill c.m_BidOrders (c.GetTheoriticalAuctionInformations ord).2 ∧
        c1.m_AskOrders = afterFill c.m_AskOrders (c.GetTheoriticalAuctionInformations ord).2 ∧
        (∀ o ∈ c1.m_BidOrders, 0 < o.m_Qty) ∧ (∀ o ∈ c1.m_AskOrders, 0 < o.m_Qty) ∧
        c1.m_InsertedOrderIDs = c.m_InsertedOrderIDs) ∧
    (∀ (fuel : Nat) (clock : Nat → Nat) (b a : Order) (ids : List OrderKey),
      0 < a.m_Qty → b.m_Qty = a.m_Qty → b.m_Price = a.m_Price →
      OrderContainer.MatchOrders ord (fuel + 2) clock ⟨[b], [a], ids⟩
        = some (⟨[], [], ids⟩,
            [Deal.new (clock 0) a.m_Price a.m_Qty b.m_ClientID b.m_OrderID
              a.m_ClientID a.m_OrderID])) := by
  constructor
  · intro fuel clock c hw hfuel
    obtain ⟨hB, hA, ds, hrun, hq, hr⟩ := MatchOrders_eq fuel clock c hw hfuel
    exact ⟨_, ds, hrun, hr, AuctionRun_price _ hr, hq, afterFill_total _ _ hB,
      afterFill_total _ _ hA, rfl, rfl, afterFill_pos _ _ hw.2.2.1, afterFill_pos _ _ hw.2.2.2,
      rfl⟩
  · intro fuel clock b a ids ha hq hp
    have hne : ¬ a.m_Qty = 0 := Nat.ne_of_gt ha
    have hinfo : OrderContainer.GetTheoriticalAuctionInformations ord ⟨[b], [a], ids⟩
        = (a.m_Price, a.m_Qty) :=
      GetTheoriticalAuctionInformations_single ord b a ids a.m_Price a.m_Qty ha hp hq rfl rfl
    have hin : OrderContainer.MatchOrdersInner a.m_Price (fuel + 1) clock b [a] a.m_Qty
        = some (b.SetQuantity 0, [], 0,
            [Deal.new (clock 0) a.m_Price a.m_Qty b.m_ClientID b.m_OrderID
              a.m_ClientID a.m_OrderID]) := by
      rw [MatchOrdersInner_step a.m_Price fuel clock b a [] a.m_Qty ⟨by omega, ha⟩
        (by rw [hq]; simp)]
      rw [hq, Nat.min_self, Nat.sub_self]
      rw [MatchOrdersInner_stop a.m_Price fuel _ _ _ _ (by simp [Order.SetQuantity_qty])]
      simp
    simp only [OrderContainer.MatchOrders, hinfo]
    rw [MatchOrdersLoop_step a.m_Price (fuel + 1) clock b [] [a] a.m_Qty ha _ hin]
    simp only [Order.SetQuantity_qty, if_true, MatchOrdersLoop_stop, Option.map_some',
      List.append_nil]

/-- C15 (witness): the uncrossing of bids 100@150, 50@149 against asks 60@148, 70@150,
30@151 (price 150, quantity 100), and of the bid 100@150 against the ask 100@150. -/
theorem C15_match_orders_witness :
    WellFormed bookCrossed ∧
    (∃ (c1 : OrderContainer) (deals : List Deal),
      bookCrossed.MatchOrders priceIteration 5 clock0 = some (c1, deals) ∧
      (∀ d ∈ deals, d.m_Price = 150) ∧ dealQty deals = 100 ∧
      c1.m_BidOrders = [⟨.BUY, 50, 149, 2, 1⟩] ∧
      c1.m_AskOrders = [⟨.SELL, 30, 150, 4, 2⟩, ⟨.SELL, 30, 151, 5, 2⟩]) ∧
    OrderContainer.MatchOrders priceIteration 2 clock0
        ⟨[⟨.BUY, 100, 150, 1, 5⟩], [⟨.SELL, 100, 150, 1, 6⟩], [(6, 1), (5, 1)]⟩
      = some (⟨[], [], [(6, 1), (5, 1)]⟩, [Deal.new 0 150 100 5 1 6 1]) := by
  refine ⟨by decide, ?_, ?_⟩
  · obtain ⟨c1, deals, h1, _, h3, h4, _, _, h7, h8, _⟩ :=
      (C15_match_orders priceIteration).1 5 clock0 bookCrossed (by decide) (by decide)
    have hI : bookCrossed.GetTheoriticalAuctionInformations priceIteration = (150, 100) := by decide
    rw [hI] at h3 h4 h7 h8
    exact ⟨c1, deals, h1, h3, h4, by rw [h7]; decide, by rw [h8]; decide⟩
  · exact (C15_match_orders priceIteration).2 0 clock0 ⟨.BUY, 100, 150, 1, 5⟩ ⟨.SELL, 100, 150, 1, 6⟩
      [(6, 1), (5, 1)] (by decide) rfl rfl

/-- C11 (witness): the bid 10@99 of client 2 replaced by a BUY of 45 at 102 against asks
10@100, 20@100, 30@101, 5@103. -/
theorem C11_modify_fully_filled_witness :
    ∃ res : Outcome OrderReplace,
      bookBidFourAsks.Modify 4 clock0 ⟨.BUY, 45, 102, 8, 9, 2⟩ true = some res ∧
      res.ret = true ∧ dealQty res.deals = 45 ∧ res.msg.m_Qty = 0 ∧
      res.book.m_BidOrders = [] :=
  C11_modify_fully_filled 4 clock0 bookBidFourAsks ⟨.BUY, 45, 102, 8, 9, 2⟩
    ⟨.BUY, 10, 99, 8, 2⟩ (by decide) (Or.inl rfl) rfl (by decide) (by decide) (by decide)

/-- C17 (witness): the book reached by inserting the ask 10@160 of client 2 and the bid
100@150 of client 1. -/
theorem C17_resting_order_invariant_witness :
    (∀ o ∈ bookBidAsk.m_BidOrders, 0 < o.m_Qty ∧ 0 < o.m_Price ∧ o.m_Way = .BUY) ∧
    (∀ o ∈ bookBidAsk.m_AskOrders, 0 < o.m_Qty ∧ 0 < o.m_Price ∧ o.m_Way = .SELL) ∧
    bookBidAsk.m_BidOrders.Pairwise (fun a b => a.key ≠ b.key) ∧
    bookBidAsk.m_AskOrders.Pairwise (fun a b => a.key ≠ b.key) :=
  C17_resting_order_invariant priceIteration bookBidAsk
    (ReachesValidated.step 1 clock0 (.Insert ⟨.BUY, 100, 150, 5, 1⟩ true)
      (ReachesValidated.step 0 clock0 (.Insert ⟨.SELL, 10, 160, 7, 2⟩ true)
        (ReachesValidated.refl _) ⟨by decide, by decide, Or.inr rfl⟩ rfl)
      ⟨by decide, by decide, Or.inl rfl⟩ rfl)

/-- C21 (the code at the failing input): the book is reached from the empty container by
validated calls (insert the bid 100 at 150 as order 5 of client 1, replace it by order
6, insert the ask 10 at 160 of client 2); the validated order BUY 50 at 160 with key
`(1, 6)` is not in the inserted set; `Insert` with matching takes the ask (one deal of
10 at 160), then the insertion of the remaining 40 on the bid side is refused, because
the key rests there, and `Insert` returns `false`: after a deal, with the ask side
changed. -/
theorem C21_insert_rejected_after_deal :
    (∀ ord : IterationOrder,
      ReachesValidated ord OrderContainer.empty bookReplacedFacingAsk) ∧
    (Op.Insert ⟨.BUY, 50, 160, 6, 1⟩ true).Validated ∧
    (⟨.BUY, 50, 160, 6, 1⟩ : Order).key ∉ bookReplacedFacingAsk.m_InsertedOrderIDs ∧
    bookReplacedFacingAsk.Insert 1 clock0 ⟨.BUY, 50, 160, 6, 1⟩ true
      = some ⟨false, ⟨[⟨.BUY, 100, 150, 6, 1⟩], [], [(2, 7), (1, 5)]⟩,
          ⟨.BUY, 40, 160, 6, 1⟩, [Deal.new 0 160 10 1 6 2 7]⟩ := by
  refine ⟨?_, ⟨by decide, by decide, Or.inl rfl⟩, by decide, rfl⟩
  intro ord
  exact ReachesValidated.step 0 clock0 (.Insert ⟨.SELL, 10, 160, 7, 2⟩ true)
    (ReachesValidated.step 0 clock0 (.Modify ⟨.BUY, 100, 150, 5, 6, 1⟩ true)
      (ReachesValidated.step 0 clock0 (.Insert ⟨.BUY, 100, 150, 5, 1⟩ true)
        (ReachesValidated.refl _) ⟨by decide, by decide, Or.inl rfl⟩ rfl)
      ⟨by decide, by decide, Or.inl rfl⟩ rfl)
    ⟨by decide, by decide, Or.inr rfl⟩ rfl

theorem totalQty_filter_mono (p q : Order → Bool) (l : List Order)
    (h : ∀ o ∈ l, p o = true → q o = true) :
    totalQty (l.filter p) ≤ totalQty (l.filter q) := by
  induction l with
  | nil => simp
  | cons x xs ih =>
    have ih1 := ih (fun o ho => h o (List.mem_cons_of_mem _ ho))
    by_cases hp : p x = true
    · have hq : q x = true := h x (List.mem_cons_self _ _) hp
      have e1 : totalQty ((x :: xs).filter p) = x.m_Qty + totalQty (xs.filter p) := by
        simp [totalQty, List.filter_cons, hp]
      have e2 : totalQty ((x :: xs).filter q) = x.m_Qty + totalQty (xs.filter q) := by
        simp [totalQty, List.filter_cons, hq]
      omega
    · have e1 : totalQty ((x :: xs).filter p) = totalQty (xs.filter p) := by
        simp [List.filter_cons, hp]
      by_cases hq : q x = true
      · have e2 : totalQty ((x :: xs).filter q) = x.m_Qty + totalQty (xs.filter q) := by
          simp [totalQty, List.filter_cons, hq]
        omega
      · have e2 : totalQty ((x :: xs).filter q) = totalQty (xs.filter q) := by
          simp [List.filter_cons, hq]
        omega

theorem totalQty_filter_congr (p q : Order → Bool) (l : List Order)
    (h : ∀ o ∈ l, p o = q o) : totalQty (l.filter p) = totalQty (l.filter q) := by
  apply Nat.le_antisymm
  · exact totalQty_filter_mono p q l (fun o ho hp => by rw [← h o ho]; exact hp)
  · exact totalQty_filter_mono q p l (fun o ho hq => by rw [h o ho]; exact hq)

/-- Among the orders of a list priced at or below `p`, when there is one, one has the
highest price. -/
theorem exists_highest_below (l : List Order) (p : Nat) (h : ∃ a ∈ l, a.m_Price ≤ p) :
    ∃ a ∈ l, a.m_Price ≤ p ∧ ∀ x ∈ l, x.m_Price ≤ p → x.m_Price ≤ a.m_Price := by
  induction l with
  | nil => obtain ⟨a, ha, _⟩ := h; simp at ha
  | cons y ys ih =>
    by_cases hys : ∃ a ∈ ys, a.m_Price ≤ p
    · obtain ⟨a, ha, hap, hmax⟩ := ih hys
      by_cases hy : y.m_Price ≤ p ∧ a.m_Price < y.m_Price
      · refine ⟨y, List.mem_cons_self _ _, hy.1, ?_⟩
        intro x hx hxp
        rcases List.mem_cons.mp hx with rfl | hx
        · exact Nat.le_refl _
        · have := hmax x hx hxp
          omega
      · refine ⟨a, List.mem_cons_of_mem _ ha, hap, ?_⟩
        intro x hx hxp
        rcases List.mem_cons.mp hx with rfl | hx
        · omega
        · exact hmax x hx hxp
    · obtain ⟨a, ha, hap⟩ := h
      rcases List.mem_cons.mp ha with rfl | ha
      · refine ⟨a, List.mem_cons_self _ _, hap, ?_⟩
        intro x hx hxp
        rcases List.mem_cons.mp hx with rfl | hx
        · exact Nat.le_refl _
        · exact absurd ⟨x, hx, hxp⟩ hys
      · exact absurd ⟨a, ha, hap⟩ hys

/-- The quantity returned by `GetTheoriticalAuctionInformations` bounds what can trade at
the price of any resting ask. -/
theorem auctionQty_le_of_ask {ord : IterationOrder}
    (c : OrderContainer) (a : Order) (ha : a ∈ c.m_AskOrders) :
    c.auctionQty a.m_Price ≤ (c.GetTheoriticalAuctionInformations ord).2 := by
  exact (@GetTheoriticalAuctionInformations_max ord c).1 a ha

/-- The quantity returned by `GetTheoriticalAuctionInformations` bounds what can trade at
any price whatever, resting ask price or not. -/
theorem auctionQty_le_max {ord : IterationOrder} (c : OrderContainer) (p : Nat) :
    c.auctionQty p ≤ (c.GetTheoriticalAuctionInformations ord).2 := by
  by_cases h : ∃ a ∈ c.m_AskOrders, a.m_Price ≤ p
  · obtain ⟨a, ha, hap, hmax⟩ := exists_highest_below c.m_AskOrders p h
    refine Nat.le_trans ?_ (auctionQty_le_of_ask c a ha)
    unfold OrderContainer.auctionQty
    rw [GetExecutableQuantity_eq, GetExecutableQuantity_eq, GetExecutableQuantity_eq,
      GetExecutableQuantity_eq]
    have hA : totalQty (c.m_AskOrders.filter (fun o => ExecutableQtyPredHelper .less o.m_Price p))
        = totalQty (c.m_AskOrders.filter
            (fun o => ExecutableQtyPredHelper .less o.m_Price a.m_Price)) := by
      apply totalQty_filter_congr
      intro o ho
      simp only [ExecutableQtyPredHelper]
      by_cases hop : o.m_Price ≤ p
      · have := hmax o ho hop
        simp [hop, this]
      · have : ¬ o.m_Price ≤ a.m_Price := by omega
        simp [hop, this]
    have hB : totalQty (c.m_BidOrders.filter
          (fun o => ExecutableQtyPredHelper .greater o.m_Price p))
        ≤ totalQty (c.m_BidOrders.filter
            (fun o => ExecutableQtyPredHelper .greater o.m_Price a.m_Price)) := by
      apply totalQty_filter_mono
      intro o _ hop
      simp only [ExecutableQtyPredHelper, decide_eq_true_eq] at hop ⊢
      omega
    rw [hA]
    omega
  · have hA : GetExecutableQuantity .less c.m_AskOrders p = 0 := by
      rw [GetExecutableQuantity_eq]
      have : c.m_AskOrders.filter (fun o => ExecutableQtyPredHelper .less o.m_Price p) = [] := by
        rw [List.filter_eq_nil_iff]
        intro o ho hop
        simp only [ExecutableQtyPredHelper, decide_eq_true_eq] at hop
        exact h ⟨o, ho, hop⟩
      rw [this]; rfl
    unfold OrderContainer.auctionQty
    rw [hA]
    simp

/-- C27 (amended): scanning the prices of the resting asks only loses no quantity: for
every container and every price `p`, resting ask price or not, the quantity
`min(ExecutableBidQuantity(p), ExecutableAskQuantity(p))` is at most the `MaxQty`
returned by `GetTheoriticalAuctionInformations`. -/
theorem C27_ask_scan_quantity_optimal (ord : IterationOrder) (c : OrderContainer) (p : Nat) :
    min (GetExecutableQuantity .greater c.m_BidOrders p)
        (GetExecutableQuantity .less c.m_AskOrders p)
      ≤ (c.GetTheoriticalAuctionInformations ord).2 :=
  auctionQty_le_max c p

/-- C27 (counterexample): there is no container and no price at which
`min(ExecutableBidQuantity(p), ExecutableAskQuantity(p))` is strictly greater than the
`MaxQty` returned by `GetTheoriticalAuctionInformations`. -/
theorem C27_counterexample :
    ¬ ∃ (ord : IterationOrder) (c : OrderContainer) (p : Nat),
      (c.GetTheoriticalAuctionInformations ord).2
        < min (GetExecutableQuantity .greater c.m_BidOrders p)
            (GetExecutableQuantity .less c.m_AskOrders p) := by
  rintro ⟨ord, c, p, h⟩
  exact absurd (auctionQty_le_max c p) (Nat.not_le.mpr h)

theorem consume_length_le {M : Type} [Msg M] (iMsg : M) (l : List Order) :
    ∀ (clock : Nat → Nat) (a : Nat), (consume iMsg clock l a).1.length ≤ l.length := by
  induction l with
  | nil => intro clock a; simp [consume]
  | cons o os ih =>
    intro clock a
    by_cases h0 : a = 0
    · simp [consume, h0]
    · by_cases hle : o.m_Qty ≤ a
      · simp only [consume, h0, hle, if_true, if_false, List.length_cons]
        exact Nat.succ_le_succ (ih _ _)
      · simp [consume, h0, hle]

/-- Each deal of `consume` is priced at the minimum of the price of the order of its
rank and of the limit of the message. -/
theorem consume_prices {M : Type} [Msg M] (iMsg : M) (l : List Order) :
    ∀ (clock : Nat → Nat) (a : Nat),
      List.Forall₂ (fun (d : Deal) (r : Order) => d.m_Price = min r.m_Price (Msg.GetPrice iMsg))
        (consume iMsg clock l a).1 (l.take (consume iMsg clock l a).1.length) := by
  induction l with
  | nil => intro clock a; simp [consume]
  | cons o os ih =>
    intro clock a
    by_cases h0 : a = 0
    · simp [consume, h0]
    · by_cases hle : o.m_Qty ≤ a
      · simp only [consume, h0, hle, if_true, if_false, List.length_cons, List.take_succ_cons]
        exact List.Forall₂.cons (GenerateDeal_price _ _ _ _ _) (ih _ _)
      · simp only [consume, h0, hle, if_false, List.length_cons, List.length_nil,
          List.take_succ_cons, List.take_zero]
        exact List.Forall₂.cons (GenerateDeal_price _ _ _ _ _) List.Forall₂.nil

theorem forall₂_and_right {α β : Type} (R : α → β → Prop) (P : β → Prop) (l1 : List α)
    (l2 : List β) (h : List.Forall₂ R l1 l2) (hP : ∀ r ∈ l2, P r) :
    List.Forall₂ (fun d r => R d r ∧ P r) l1 l2 := by
  induction h with
  | nil => exact List.Forall₂.nil
  | cons hr _ ih =>
    exact List.Forall₂.cons ⟨hr, hP _ (List.mem_cons_self _ _)⟩
      (ih (fun r hr => hP r (List.mem_cons_of_mem _ hr)))

/-- The deals of a matching pass over the executable front of the opposite side: each is
priced at the minimum of the price of the order of its rank on the opposite side and of
the limit, and that order is executable at the limit. -/
theorem pass_prices {M : Type} [Msg M] (iMsg : M) (clock : Nat → Nat) (c : OrderContainer)
    (iWay : OrderWay) (P a : Nat) (hP : Msg.GetPrice iMsg = P) :
    List.Forall₂
      (fun (d : Deal) (r : Order) => d.m_Price = min r.m_Price P ∧ executable iWay P r = true)
      (consume iMsg clock (execFront c iWay P) a).1
      ((c.opposite iWay).take (consume iMsg clock (execFront c iWay P) a).1.length) := by
  have hlen := consume_length_le iMsg (execFront c iWay P) clock a
  have hpr := consume_prices iMsg (execFront c iWay P) clock a
  rw [hP] at hpr
  have htake : (c.opposite iWay).take (consume iMsg clock (execFront c iWay P) a).1.length
      = (execFront c iWay P).take (consume iMsg clock (execFront c iWay P) a).1.length := by
    conv_lhs => rw [← execFront_append_execBack c iWay P]
    exact List.take_append_of_le_length hlen
  rw [htake]
  refine forall₂_and_right _ _ _ _ hpr ?_
  intro r hr
  have hmem : r ∈ execFront c iWay P := List.mem_of_mem_take hr
  exact List.mem_takeWhile_imp hmem

/-- On a well-formed container `Insert` with matching returns, with no deal or with the
deals of the pass over the executable front. -/
theorem Insert_deals_eq (fuel : Nat) (clock : Nat → Nat) (c : OrderContainer) (iOrder : Order)
    (hw : WellFormed c) (hway : iOrder.m_Way = .BUY ∨ iOrder.m_Way = .SELL)
    (hfuel : (c.opposite iOrder.m_Way).length ≤ fuel) :
    ∃ res : Outcome Order, c.Insert fuel clock iOrder true = some res ∧
      (res.deals = [] ∨
        res.deals
          = (consume iOrder clock (execFront c iOrder.m_Way iOrder.m_Price) iOrder.m_Qty).1) := by
  by_cases hfresh : iOrder.key ∈ c.m_InsertedOrderIDs
  · exact ⟨⟨false, c, iOrder, []⟩, by simp [OrderContainer.Insert, hfresh], Or.inl rfl⟩
  · rw [Insert_match_eq fuel clock c iOrder hw hfresh hway hfuel]
    simp only
    split
    · split
      · exact ⟨_, rfl, Or.inr rfl⟩
      · exact ⟨_, rfl, Or.inr rfl⟩
    · exact ⟨_, rfl, Or.inr rfl⟩

/-- On a well-formed container `Modify` with matching returns, with no deal or with the
deals of the pass over the executable front. -/
theorem Modify_deals_eq (fuel : Nat) (clock : Nat → Nat) (c : OrderContainer)
    (r : OrderReplace) (hw : WellFormed c) (hway : r.m_Way = .BUY ∨ r.m_Way = .SELL)
    (hfuel : (c.opposite r.m_Way).length ≤ fuel) :
    ∃ res : Outcome OrderReplace, c.Modify fuel clock r true = some res ∧
      (res.deals = [] ∨
        res.deals = (consume r clock (execFront c r.m_Way r.m_Price) r.m_Qty).1) := by
  rw [Modify_match_eq fuel clock c r hw hway hfuel]
  simp only
  split
  · exact ⟨_, rfl, Or.inl rfl⟩
  · split
    · exact ⟨_, rfl, Or.inl rfl⟩
    · exact ⟨_, rfl, Or.inr rfl⟩

theorem forall₂_nil_take {α β : Type} (R : α → β → Prop) (l : List β) :
    List.Forall₂ R ([] : List α) (l.take ([] : List α).length) := by
  simp

theorem forall₂_left {α β : Type} (R : α → β → Prop) (Q : α → Prop) (l1 : List α)
    (l2 : List β) (h : List.Forall₂ R l1 l2) (hQ : ∀ d r, R d r → Q d) : ∀ d ∈ l1, Q d := by
  induction h with
  | nil => intro d hd; simp at hd
  | cons hr _ ih =>
    intro d hd
    rcases List.mem_cons.mp hd with rfl | hd
    · exact hQ _ _ hr
    · exact ih d hd

/-- The deals of a pass of a BUY aggressor print at the posted price of the ask of their
rank, which is at or below the limit. -/
theorem pass_prices_buy {M : Type} [Msg M] (iMsg : M) (clock : Nat → Nat) (c : OrderContainer)
    (a : Nat) (deals : List Deal)
    (h : deals = [] ∨
      deals = (consume iMsg clock (execFront c .BUY (Msg.GetPrice iMsg)) a).1) :
    List.Forall₂
      (fun (d : Deal) (r : Order) => d.m_Price = r.m_Price ∧ r.m_Price ≤ Msg.GetPrice iMsg)
      deals (c.m_AskOrders.take deals.length) := by
  rcases h with h | h
  · subst h; simp
  · subst h
    refine List.Forall₂.imp ?_ (pass_prices iMsg clock c .BUY (Msg.GetPrice iMsg) a rfl)
    intro d r ⟨hd, hx⟩
    simp only [executable, decide_eq_true_eq] at hx
    exact ⟨by rw [hd]; exact Nat.min_eq_left hx, hx⟩

/-- The deals of a pass of a SELL aggressor print at the limit of the aggressor, which is
at or below the posted price of the bid of their rank. -/
theorem pass_prices_sell {M : Type} [Msg M] (iMsg : M) (clock : Nat → Nat)
    (c : OrderContainer) (a : Nat) (deals : List Deal)
    (h : deals = [] ∨
      deals = (consume iMsg clock (execFront c .SELL (Msg.GetPrice iMsg)) a).1) :
    List.Forall₂
      (fun (d : Deal) (r : Order) =>
        d.m_Price = Msg.GetPrice iMsg ∧ Msg.GetPrice iMsg ≤ r.m_Price)
      deals (c.m_BidOrders.take deals.length) := by
  rcases h with h | h
  · subst h; simp
  · subst h
    refine List.Forall₂.imp ?_ (pass_prices iMsg clock c .SELL (Msg.GetPrice iMsg) a rfl)
    intro d r ⟨hd, hx⟩
    simp only [executable, decide_eq_true_eq] at hx
    exact ⟨by rw [hd]; exact Nat.min_eq_right hx, hx⟩

theorem lowerPriceRule_min (limit : Nat) (d : Deal) (r : Order) (h : LowerPriceRule limit d r) :
    d.m_Price = min r.m_Price limit := by
  obtain ⟨h1, h2⟩ := h
  by_cases hlt : r.m_Price < limit
  · rw [h1 hlt]; omega
  · rw [h2 hlt]; omega

/-- C24: every deal produced by `ProcessDeals`, for an order and for a replace message,
is priced `min(resting price, aggressor price)`, the resting order being the order of
the same rank at the front of the side hit.  On a well-formed container `Insert` and
`Modify` with matching return, and each deal of a BUY aggressor prints at the posted
price of the ask hit, which is at or below the limit of the aggressor, while each deal
of a SELL aggressor prints at the limit of the aggressor, which is at or below the
posted price of the bid hit: all deals of one SELL aggressor carry the same price. -/
theorem C24_deal_price_min :
    (∀ (fuel : Nat) (clock : Nat → Nat) (Orders : List Order) (m : Nat),
      (∀ (iMsg : Order) (res : List Order × Order × List Deal),
        ProcessDeals fuel clock Orders iMsg m = some res →
        List.Forall₂ (fun (d : Deal) (r : Order) => d.m_Price = min r.m_Price iMsg.m_Price)
          res.2.2 (Orders.take res.2.2.length)) ∧
      (∀ (iMsg : OrderReplace) (res : List Order × OrderReplace × List Deal),
        ProcessDeals fuel clock Orders iMsg m = some res →
        List.Forall₂ (fun (d : Deal) (r : Order) => d.m_Price = min r.m_Price iMsg.m_Price)
          res.2.2 (Orders.take res.2.2.length))) ∧
    (∀ (fuel : Nat) (clock : Nat → Nat) (c : OrderContainer), WellFormed c →
      (∀ o : Order, (c.opposite o.m_Way).length ≤ fuel →
        (o.m_Way = .BUY →
          ∃ res : Outcome Order, c.Insert fuel clock o true = some res ∧
            List.Forall₂
              (fun (d : Deal) (r : Order) => d.m_Price = r.m_Price ∧ r.m_Price ≤ o.m_Price)
              res.deals (c.m_AskOrders.take res.deals.length)) ∧
        (o.m_Way = .SELL →
          ∃ res : Outcome Order, c.Insert fuel clock o true = some res ∧
            (∀ d ∈ res.deals, d.m_Price = o.m_Price) ∧
            List.Forall₂
              (fun (d : Deal) (r : Order) => d.m_Price = o.m_Price ∧ o.m_Price ≤ r.m_Price)
              res.deals (c.m_BidOrders.take res.deals.length))) ∧
      (∀ r : OrderReplace, (c.opposite r.m_Way).length ≤ fuel →
        (r.m_Way = .BUY →
          ∃ res : Outcome OrderReplace, c.Modify fuel clock r true = some res ∧
            List.Forall₂
              (fun (d : Deal) (x : Order) => d.m_Price = x.m_Price ∧ x.m_Price ≤ r.m_Price)
              res.deals (c.m_AskOrders.take res.deals.length)) ∧
        (r.m_Way = .SELL →
          ∃ res : Outcome OrderReplace, c.Modify fuel clock r true = some res ∧
            (∀ d ∈ res.deals, d.m_Price = r.m_Price) ∧
            List.Forall₂
              (fun (d : Deal) (x : Order) => d.m_Price = r.m_Price ∧ r.m_Price ≤ x.m_Price)
              res.deals (c.m_BidOrders.take res.deals.length)))) := by
  refine ⟨fun fuel clock Orders m => ⟨?_, ?_⟩, fun fuel clock c hw => ⟨?_, ?_⟩⟩
  · intro iMsg res h
    exact List.Forall₂.imp (fun d r hr => lowerPriceRule_min _ d r hr)
      (HitTrace_prices iMsg res.2.2 _ _ (ProcessDeals_trace fuel clock Orders iMsg m res h))
  · intro iMsg res h
    exact List.Forall₂.imp (fun d r hr => lowerPriceRule_min _ d r hr)
      (HitTrace_prices iMsg res.2.2 _ _ (ProcessDeals_trace fuel clock Orders iMsg m res h))
  · intro o hfuel
    constructor
    · intro hb
      obtain ⟨res, hres, hd⟩ := Insert_deals_eq fuel clock c o hw (Or.inl hb) hfuel
      rw [hb] at hd
      exact ⟨res, hres, pass_prices_buy o clock c o.m_Qty res.deals hd⟩
    · intro hs
      obtain ⟨res, hres, hd⟩ := Insert_deals_eq fuel clock c o hw (Or.inr hs) hfuel
      rw [hs] at hd
      have hf := pass_prices_sell o clock c o.m_Qty res.deals hd
      exact ⟨res, hres, forall₂_left _ _ _ _ hf (fun d r h => h.1), hf⟩
  · intro r hfuel
    constructor
    · intro hb
      obtain ⟨res, hres, hd⟩ := Modify_deals_eq fuel clock c r hw (Or.inl hb) hfuel
      rw [hb] at hd
      exact ⟨res, hres, pass_prices_buy r clock c r.m_Qty res.deals hd⟩
    · intro hs
      obtain ⟨res, hres, hd⟩ := Modify_deals_eq fuel clock c r hw (Or.inr hs) hfuel
      rw [hs] at hd
      have hf := pass_prices_sell r clock c r.m_Qty res.deals hd
      exact ⟨res, hres, forall₂_left _ _ _ _ hf (fun d x h => h.1), hf⟩

/-- C24 (witness): a BUY of 45 at 102 against asks 10@100, 20@100, 30@101, 5@103 prints
at 100, 100, 101; a SELL of 100 at 140 against the bid 100@150 prints at 140. -/
theorem C24_deal_price_min_witness :
    WellFormed bookFourAsks ∧ WellFormed bookOneBid ∧
    (∃ res : Outcome Order,
      bookFourAsks.Insert 4 clock0 ⟨.BUY, 45, 102, 9, 2⟩ true = some res ∧
      List.Forall₂ (fun (d : Deal) (r : Order) => d.m_Price = r.m_Price ∧ r.m_Price ≤ 102)
        res.deals (bookFourAsks.m_AskOrders.take res.deals.length)) ∧
    (∃ res : Outcome Order,
      bookOneBid.Insert 1 clock0 ⟨.SELL, 100, 140, 6, 1⟩ true = some res ∧
      (∀ d ∈ res.deals, d.m_Price = 140) ∧
      List.Forall₂ (fun (d : Deal) (r : Order) => d.m_Price = 140 ∧ 140 ≤ r.m_Price)
        res.deals (bookOneBid.m_BidOrders.take res.deals.length)) :=
  ⟨by decide, by decide,
    ((C24_deal_price_min.2 4 clock0 bookFourAsks (by decide)).1 ⟨.BUY, 45, 102, 9, 2⟩
      (by decide)).1 rfl,
    ((C24_deal_price_min.2 1 clock0 bookOneBid (by decide)).1 ⟨.SELL, 100, 140, 6, 1⟩
      (by decide)).2 rfl⟩

theorem SafeLoop_pos (iWay : OrderWay) (iPrice : Nat) {l : List Order} {q m : Nat}
    (h : SafeLoop iWay iPrice l q m) (hm : 0 < m) : 0 < q := by
  cases h with
  | done => omega
  | iter o rest q m _ _ he _ _ => omega

/-- The loop over a front `pre` of positive, executable orders, with the match quantity
`min (total of pre) q`, is safe. -/
theorem SafeLoop_front (iWay : OrderWay) (iPrice : Nat) (pre post : List Order) :
    (∀ o ∈ pre, 0 < o.m_Qty ∧ executable iWay iPrice o = true) →
    ∀ q : Nat, SafeLoop iWay iPrice (pre ++ post) q (min (totalQty pre) q) := by
  induction pre with
  | nil =>
    intro _ q
    have : min (totalQty ([] : List Order)) q = 0 := by simp [totalQty]
    rw [this]
    exact SafeLoop.done _ _
  | cons o os ih =>
    intro hpre q
    have htot : totalQty (o :: os) = o.m_Qty + totalQty os := by simp [totalQty]
    obtain ⟨hopos, hox⟩ := hpre o (List.mem_cons_self _ _)
    have hos : ∀ x ∈ os, 0 < x.m_Qty ∧ executable iWay iPrice x = true :=
      fun x hx => hpre x (List.mem_cons_of_mem _ hx)
    by_cases hq : q = 0
    · subst hq
      rw [Nat.min_zero]
      exact SafeLoop.done _ _
    · rw [htot, List.cons_append]
      refine SafeLoop.iter o (os ++ post) q _ (by omega) hox (by omega) (by omega) ?_
      by_cases hle : o.m_Qty ≤ q
      · have he : min o.m_Qty q = o.m_Qty := Nat.min_eq_left hle
        have hm : min (o.m_Qty + totalQty os) q - o.m_Qty = min (totalQty os) (q - o.m_Qty) := by
          omega
        rw [he, Nat.sub_self, hm]
        simp only [if_true]
        exact ih hos (q - o.m_Qty)
      · have he : min o.m_Qty q = q := Nat.min_eq_right (by omega)
        have hm : min (o.m_Qty + totalQty os) q - q = 0 := by omega
        rw [he, hm]
        exact SafeLoop.done _ _

/-- A safe run is a run of the code: from a state with a safe run, `ProcessDeals`
returns, with fuel for one iteration per order of the side; the deals add up to the
match quantity, which is taken from the aggressor. -/
theorem SafeLoop_returns {M : Type} [Msg M] (iWay : OrderWay) (iPrice : Nat)
    {l : List Order} {q m : Nat} (h : SafeLoop iWay iPrice l q m) :
    ∀ (fuel : Nat) (clock : Nat → Nat) (iMsg : M), Msg.GetQuantity iMsg = q →
      l.length ≤ fuel →
      ∃ (l1 : List Order) (ds : List Deal),
        ProcessDeals fuel clock l iMsg m = some (l1, Msg.RemoveQuantity iMsg m, ds) ∧
        dealQty ds = m := by
  induction h with
  | done Orders q =>
    intro fuel clock iMsg _ _
    exact ⟨Orders, [], by rw [ProcessDeals_zero, Msg.remove_zero], rfl⟩
  | iter o rest q m hm hx he hle htail ih =>
    intro fuel clock iMsg hq hfuel
    cases fuel with
    | zero => simp at hfuel
    | succ f =>
      have hlt : ¬ m < min o.m_Qty q := Nat.not_lt.mpr hle
      by_cases hm1 : m - min o.m_Qty q = 0
      · refine ⟨(if o.m_Qty - min o.m_Qty q = 0 then rest
            else o.SetQuantity (o.m_Qty - min o.m_Qty q) :: rest),
          [GenerateDeal (clock 0) (o.SetQuantity (o.m_Qty - min o.m_Qty q))
          (Msg.RemoveQuantity iMsg (min o.m_Qty q)) (min o.m_Price (Msg.GetPrice iMsg))
          (min o.m_Qty q)], ?_, ?_⟩
        · simp only [ProcessDeals, hm, if_true, hq, hlt, if_false, hm1, ProcessDeals_zero,
            Option.map_some', Order.SetQuantity_qty]
          have hme : min o.m_Qty q = m := by omega
          rw [hme]
        · simp only [dealQty, List.map_cons, List.map_nil, List.sum_cons, List.sum_nil,
            GenerateDeal_qty]
          omega
      · have hqpos : 0 < q - min o.m_Qty q := SafeLoop_pos iWay iPrice htail (by omega)
        have hz : o.m_Qty - min o.m_Qty q = 0 := by omega
        rw [hz] at ih
        simp only [if_true] at ih
        obtain ⟨l1, ds, hrun, hds⟩ := ih f (fun i => clock (i + 1))
          (Msg.RemoveQuantity iMsg (min o.m_Qty q)) (by rw [Msg.qty_remove, hq])
          (by simpa using hfuel)
        refine ⟨l1, GenerateDeal (clock 0) (o.SetQuantity (o.m_Qty - min o.m_Qty q))
          (Msg.RemoveQuantity iMsg (min o.m_Qty q)) (min o.m_Price (Msg.GetPrice iMsg))
          (min o.m_Qty q) :: ds, ?_, ?_⟩
        · simp only [ProcessDeals, hm, if_true, hq, hlt, if_false, Order.SetQuantity_qty, hz,
            hrun, Option.map_some', Msg.remove_remove]
          have hme : min o.m_Qty q + (m - min o.m_Qty q) = m := by omega
          rw [hme]
        · simp only [dealQty, List.map_cons, List.sum_cons, GenerateDeal_qty] at hds ⊢
          omega

/-- C25: at the call of `ProcessDeals` made by `Insert` or by `Modify` (through
`ProcessModify`) on a well-formed container, for a message of way BUY or SELL, the match
quantity passed is at most the quantity of the aggressor and at most the total resting
quantity executable on the opposite side; the loop then has a safe run: at each
iteration the opposite side is not empty, its front order is executable at the price of
the aggressor, the executed quantity is positive and at most the match quantity left,
and the run ends with the match quantity at `0`; with fuel for one iteration per order
of the opposite side the call returns, its deals add up to the match quantity and the
aggressor is left with its quantity less the match quantity. -/
theorem C25_process_deals_safe (c : OrderContainer) (hw : WellFormed c) :
    ∀ (M : Type) [Msg M] (iMsg : M),
      (Msg.GetWay iMsg = .BUY ∨ Msg.GetWay iMsg = .SELL) →
      c.MatchQty iMsg ≤ Msg.GetQuantity iMsg ∧
      c.MatchQty iMsg
        ≤ totalQty ((c.opposite (Msg.GetWay iMsg)).filter
            (executable (Msg.GetWay iMsg) (Msg.GetPrice iMsg))) ∧
      SafeLoop (Msg.GetWay iMsg) (Msg.GetPrice iMsg) (c.opposite (Msg.GetWay iMsg))
        (Msg.GetQuantity iMsg) (c.MatchQty iMsg) ∧
      ∀ (fuel : Nat) (clock : Nat → Nat), (c.opposite (Msg.GetWay iMsg)).length ≤ fuel →
        ∃ (c1 : OrderContainer) (ds : List Deal),
          c.ProcessDeals fuel clock iMsg (Msg.GetWay iMsg) (c.MatchQty iMsg)
            = some (c1, Msg.RemoveQuantity iMsg (c.MatchQty iMsg), ds) ∧
          dealQty ds = c.MatchQty iMsg := by
  intro M _ iMsg hway
  have hm : c.MatchQty iMsg
      = min (totalQty (execFront c (Msg.GetWay iMsg) (Msg.GetPrice iMsg)))
          (Msg.GetQuantity iMsg) := matchQty_eq c iMsg _ hw hway
  have hx := execFront_total c (Msg.GetWay iMsg) (Msg.GetPrice iMsg) hw hway
  refine ⟨by rw [hm]; exact Nat.min_le_right _ _, by rw [hm, ← hx]; exact Nat.min_le_left _ _,
    ?_, ?_⟩
  · rw [hm, ← execFront_append_execBack c (Msg.GetWay iMsg) (Msg.GetPrice iMsg)]
    apply SafeLoop_front
    intro o ho
    refine ⟨?_, List.mem_takeWhile_imp ho⟩
    exact opposite_pos c (Msg.GetWay iMsg) hw o ((List.takeWhile_sublist _).subset ho)
  · intro fuel clock hfuel
    have hp := matchPass_eq fuel clock c iMsg (Msg.GetWay iMsg) hw hway hfuel
    refine ⟨c.setOpposite (Msg.GetWay iMsg)
        ((consume iMsg clock (execFront c (Msg.GetWay iMsg) (Msg.GetPrice iMsg))
            (Msg.GetQuantity iMsg)).2 ++ execBack c (Msg.GetWay iMsg) (Msg.GetPrice iMsg)),
      (consume iMsg clock (execFront c (Msg.GetWay iMsg) (Msg.GetPrice iMsg))
        (Msg.GetQuantity iMsg)).1, ?_, ?_⟩
    · unfold OrderContainer.MatchQty
      rw [hp, ← matchQty_eq c iMsg _ hw hway]
    · rw [consume_dealQty, hm]

/-- C25 (witness): the call made by the insertion of a BUY of 45 at 102 into the book of
asks 10@100, 20@100, 30@101, 5@103: the match quantity is 45. -/
theorem C25_process_deals_safe_witness :
    WellFormed bookFourAsks ∧
    SafeLoop .BUY 102 bookFourAsks.m_AskOrders 45 45 ∧
    ∃ (c1 : OrderContainer) (ds : List Deal),
      bookFourAsks.ProcessDeals 4 clock0 (⟨.BUY, 45, 102, 9, 2⟩ : Order) .BUY 45
        = some (c1, ⟨.BUY, 0, 102, 9, 2⟩, ds) ∧
      dealQty ds = 45 :=
  ⟨by decide,
    (C25_process_deals_safe bookFourAsks (by decide) Order ⟨.BUY, 45, 102, 9, 2⟩
      (Or.inl rfl)).2.2.1,
    (C25_process_deals_safe bookFourAsks (by decide) Order ⟨.BUY, 45, 102, 9, 2⟩
      (Or.inl rfl)).2.2.2 4 clock0 (by decide)⟩

theorem dealQty_cons (d : Deal) (ds : List Deal) : dealQty (d :: ds) = d.m_Qty + dealQty ds := by
  simp [dealQty]

/-- A run of deals between sides of positive quantities is safe for the matching
quantity that its deals add up to. -/
theorem AuctionRun_safe (P : Nat) {ds : List Deal} {bids asks b1 a1 : List Order}
    (h : AuctionRun P ds bids asks b1 a1) :
    (∀ o ∈ bids, 0 < o.m_Qty) → (∀ o ∈ asks, 0 < o.m_Qty) →
    SafeAuctionRun P ds bids asks (dealQty ds) := by
  induction h with
  | nil bids asks => intro _ _; exact SafeAuctionRun.done _ _
  | cons now b bs a as ds bids1 asks1 _ ih =>
    intro hb ha
    have hbq := hb b (List.mem_cons_self _ _)
    have haq := ha a (List.mem_cons_self _ _)
    have hq : dealQty (Deal.new now P (min a.m_Qty b.m_Qty) b.m_ClientID b.m_OrderID
        a.m_ClientID a.m_OrderID :: ds) = min a.m_Qty b.m_Qty + dealQty ds := by
      rw [dealQty_cons]; rfl
    rw [hq]
    refine SafeAuctionRun.fill now b bs a as _ ds (by omega) (by omega) (by omega) ?_
    rw [Nat.add_sub_cancel_left]
    exact ih (afterFill_pos _ _ hb) (afterFill_pos _ _ ha)

/-- Each deal of a run between sides of positive quantities removes an order from the
book: deals and orders left are no more than the orders at the start. -/
theorem AuctionRun_length (P : Nat) {ds : List Deal} {bids asks b1 a1 : List Order}
    (h : AuctionRun P ds bids asks b1 a1) :
    (∀ o ∈ bids, 0 < o.m_Qty) → (∀ o ∈ asks, 0 < o.m_Qty) →
    ds.length + b1.length + a1.length ≤ bids.length + asks.length := by
  induction h with
  | nil bids asks => intro _ _; simp
  | cons now b bs a as ds bids1 asks1 _ ih =>
    intro hb ha
    have hbq := hb b (List.mem_cons_self _ _)
    have haq := ha a (List.mem_cons_self _ _)
    have ih1 := ih (afterFill_pos _ _ hb) (afterFill_pos _ _ ha)
    have hlb := afterFill_length (b :: bs) (min a.m_Qty b.m_Qty)
    have hla := afterFill_length (a :: as) (min a.m_Qty b.m_Qty)
    simp only [List.length_cons] at hlb hla ⊢
    by_cases hab : a.m_Qty ≤ b.m_Qty
    · have he : min a.m_Qty b.m_Qty = a.m_Qty := Nat.min_eq_left hab
      have h1 : afterFill (a :: as) (min a.m_Qty b.m_Qty) = as := by
        rw [he]; simp [afterFill, Nat.ne_of_gt haq, afterFill_zero]
      rw [h1] at ih1
      omega
    · have he : min a.m_Qty b.m_Qty = b.m_Qty := Nat.min_eq_right (by omega)
      have h1 : afterFill (b :: bs) (min a.m_Qty b.m_Qty) = bs := by
        rw [he]; simp [afterFill, Nat.ne_of_gt hbq, afterFill_zero]
      rw [h1] at ih1
      omega

/-- C26: on a well-formed container `MatchOrders` returns, with fuel for one turn per
resting order; it makes at most (number of resting bids + number of resting asks) fills,
one per deal; its run is safe: whenever the matching quantity left is positive both
sides are non-empty when their fronts are read, the executed quantity
`min(ask quantity, bid quantity)` is positive and at most the matching quantity left,
which so never goes below zero and ends at exactly `0`. -/
theorem C26_match_orders_safe (ord : IterationOrder)
    (fuel : Nat) (clock : Nat → Nat) (c : OrderContainer)
    (hw : WellFormed c) (hfuel : c.m_BidOrders.length + c.m_AskOrders.length ≤ fuel) :
    ∃ (c1 : OrderContainer) (deals : List Deal),
      c.MatchOrders ord fuel clock = some (c1, deals) ∧
      deals.length ≤ c.m_BidOrders.length + c.m_AskOrders.length ∧
      SafeAuctionRun (c.GetTheoriticalAuctionInformations ord).1 deals c.m_BidOrders c.m_AskOrders
        (c.GetTheoriticalAuctionInformations ord).2 := by
  obtain ⟨_, _, ds, hrun, hq, hr⟩ := MatchOrders_eq fuel clock c hw hfuel
  refine ⟨_, ds, hrun, ?_, ?_⟩
  · have := AuctionRun_length _ hr hw.2.2.1 hw.2.2.2
    omega
  · rw [← hq]
    exact AuctionRun_safe _ hr hw.2.2.1 hw.2.2.2

/-- C26 (witness): the uncrossing of bids 100@150, 50@149 against asks 60@148, 70@150,
30@151, five resting orders, matching quantity 100 at 150. -/
theorem C26_match_orders_safe_witness :
    WellFormed bookCrossed ∧
    ∃ (c1 : OrderContainer) (deals : List Deal),
      bookCrossed.MatchOrders priceIteration 5 clock0 = some (c1, deals) ∧ deals.length ≤ 5 ∧
      SafeAuctionRun 150 deals bookCrossed.m_BidOrders bookCrossed.m_AskOrders 100 :=
  ⟨by decide, C26_match_orders_safe priceIteration 5 clock0 bookCrossed (by decide) (by decide)⟩

/-- An order left by `afterFill` carries the price of an order of the side. -/
theorem afterFill_price (l : List Order) :
    ∀ (a : Nat), ∀ x ∈ afterFill l a, ∃ y ∈ l, x.m_Price = y.m_Price := by
  induction l with
  | nil => intro a x hx; simp [afterFill] at hx
  | cons o os ih =>
    intro a x hx
    by_cases h0 : a = 0
    · subst h0; rw [afterFill_zero] at hx; exact ⟨x, hx, rfl⟩
    · by_cases hle : o.m_Qty ≤ a
      · simp only [afterFill, h0, hle, if_true, if_false] at hx
        obtain ⟨y, hy, hxy⟩ := ih _ x hx
        exact ⟨y, List.mem_cons_of_mem _ hy, hxy⟩
      · simp only [afterFill, h0, hle, if_false] at hx
        rcases List.mem_cons.mp hx with rfl | hx
        · exact ⟨o, List.mem_cons_self _ _, rfl⟩
        · exact ⟨x, List.mem_cons_of_mem _ hx, rfl⟩

theorem totalQty_cons (o : Order) (l : List Order) : totalQty (o :: l) = o.m_Qty + totalQty l := by
  simp [totalQty]

/-- A run of deals whose quantity is covered by a front `bs` of bids posted at or above
`P` and by a front `as` of asks posted at or below `P` respects the limits. -/
theorem AuctionRun_limits (P : Nat) {ds : List Deal} {bids asks b1 a1 : List Order}
    (h : AuctionRun P ds bids asks b1 a1) :
    ∀ (bs bpost as apost : List Order), bids = bs ++ bpost → asks = as ++ apost →
      (∀ o ∈ bids, 0 < o.m_Qty) → (∀ o ∈ asks, 0 < o.m_Qty) →
      (∀ o ∈ bs, P ≤ o.m_Price) → (∀ o ∈ as, o.m_Price ≤ P) →
      dealQty ds ≤ totalQty bs → dealQty ds ≤ totalQty as →
      WithinLimits P ds bids asks := by
  induction h with
  | nil bids asks => intro _ _ _ _ _ _ _ _ _ _ _ _; exact WithinLimits.nil _ _
  | cons now b rest a arest ds bids1 asks1 _ ih =>
    intro bs bpost as apost hbs has hb ha hpb hpa hqb hqa
    have hbq := hb b (List.mem_cons_self _ _)
    have haq := ha a (List.mem_cons_self _ _)
    have hq : dealQty (Deal.new now P (min a.m_Qty b.m_Qty) b.m_ClientID b.m_OrderID
        a.m_ClientID a.m_OrderID :: ds) = min a.m_Qty b.m_Qty + dealQty ds := by
      rw [dealQty_cons]; rfl
    rw [hq] at hqb hqa
    cases bs with
    | nil => simp [totalQty] at hqb; omega
    | cons b0 bs1 =>
      cases as with
      | nil => simp [totalQty] at hqa; omega
      | cons a0 as1 =>
        simp only [List.cons_append, List.cons.injEq] at hbs has
        obtain ⟨hb0, hrest⟩ := hbs
        obtain ⟨ha0, harest⟩ := has
        subst hb0 ha0 hrest harest
        rw [totalQty_cons] at hqb hqa
        have hmb : min a.m_Qty b.m_Qty ≤ totalQty (b :: bs1) := by rw [totalQty_cons]; omega
        have hma : min a.m_Qty b.m_Qty ≤ totalQty (a :: as1) := by rw [totalQty_cons]; omega
        have hTb := afterFill_total (b :: bs1) _ hmb
        have hTa := afterFill_total (a :: as1) _ hma
        rw [totalQty_cons] at hTb hTa
        refine WithinLimits.cons now b (bs1 ++ bpost) a (as1 ++ apost) ds
          (hpb b (List.mem_cons_self _ _)) (hpa a (List.mem_cons_self _ _)) ?_
        refine ih (afterFill (b :: bs1) (min a.m_Qty b.m_Qty)) bpost
          (afterFill (a :: as1) (min a.m_Qty b.m_Qty)) apost ?_ ?_
          (afterFill_pos _ _ hb) (afterFill_pos _ _ ha) ?_ ?_ (by omega) (by omega)
        · rw [← afterFill_append _ _ _ hmb]; rfl
        · rw [← afterFill_append _ _ _ hma]; rfl
        · intro o ho
          obtain ⟨y, hy, hoy⟩ := afterFill_price _ _ o ho
          rw [hoy]; exact hpb y hy
        · intro o ho
          obtain ⟨y, hy, hoy⟩ := afterFill_price _ _ o ho
          rw [hoy]; exact hpa y hy

/-- The quantity computed by `GetTheoriticalAuctionInformations` is covered, on sorted
sides, by the front of the bids posted at or above the price computed and by the front
of the asks posted at or below it. -/
theorem auction_fronts {ord : IterationOrder}
    (c : OrderContainer) (hsB : PriceSorted .greater c.m_BidOrders)
    (hsA : PriceSorted .less c.m_AskOrders) :
    (c.GetTheoriticalAuctionInformations ord).2
      ≤ totalQty (c.m_BidOrders.takeWhile (fun x =>
          ExecutableQtyPredHelper .greater x.m_Price (c.GetTheoriticalAuctionInformations ord).1)) ∧
    (c.GetTheoriticalAuctionInformations ord).2
      ≤ totalQty (c.m_AskOrders.takeWhile (fun x =>
          ExecutableQtyPredHelper .less x.m_Price (c.GetTheoriticalAuctionInformations ord).1)) := by
  rcases GetTheoriticalAuctionInformations_cases c with ⟨h0, _⟩ | ⟨l1, o, l2, _, hres, _, _, _⟩
  · rw [h0]; exact ⟨Nat.zero_le _, Nat.zero_le _⟩
  · rw [hres]
    show c.auctionQty o.m_Price ≤ _ ∧ c.auctionQty o.m_Price ≤ _
    unfold OrderContainer.auctionQty
    rw [GetExecutableQuantity_eq, GetExecutableQuantity_eq,
      filter_eq_takeWhile_of_sorted _ _ _ hsB, filter_eq_takeWhile_of_sorted _ _ _ hsA]
    exact ⟨Nat.min_le_left _ _, Nat.min_le_right _ _⟩

/-- C28: on a well-formed container `MatchOrders` returns, and every deal it emits, at
the matching price computed by `GetTheoriticalAuctionInformations`, pairs a bid posted
at or above the matching price with an ask posted at or below it: no buyer trades above
and no seller below their own limit. -/
theorem C28_auction_limits_respected (ord : IterationOrder)
    (fuel : Nat) (clock : Nat → Nat) (c : OrderContainer)
    (hw : WellFormed c) (hfuel : c.m_BidOrders.length + c.m_AskOrders.length ≤ fuel) :
    ∃ (c1 : OrderContainer) (deals : List Deal),
      c.MatchOrders ord fuel clock = some (c1, deals) ∧
      WithinLimits (c.GetTheoriticalAuctionInformations ord).1 deals c.m_BidOrders c.m_AskOrders := by
  obtain ⟨_, _, ds, hrun, hq, hr⟩ := MatchOrders_eq fuel clock c hw hfuel
  obtain ⟨hfb, hfa⟩ := auction_fronts c hw.1 hw.2.1
  refine ⟨_, ds, hrun, ?_⟩
  refine AuctionRun_limits _ hr _ _ _ _
    (List.takeWhile_append_dropWhile
      (fun x => ExecutableQtyPredHelper .greater x.m_Price (c.GetTheoriticalAuctionInformations ord).1)
      c.m_BidOrders).symm
    (List.takeWhile_append_dropWhile
      (fun x => ExecutableQtyPredHelper .less x.m_Price (c.GetTheoriticalAuctionInformations ord).1)
      c.m_AskOrders).symm
    hw.2.2.1 hw.2.2.2 ?_ ?_ (by rw [hq]; exact hfb) (by rw [hq]; exact hfa)
  · intro o ho
    have := List.mem_takeWhile_imp ho
    simpa [ExecutableQtyPredHelper] using this
  · intro o ho
    have := List.mem_takeWhile_imp ho
    simpa [ExecutableQtyPredHelper] using this

/-- C28 (witness): the uncrossing of bids 100@150, 50@149 against asks 60@148, 70@150,
30@151 at 150. -/
theorem C28_auction_limits_respected_witness :
    WellFormed bookCrossed ∧
    ∃ (c1 : OrderContainer) (deals : List Deal),
      bookCrossed.MatchOrders priceIteration 5 clock0 = some (c1, deals) ∧
      WithinLimits 150 deals bookCrossed.m_BidOrders bookCrossed.m_AskOrders :=
  ⟨by decide, C28_auction_limits_respected priceIteration 5 clock0 bookCrossed (by decide) (by decide)⟩

theorem comp_false_helper (sp : SortingPredicate) (a b : Nat) (h : sp.comp b a = false) :
    ExecutableQtyPredHelper sp a b = true := by
  cases sp <;> simp [SortingPredicate.comp, ExecutableQtyPredHelper] at h ⊢ <;> omega

theorem helper_refl (sp : SortingPredicate) (a : Nat) : ExecutableQtyPredHelper sp a a = true := by
  cases sp <;> simp [ExecutableQtyPredHelper]

theorem mem_totalQty_le (l : List Order) (x : Order) (h : x ∈ l) : x.m_Qty ≤ totalQty l := by
  induction l with
  | nil => simp at h
  | cons y ys ih =>
    rw [totalQty_cons]
    rcases List.mem_cons.mp h with rfl | h
    · omega
    · have := ih h; omega

/-- On sorted sides the book is uncrossed exactly when every bid is priced strictly below
every ask. -/
theorem uncrossed_iff_all (c : OrderContainer) (hsB : PriceSorted .greater c.m_BidOrders)
    (hsA : PriceSorted .less c.m_AskOrders) :
    Uncrossed c ↔ ∀ b ∈ c.m_BidOrders, ∀ a ∈ c.m_AskOrders, b.m_Price < a.m_Price := by
  unfold Uncrossed
  cases hb : c.m_BidOrders with
  | nil => simp
  | cons b0 bs =>
    cases ha : c.m_AskOrders with
    | nil => simp
    | cons a0 as =>
      simp only [List.head?_cons]
      rw [hb] at hsB
      rw [ha] at hsA
      unfold PriceSorted at hsB hsA
      rw [List.pairwise_cons] at hsB hsA
      constructor
      · intro h b hbm a ham
        have h1 : b.m_Price ≤ b0.m_Price := by
          rcases List.mem_cons.mp hbm with rfl | hbm
          · exact Nat.le_refl _
          · have := hsB.1 b hbm
            simp [SortingPredicate.comp] at this
            omega
        have h2 : a0.m_Price ≤ a.m_Price := by
          rcases List.mem_cons.mp ham with rfl | ham
          · exact Nat.le_refl _
          · have := hsA.1 a ham
            simp [SortingPredicate.comp] at this
            omega
        omega
      · intro h
        exact h b0 (List.mem_cons_self _ _) a0 (List.mem_cons_self _ _)

theorem afterFill_sorted (sp : SortingPredicate) (l : List Order) :
    ∀ a : Nat, PriceSorted sp l → PriceSorted sp (afterFill l a) := by
  induction l with
  | nil => intro a _; simp [afterFill, PriceSorted]
  | cons o os ih =>
    intro a hs
    by_cases h0 : a = 0
    · subst h0; rw [afterFill_zero]; exact hs
    · unfold PriceSorted at hs
      rw [List.pairwise_cons] at hs
      by_cases hle : o.m_Qty ≤ a
      · simp only [afterFill, h0, hle, if_true, if_false]
        exact ih _ hs.2
      · simp only [afterFill, h0, hle, if_false]
        unfold PriceSorted
        rw [List.pairwise_cons]
        exact ⟨hs.1, hs.2⟩

/-- When `afterFill l m` has a front order `x`, the orders of the sorted side `l` posted
at least as well as `x` hold more than `m`. -/
theorem afterFill_head_total (sp : SortingPredicate) (l : List Order) :
    ∀ (m : Nat) (x : Order) (rest : List Order), PriceSorted sp l → (∀ o ∈ l, 0 < o.m_Qty) →
      afterFill l m = x :: rest →
      m < totalQty (l.filter (fun o => ExecutableQtyPredHelper sp o.m_Price x.m_Price)) := by
  induction l with
  | nil => intro m x rest _ _ h; simp [afterFill] at h
  | cons o os ih =>
    intro m x rest hs hpos h
    have hopos := hpos o (List.mem_cons_self _ _)
    have hs0 := hs
    unfold PriceSorted at hs
    rw [List.pairwise_cons] at hs
    by_cases h0 : m = 0
    · subst h0
      rw [afterFill_zero] at h
      injection h with hx _
      subst hx
      have hmem : o ∈ (o :: os).filter
          (fun y => ExecutableQtyPredHelper sp y.m_Price o.m_Price) := by
        simp [helper_refl]
      have := mem_totalQty_le _ o hmem
      omega
    · by_cases hle : o.m_Qty ≤ m
      · simp only [afterFill, h0, hle, if_true, if_false] at h
        have ih1 := ih (m - o.m_Qty) x rest hs.2
          (fun y hy => hpos y (List.mem_cons_of_mem _ hy)) h
        have hxmem : x ∈ afterFill os (m - o.m_Qty) := by rw [h]; exact List.mem_cons_self _ _
        obtain ⟨y, hy, hxy⟩ := afterFill_price os _ x hxmem
        have ho : ExecutableQtyPredHelper sp o.m_Price x.m_Price = true := by
          rw [hxy]; exact comp_false_helper sp _ _ (hs.1 y hy)
        have e1 : totalQty ((o :: os).filter
              (fun y => ExecutableQtyPredHelper sp y.m_Price x.m_Price))
            = o.m_Qty + totalQty (os.filter
              (fun y => ExecutableQtyPredHelper sp y.m_Price x.m_Price)) := by
          simp [List.filter_cons, ho, totalQty]
        omega
      · simp only [afterFill, h0, hle, if_false] at h
        injection h with hx _
        have hxp : x.m_Price = o.m_Price := by rw [← hx]; rfl
        have hmem : o ∈ (o :: os).filter
            (fun y => ExecutableQtyPredHelper sp y.m_Price x.m_Price) := by
          simp [hxp, helper_refl]
        have := mem_totalQty_le _ o hmem
        omega

/-- What `MatchOrders` leaves on sorted sides of positive quantities is uncrossed. -/
theorem afterFill_uncrossed {ord : IterationOrder} (c : OrderContainer) (hw : WellFormed c) :
    Uncrossed ⟨afterFill c.m_BidOrders (c.GetTheoriticalAuctionInformations ord).2,
      afterFill c.m_AskOrders (c.GetTheoriticalAuctionInformations ord).2, c.m_InsertedOrderIDs⟩ := by
  unfold Uncrossed
  simp only
  cases hb : afterFill c.m_BidOrders (c.GetTheoriticalAuctionInformations ord).2 with
  | nil => simp
  | cons b0 bs =>
    cases ha : afterFill c.m_AskOrders (c.GetTheoriticalAuctionInformations ord).2 with
    | nil => simp
    | cons a0 as =>
      simp only [List.head?_cons]
      by_contra hcon
      have hle : a0.m_Price ≤ b0.m_Price := Nat.le_of_not_lt hcon
      have hA := afterFill_head_total .less c.m_AskOrders _ a0 as hw.2.1 hw.2.2.2 ha
      have hB := afterFill_head_total .greater c.m_BidOrders _ b0 bs hw.1 hw.2.2.1 hb
      have hmono : totalQty (c.m_BidOrders.filter
            (fun o => ExecutableQtyPredHelper .greater o.m_Price b0.m_Price))
          ≤ totalQty (c.m_BidOrders.filter
            (fun o => ExecutableQtyPredHelper .greater o.m_Price a0.m_Price)) := by
        apply totalQty_filter_mono
        intro o _ ho
        simp only [ExecutableQtyPredHelper, decide_eq_true_eq] at ho ⊢
        omega
      have hmax := @auctionQty_le_max ord c a0.m_Price
      unfold OrderContainer.auctionQty at hmax
      rw [GetExecutableQuantity_eq, GetExecutableQuantity_eq] at hmax
      omega

/-- With every bid priced strictly below every ask nothing can trade at any ask price:
`GetTheoriticalAuctionInformations` returns `(0, 0)`. -/
theorem uncrossed_auction_zero {ord : IterationOrder} (c : OrderContainer)
    (h : ∀ b ∈ c.m_BidOrders, ∀ a ∈ c.m_AskOrders, b.m_Price < a.m_Price) :
    c.GetTheoriticalAuctionInformations ord = (0, 0) := by
  rcases GetTheoriticalAuctionInformations_cases c with ⟨h0, _⟩ | ⟨l1, o, l2, hl, _, hpos, _, _⟩
  · exact h0
  · exfalso
    have ho : o ∈ c.m_AskOrders := by rw [← visit_mem ord, hl]; simp
    have hB : GetExecutableQuantity .greater c.m_BidOrders o.m_Price = 0 := by
      rw [GetExecutableQuantity_eq]
      have : c.m_BidOrders.filter
          (fun x => ExecutableQtyPredHelper .greater x.m_Price o.m_Price) = [] := by
        rw [List.filter_eq_nil_iff]
        intro b hb hx
        simp only [ExecutableQtyPredHelper, decide_eq_true_eq] at hx
        have := h b hb o ho
        omega
      rw [this]; rfl
    unfold OrderContainer.auctionQty at hpos
    rw [hB] at hpos
    simp at hpos

/-- On sides of positive quantities, when `GetTheoriticalAuctionInformations` returns the
quantity `0` every bid is priced strictly below every ask. -/
theorem auction_zero_uncrossed {ord : IterationOrder}
    (c : OrderContainer) (hpB : ∀ o ∈ c.m_BidOrders, 0 < o.m_Qty)
    (hpA : ∀ o ∈ c.m_AskOrders, 0 < o.m_Qty)
    (h : (c.GetTheoriticalAuctionInformations ord).2 = 0) :
    ∀ b ∈ c.m_BidOrders, ∀ a ∈ c.m_AskOrders, b.m_Price < a.m_Price := by
  intro b hb a ha
  by_contra hcon
  have hle : a.m_Price ≤ b.m_Price := Nat.le_of_not_lt hcon
  have hmax := @auctionQty_le_of_ask ord c a ha
  rw [h] at hmax
  unfold OrderContainer.auctionQty at hmax
  rw [GetExecutableQuantity_eq, GetExecutableQuantity_eq] at hmax
  have hbm : b ∈ c.m_BidOrders.filter
      (fun x => ExecutableQtyPredHelper .greater x.m_Price a.m_Price) := by
    simp [ExecutableQtyPredHelper, hb, hle]
  have ham : a ∈ c.m_AskOrders.filter
      (fun x => ExecutableQtyPredHelper .less x.m_Price a.m_Price) := by
    simp [ExecutableQtyPredHelper, ha]
  have h1 := mem_totalQty_le _ b hbm
  have h2 := mem_totalQty_le _ a ham
  have h3 := hpB b hb
  have h4 := hpA a ha
  omega

/-- With the matching quantity `0` the call `MatchOrders` returns at once: same
container, no deal. -/
theorem MatchOrders_zero {ord : IterationOrder}
    (fuel : Nat) (clock : Nat → Nat) (c : OrderContainer)
    (h : (c.GetTheoriticalAuctionInformations ord).2 = 0) :
    c.MatchOrders ord fuel clock = some (c, []) := by
  simp only [OrderContainer.MatchOrders, h, MatchOrdersLoop_stop, Option.map_some']

/-- C29: on a well-formed container, however crossed, `MatchOrders` returns and leaves a
well-formed, uncrossed book: a side is empty or the best bid is priced strictly below
the best ask; `GetTheoriticalAuctionInformations` then returns the quantity `0` and a
second `MatchOrders` returns the same book with no deal.  The three are equivalent on
every well-formed container: it is uncrossed exactly when the quantity computed is `0`,
which is exactly when `MatchOrders` leaves it as it is and emits no deal. -/
theorem C29_match_orders_uncrosses (ord : IterationOrder) :
    (∀ (fuel : Nat) (clock : Nat → Nat) (c : OrderContainer), WellFormed c →
      c.m_BidOrders.length + c.m_AskOrders.length ≤ fuel →
      ∃ (c1 : OrderContainer) (deals : List Deal),
        c.MatchOrders ord fuel clock = some (c1, deals) ∧ WellFormed c1 ∧ Uncrossed c1 ∧
        (c1.GetTheoriticalAuctionInformations ord).2 = 0 ∧
        ∀ (fuel2 : Nat) (clock2 : Nat → Nat), c1.MatchOrders ord fuel2 clock2 = some (c1, [])) ∧
    (∀ c : OrderContainer, WellFormed c →
      (Uncrossed c ↔ (c.GetTheoriticalAuctionInformations ord).2 = 0) ∧
      ((c.GetTheoriticalAuctionInformations ord).2 = 0 ↔
        ∀ (fuel : Nat) (clock : Nat → Nat), c.MatchOrders ord fuel clock = some (c, []))) := by
  have key : ∀ c : OrderContainer, WellFormed c →
      (Uncrossed c ↔ (c.GetTheoriticalAuctionInformations ord).2 = 0) := by
    intro c hw
    rw [uncrossed_iff_all c hw.1 hw.2.1]
    constructor
    · intro h; rw [uncrossed_auction_zero c h]
    · exact auction_zero_uncrossed c hw.2.2.1 hw.2.2.2
  constructor
  · intro fuel clock c hw hfuel
    obtain ⟨_, _, ds, hrun, _, _⟩ := MatchOrders_eq fuel clock c hw hfuel
    have hw1 : WellFormed ⟨afterFill c.m_BidOrders (c.GetTheoriticalAuctionInformations ord).2,
        afterFill c.m_AskOrders (c.GetTheoriticalAuctionInformations ord).2,
        c.m_InsertedOrderIDs⟩ :=
      ⟨afterFill_sorted _ _ _ hw.1, afterFill_sorted _ _ _ hw.2.1,
        afterFill_pos _ _ hw.2.2.1, afterFill_pos _ _ hw.2.2.2⟩
    have hu := @afterFill_uncrossed ord c hw
    have hz := (key _ hw1).mp hu
    exact ⟨_, ds, hrun, hw1, hu, hz, fun fuel2 clock2 => MatchOrders_zero fuel2 clock2 _ hz⟩
  · intro c hw
    refine ⟨key c hw, fun hz fuel clock => MatchOrders_zero fuel clock c hz, ?_⟩
    intro h
    obtain ⟨_, _, ds, hrun, hq, _⟩ := MatchOrders_eq
      (c.m_BidOrders.length + c.m_AskOrders.length) clock0 c hw (Nat.le_refl _)
    rw [h] at hrun
    have hds : ([] : List Deal) = ds := by
      injection hrun with hrun
      exact (Prod.mk.inj hrun).2
    rw [← hq, ← hds]
    rfl

/-- C29 (witness): the crossed book of bids 100@150, 50@149 and asks 60@148, 70@150,
30@151 is left uncrossed (bid 50@149 against asks 30@150, 30@151); the book with the bid
100@150 and the ask 10@160 is uncrossed and its quantity computed is `0`. -/
theorem C29_match_orders_uncrosses_witness :
    WellFormed bookCrossed ∧ ¬ Uncrossed bookCrossed ∧
    (∃ (c1 : OrderContainer) (deals : List Deal),
      bookCrossed.MatchOrders priceIteration 5 clock0 = some (c1, deals) ∧ WellFormed c1 ∧ Uncrossed c1 ∧
      (c1.GetTheoriticalAuctionInformations priceIteration).2 = 0 ∧
      ∀ (fuel2 : Nat) (clock2 : Nat → Nat), c1.MatchOrders priceIteration fuel2 clock2 = some (c1, [])) ∧
    WellFormed bookBidAsk ∧
    (Uncrossed bookBidAsk ↔ (bookBidAsk.GetTheoriticalAuctionInformations priceIteration).2 = 0) :=
  ⟨by decide, by decide,
    (C29_match_orders_uncrosses priceIteration).1 5 clock0 bookCrossed (by decide) (by decide),
    by decide, ((C29_match_orders_uncrosses priceIteration).2 bookBidAsk (by decide)).1⟩

theorem own_withIds (b : OrderContainer) (ids : List OrderKey) (iWay : OrderWay) :
    ({ b with m_InsertedOrderIDs := ids } : OrderContainer).own iWay = b.own iWay := by
  cases iWay <;> rfl

theorem uncrossed_of_all (c : OrderContainer)
    (h : ∀ b ∈ c.m_BidOrders, ∀ a ∈ c.m_AskOrders, b.m_Price < a.m_Price) : Uncrossed c := by
  unfold Uncrossed
  cases hb : c.m_BidOrders with
  | nil => simp
  | cons b0 bs =>
    cases ha : c.m_AskOrders with
    | nil => simp
    | cons a0 as =>
      simp only [List.head?_cons]
      exact h b0 (by rw [hb]; exact List.mem_cons_self _ _) a0
        (by rw [ha]; exact List.mem_cons_self _ _)

theorem all_iff_apart (c : OrderContainer) (iWay : OrderWay) (h : iWay = .BUY ∨ iWay = .SELL) :
    (∀ b ∈ c.m_BidOrders, ∀ a ∈ c.m_AskOrders, b.m_Price < a.m_Price) ↔
      ∀ x ∈ c.own iWay, ∀ y ∈ c.opposite iWay, Apart iWay x y := by
  rcases h with h | h <;> subst h
  · exact Iff.rfl
  · constructor
    · intro hall x hx y hy; exact hall y hy x hx
    · intro hall b hb a ha; exact hall a ha b hb

theorem Apart_price (iWay : OrderWay) (x y x1 y1 : Order) (h : Apart iWay x y)
    (hx : x1.m_Price = x.m_Price) (hy : y1.m_Price = y.m_Price) : Apart iWay x1 y1 := by
  cases iWay <;> simp only [Apart] at h ⊢ <;> omega

theorem Apart_of_not_executable (iWay : OrderWay) (x y : Order)
    (h : executable iWay x.m_Price y = false) : Apart iWay x y := by
  cases iWay <;> simp [executable, Apart] at h ⊢ <;> omega

/-- An order left by `consume` carries the price of an order of the side. -/
theorem consume_rest_price {M : Type} [Msg M] (iMsg : M) (l : List Order) :
    ∀ (clock : Nat → Nat) (a : Nat), ∀ x ∈ (consume iMsg clock l a).2,
      ∃ y ∈ l, x.m_Price = y.m_Price := by
  induction l with
  | nil => intro clock a x hx; simp [consume] at hx
  | cons o os ih =>
    intro clock a x hx
    by_cases h0 : a = 0
    · simp only [consume, h0, if_true] at hx
      exact ⟨x, hx, rfl⟩
    · by_cases hle : o.m_Qty ≤ a
      · simp only [consume, h0, hle, if_true, if_false] at hx
        obtain ⟨y, hy, hxy⟩ := ih _ _ x hx
        exact ⟨y, List.mem_cons_of_mem _ hy, hxy⟩
      · simp only [consume, h0, hle, if_false] at hx
        rcases List.mem_cons.mp hx with rfl | hx
        · exact ⟨o, List.mem_cons_self _ _, rfl⟩
        · exact ⟨x, List.mem_cons_of_mem _ hx, rfl⟩

/-- An aggressor whose quantity covers a side of positive quantities leaves nothing of
it. -/
theorem consume_all {M : Type} [Msg M] (iMsg : M) (l : List Order) :
    ∀ (clock : Nat → Nat) (a : Nat), (∀ o ∈ l, 0 < o.m_Qty) → totalQty l ≤ a →
      (consume iMsg clock l a).2 = [] := by
  induction l with
  | nil => intro clock a _ _; simp [consume]
  | cons o os ih =>
    intro clock a hpos hle
    rw [totalQty_cons] at hle
    have hopos := hpos o (List.mem_cons_self _ _)
    have h0 : ¬ a = 0 := by omega
    have hoa : o.m_Qty ≤ a := by omega
    simp only [consume, h0, hoa, if_true, if_false]
    exact ih _ _ (fun x hx => hpos x (List.mem_cons_of_mem _ hx)) (by omega)

/-- Behind the executable front of a sorted opposite side no order is executable. -/
theorem execBack_not_executable (c : OrderContainer) (iWay : OrderWay) (P : Nat)
    (hw : WellFormed c) (h : iWay = .BUY ∨ iWay = .SELL) :
    ∀ x ∈ execBack c iWay P, executable iWay P x = false := by
  have hs := opposite_sorted c iWay hw h
  have hf := filter_eq_takeWhile_of_sorted (oppositePred iWay) P (c.opposite iWay) hs
  rw [executable_eq_helper iWay h P] at hf
  have hsplit := execFront_append_execBack c iWay P
  unfold execFront execBack at hsplit
  have h2 : ((c.opposite iWay).takeWhile (executable iWay P) ++
      (c.opposite iWay).dropWhile (executable iWay P)).filter (executable iWay P)
      = (c.opposite iWay).takeWhile (executable iWay P) := by
    rw [hsplit]; exact hf
  rw [List.filter_append] at h2
  have h3 : ((c.opposite iWay).dropWhile (executable iWay P)).filter (executable iWay P)
      = [] := by
    have hlen := congrArg List.length h2
    rw [List.length_append] at hlen
    have hself : ((c.opposite iWay).takeWhile (executable iWay P)).filter (executable iWay P)
        = (c.opposite iWay).takeWhile (executable iWay P) :=
      List.filter_eq_self.mpr (fun a ha => List.mem_takeWhile_imp ha)
    rw [hself] at hlen
    have : (((c.opposite iWay).dropWhile (executable iWay P)).filter
        (executable iWay P)).length = 0 := by omega
    exact List.length_eq_zero.mp this
  intro x hx
  rw [List.filter_eq_nil_iff] at h3
  unfold execBack at hx
  have := h3 x hx
  simpa using this

/-- What a matching pass leaves on the opposite side of a well-formed container: orders
at prices of the opposite side; and once the aggressor has taken the whole executable
front, no executable order. -/
theorem pass_leftover {M : Type} [Msg M] (iMsg : M) (clock : Nat → Nat) (c : OrderContainer)
    (iWay : OrderWay) (P q : Nat) (hw : WellFormed c) (h : iWay = .BUY ∨ iWay = .SELL) :
    (∀ x ∈ (consume iMsg clock (execFront c iWay P) q).2 ++ execBack c iWay P,
      ∃ y ∈ c.opposite iWay, x.m_Price = y.m_Price) ∧
    (totalQty (execFront c iWay P) ≤ q →
      ∀ x ∈ (consume iMsg clock (execFront c iWay P) q).2 ++ execBack c iWay P,
        executable iWay P x = false) := by
  have hsplit := execFront_append_execBack c iWay P
  constructor
  · intro x hx
    rcases List.mem_append.mp hx with hx | hx
    · obtain ⟨y, hy, hxy⟩ := consume_rest_price iMsg _ clock q x hx
      exact ⟨y, by rw [← hsplit]; exact List.mem_append_left _ hy, hxy⟩
    · exact ⟨x, by rw [← hsplit]; exact List.mem_append_right _ hx, rfl⟩
  · intro hle x hx
    have hpos : ∀ o ∈ execFront c iWay P, 0 < o.m_Qty := fun o ho =>
      opposite_pos c iWay hw o ((List.takeWhile_sublist _).subset ho)
    rw [consume_all iMsg _ clock q hpos hle, List.nil_append] at hx
    exact execBack_not_executable c iWay P hw h x hx

theorem mem_sideInsert (sp : SortingPredicate) (l : List Order) (o x : Order)
    (h : x ∈ (sideInsert sp l o).1) : x = o ∨ x ∈ l := by
  unfold sideInsert at h
  split at h
  · exact Or.inr h
  · exact (mem_priceInsert sp o x l).mp h

/-- A book whose opposite side is what a matching pass leaves and whose own side holds
orders of the old own side and, only when the aggressor took the whole executable
front, orders at the price of the aggressor, is uncrossed when the old book was. -/
theorem pass_keeps_uncrossed {M : Type} [Msg M] (iMsg : M) (clock : Nat → Nat)
    (c c1 : OrderContainer) (iWay : OrderWay) (P q : Nat) (hw : WellFormed c)
    (hu : Uncrossed c) (h : iWay = .BUY ∨ iWay = .SELL)
    (hopp : c1.opposite iWay
      = (consume iMsg clock (execFront c iWay P) q).2 ++ execBack c iWay P)
    (hown : ∀ x ∈ c1.own iWay,
      x ∈ c.own iWay ∨ (x.m_Price = P ∧ totalQty (execFront c iWay P) ≤ q)) :
    Uncrossed c1 := by
  have hap := (all_iff_apart c iWay h).mp ((uncrossed_iff_all c hw.1 hw.2.1).mp hu)
  obtain ⟨hlp, hlx⟩ := pass_leftover iMsg clock c iWay P q hw h
  apply uncrossed_of_all
  rw [all_iff_apart c1 iWay h]
  intro x hx y hy
  rw [hopp] at hy
  rcases hown x hx with hxc | ⟨hxp, hle⟩
  · obtain ⟨y0, hy0, hyy⟩ := hlp y hy
    exact Apart_price iWay x y0 x y (hap x hxc y0 hy0) rfl hyy
  · apply Apart_of_not_executable
    rw [hxp]
    exact hlx hle y hy

/-- C30: continuous trading keeps the book uncrossed.  On a well-formed, uncrossed
container, `Insert` with matching of an order of way BUY or SELL with a key that is not
in the inserted set returns, and leaves the book uncrossed (a side is empty or the best
bid is priced strictly below the best ask); when the aggressor is left with no quantity
its own side is unchanged, and when it is left with a positive quantity, the only case
in which a residual is put to rest, no order executable at its price is left on the
opposite side. -/
theorem C30_insert_keeps_uncrossed (fuel : Nat) (clock : Nat → Nat) (c : OrderContainer)
    (o : Order) (hw : WellFormed c) (hu : Uncrossed c)
    (hfresh : o.key ∉ c.m_InsertedOrderIDs) (hway : o.m_Way = .BUY ∨ o.m_Way = .SELL)
    (hfuel : (c.opposite o.m_Way).length ≤ fuel) :
    ∃ res : Outcome Order, c.Insert fuel clock o true = some res ∧
      Uncrossed res.book ∧
      (res.msg.m_Qty = 0 → res.book.own o.m_Way = c.own o.m_Way) ∧
      (0 < res.msg.m_Qty →
        ∀ x ∈ res.book.opposite o.m_Way, executable o.m_Way o.m_Price x = false) := by
  obtain ⟨_, hlx⟩ := pass_leftover o clock c o.m_Way o.m_Price o.m_Qty hw hway
  have hkeep := pass_keeps_uncrossed o clock c
  rw [Insert_match_eq fuel clock c o hw hfresh hway hfuel]
  simp only
  split
  · rename_i hres
    have hlt : totalQty (execFront c o.m_Way o.m_Price) ≤ o.m_Qty := by
      simp only [ne_eq] at hres
      omega
    split
    · refine ⟨_, rfl, ?_, ?_, ?_⟩
      · apply hkeep _ o.m_Way o.m_Price o.m_Qty hw hu hway
        · simp only [opposite_setOwn, opposite_setOpposite _ _ _ hway]
        · intro x hx
          simp only [own_setOwn _ _ _ hway, own_setOpposite] at hx
          rcases mem_sideInsert _ _ _ _ hx with rfl | hx
          · exact Or.inr ⟨rfl, hlt⟩
          · exact Or.inl hx
      · intro h0; exact absurd h0 hres
      · intro _ x hx
        simp only [opposite_setOwn, opposite_setOpposite _ _ _ hway] at hx
        exact hlx hlt x hx
    · refine ⟨_, rfl, ?_, ?_, ?_⟩
      · apply hkeep _ o.m_Way o.m_Price o.m_Qty hw hu hway
        · simp only [opposite_withIds, opposite_setOwn, opposite_setOpposite _ _ _ hway]
        · intro x hx
          simp only [own_withIds, own_setOwn _ _ _ hway, own_setOpposite] at hx
          rcases mem_sideInsert _ _ _ _ hx with rfl | hx
          · exact Or.inr ⟨rfl, hlt⟩
          · exact Or.inl hx
      · intro h0; exact absurd h0 hres
      · intro _ x hx
        simp only [opposite_withIds, opposite_setOwn, opposite_setOpposite _ _ _ hway] at hx
        exact hlx hlt x hx
  · rename_i hres
    refine ⟨_, rfl, ?_, ?_, ?_⟩
    · apply hkeep _ o.m_Way o.m_Price o.m_Qty hw hu hway
      · simp only [opposite_withIds, opposite_setOpposite _ _ _ hway]
      · intro x hx
        simp only [own_withIds, own_setOpposite] at hx
        exact Or.inl hx
    · intro _
      simp only [own_withIds, own_setOpposite]
    · intro hpos
      simp only [ne_eq, not_not] at hres
      have hpos1 : 0 < o.m_Qty - min (totalQty (execFront c o.m_Way o.m_Price)) o.m_Qty := hpos
      omega

/-- C30 (witness): into the uncrossed book of the bid 100@150 and the ask 10@160, a BUY
of 50 at 160 (order 9 of client 3) takes the ask and rests with 40 as best bid; the ask
side is left empty. -/
theorem C30_insert_keeps_uncrossed_witness :
    WellFormed bookBidAsk ∧ Uncrossed bookBidAsk ∧
    ∃ res : Outcome Order,
      bookBidAsk.Insert 1 clock0 ⟨.BUY, 50, 160, 9, 3⟩ true = some res ∧
      Uncrossed res.book ∧
      (res.msg.m_Qty = 0 → res.book.m_BidOrders = bookBidAsk.m_BidOrders) ∧
      (0 < res.msg.m_Qty →
        ∀ x ∈ res.book.m_AskOrders, executable .BUY 160 x = false) :=
  ⟨by decide, by decide,
    C30_insert_keeps_uncrossed 1 clock0 bookBidAsk ⟨.BUY, 50, 160, 9, 3⟩ (by decide)
      (by decide) (by decide) (Or.inl rfl) (by decide)⟩

/-- Handing deals to the book writes neither the container, the phase, the three
auction prices, the configuration nor the monitoring flag; a transition is asked for
exactly when it already was or when, in CONTINUOUS_TRADING, a deal is outside the
band around `post_auction_price`. -/
theorem OnDeals_fold (deals : List Deal) :
    ∀ s : OrderBook × Bool,
      (deals.foldl OrderBook.HandleDeal s).1.orders = s.1.orders ∧
      (deals.foldl OrderBook.HandleDeal s).1.phase = s.1.phase ∧
      (deals.foldl OrderBook.HandleDeal s).1.post_auction_price = s.1.post_auction_price ∧
      (deals.foldl OrderBook.HandleDeal s).1.open_price = s.1.open_price ∧
      (deals.foldl OrderBook.HandleDeal s).1.close_price = s.1.close_price ∧
      (deals.foldl OrderBook.HandleDeal s).1.max_price_deviation = s.1.max_price_deviation ∧
      (deals.foldl OrderBook.HandleDeal s).1.monitored = s.1.monitored ∧
      (deals.foldl OrderBook.HandleDeal s).2
        = (s.2 || (decide (s.1.phase = TradingPhase.CONTINUOUS_TRADING) &&
            deals.any (fun d =>
              outsideBand s.1.post_auction_price s.1.max_price_deviation d.m_Price))) := by
  induction deals with
  | nil => intro s; simp
  | cons d ds ih =>
    intro s
    simp only [List.foldl_cons]
    obtain ⟨h1, h2, h3, h4, h5, h6, h7, h8⟩ := ih (OrderBook.HandleDeal s d)
    refine ⟨h1, h2, h3, h4, h5, h6, h7, ?_⟩
    rw [h8]
    simp only [OrderBook.HandleDeal, OrderBook.OnDeal, List.any_cons]
    cases s.2 <;> cases decide (s.1.phase = TradingPhase.CONTINUOUS_TRADING) <;>
      cases outsideBand s.1.post_auction_price s.1.max_price_deviation d.m_Price <;> simp

/-- In CONTINUOUS_TRADING the end of an `Insert` or `Modify` leaves the container the
call left; the book is in INTRADAY_AUCTION, and monitored, when a deal was outside the
band, and still in CONTINUOUS_TRADING otherwise. -/
theorem Settle_OnDeals (b : OrderBook) (deals : List Deal)
    (hph : b.phase = .CONTINUOUS_TRADING) :
    (OrderBook.Settle (b.OnDeals deals)).orders = b.orders ∧
    (deals.any (fun d => outsideBand b.post_auction_price b.max_price_deviation d.m_Price)
        = true →
      (OrderBook.Settle (b.OnDeals deals)).phase = .INTRADAY_AUCTION ∧
        (OrderBook.Settle (b.OnDeals deals)).monitored = true) ∧
    (deals.any (fun d => outsideBand b.post_auction_price b.max_price_deviation d.m_Price)
        = false →
      (OrderBook.Settle (b.OnDeals deals)).phase = .CONTINUOUS_TRADING) := by
  obtain ⟨h1, h2, _, _, _, _, _, h8⟩ := OnDeals_fold deals (b, false)
  have h8a : (b.OnDeals deals).2
      = deals.any (fun d =>
          outsideBand b.post_auction_price b.max_price_deviation d.m_Price) := by
    unfold OrderBook.OnDeals
    rw [h8]
    simp [hph]
  have h1a : (b.OnDeals deals).1.orders = b.orders := h1
  have h2a : (b.OnDeals deals).1.phase = b.phase := h2
  refine ⟨?_, ?_, ?_⟩
  · unfold OrderBook.Settle
    split
    · exact h1a
    · exact h1a
  · intro hany
    unfold OrderBook.Settle
    rw [h8a, hany]
    simp
  · intro hany
    unfold OrderBook.Settle
    rw [h8a, hany]
    simp only [Bool.false_eq_true, if_false]
    rw [h2a, hph]

/-- The deviation check in the words of the claim, with the integer quotient
`reference * max_price_deviation / 100`: the price is below or above the band. -/
theorem outsideBand_iff (reference dev price : Nat) :
    outsideBand reference dev price = true ↔
      (price + reference * dev / 100 < reference ∨ reference + reference * dev / 100 < price) := by
  unfold outsideBand
  rw [decide_eq_true_eq]
  generalize reference * dev = k
  omega

theorem any_outsideBand_true (reference dev : Nat) (deals : List Deal)
    (h : ∃ d ∈ deals, d.m_Price + reference * dev / 100 < reference ∨
      reference + reference * dev / 100 < d.m_Price) :
    deals.any (fun d => outsideBand reference dev d.m_Price) = true := by
  obtain ⟨d, hd, hout⟩ := h
  rw [List.any_eq_true]
  exact ⟨d, hd, (outsideBand_iff reference dev d.m_Price).mpr hout⟩

theorem any_outsideBand_false (reference dev : Nat) (deals : List Deal)
    (h : ∀ d ∈ deals, ¬ (d.m_Price + reference * dev / 100 < reference ∨
      reference + reference * dev / 100 < d.m_Price)) :
    deals.any (fun d => outsideBand reference dev d.m_Price) = false := by
  rw [List.any_eq_false]
  intro d hd hout
  exact h d hd ((outsideBand_iff reference dev d.m_Price).mp hout)

/-- C23: for an order book in CONTINUOUS_TRADING, with `reference = post_auction_price`:
when the container call of an `Insert` or `Modify` of a validated message returns, the
book call returns the same value with all the deals of the container call; when one of
these deals is priced below or above the band,
`|deal.price - reference| > reference * max_price_deviation / 100`, the phase is
INTRADAY_AUCTION (and the book is monitored) once the call has returned; when every deal
is inside the band the phase is still CONTINUOUS_TRADING.  On a well-formed container
the container calls return. -/
theorem C23_deviation_breaker (fuel : Nat) (clock : Nat → Nat) (b : OrderBook)
    (hph : b.phase = .CONTINUOUS_TRADING) :
    (∀ o : Order, 0 < o.m_Qty → 0 < o.m_Price → (o.m_Way = .BUY ∨ o.m_Way = .SELL) →
      ∀ res : Outcome Order, b.orders.Insert fuel clock o true = some res →
        ∃ b1 : OrderBook,
          b.Insert fuel clock o = some ⟨res.ret, b1, res.msg, res.deals⟩ ∧
          b1.orders = res.book ∧
          ((∃ d ∈ res.deals,
              d.m_Price + b.post_auction_price * b.max_price_deviation / 100
                  < b.post_auction_price ∨
                b.post_auction_price + b.post_auction_price * b.max_price_deviation / 100
                  < d.m_Price) →
            b1.phase = .INTRADAY_AUCTION ∧ b1.monitored = true) ∧
          ((∀ d ∈ res.deals,
              ¬ (d.m_Price + b.post_auction_price * b.max_price_deviation / 100
                    < b.post_auction_price ∨
                  b.post_auction_price + b.post_auction_price * b.max_price_deviation / 100
                    < d.m_Price)) →
            b1.phase = .CONTINUOUS_TRADING)) ∧
    (∀ r : OrderReplace, 0 < r.m_Qty → 0 < r.m_Price → (r.m_Way = .BUY ∨ r.m_Way = .SELL) →
      ∀ res : Outcome OrderReplace, b.orders.Modify fuel clock r true = some res →
        ∃ b1 : OrderBook,
          b.Modify fuel clock r = some ⟨res.ret, b1, res.msg, res.deals⟩ ∧
          b1.orders = res.book ∧
          ((∃ d ∈ res.deals,
              d.m_Price + b.post_auction_price * b.max_price_deviation / 100
                  < b.post_auction_price ∨
                b.post_auction_price + b.post_auction_price * b.max_price_deviation / 100
                  < d.m_Price) →
            b1.phase = .INTRADAY_AUCTION ∧ b1.monitored = true) ∧
          ((∀ d ∈ res.deals,
              ¬ (d.m_Price + b.post_auction_price * b.max_price_deviation / 100
                    < b.post_auction_price ∨
                  b.post_auction_price + b.post_auction_price * b.max_price_deviation / 100
                    < d.m_Price)) →
            b1.phase = .CONTINUOUS_TRADING)) ∧
    (WellFormed b.orders →
      (∀ o : Order, (o.m_Way = .BUY ∨ o.m_Way = .SELL) →
        (b.orders.opposite o.m_Way).length ≤ fuel →
        ∃ res : Outcome Order, b.orders.Insert fuel clock o true = some res) ∧
      (∀ r : OrderReplace, (r.m_Way = .BUY ∨ r.m_Way = .SELL) →
        (b.orders.opposite r.m_Way).length ≤ fuel →
        ∃ res : Outcome OrderReplace, b.orders.Modify fuel clock r true = some res)) := by
  refine ⟨?_, ?_, ?_⟩
  · intro o hq hp hway res hres
    have hv : ¬ (o.m_Qty = 0 ∨ o.m_Price = 0 ∨ ¬ (o.m_Way = .BUY ∨ o.m_Way = .SELL)) := by
      intro h
      rcases h with h | h | h
      · omega
      · omega
      · exact h hway
    obtain ⟨s1, s2, s3⟩ := Settle_OnDeals ({ b with orders := res.book } : OrderBook) res.deals hph
    refine ⟨OrderBook.Settle (OrderBook.OnDeals { b with orders := res.book } res.deals),
      ?_, s1, ?_, ?_⟩
    · simp only [OrderBook.Insert, hv, if_false, hph, decide_True, hres, Option.map_some']
    · intro h
      exact s2 (any_outsideBand_true _ _ _ h)
    · intro h
      exact s3 (any_outsideBand_false _ _ _ h)
  · intro r hq hp hway res hres
    have hv : ¬ (r.m_Qty = 0 ∨ r.m_Price = 0 ∨ ¬ (r.m_Way = .BUY ∨ r.m_Way = .SELL)) := by
      intro h
      rcases h with h | h | h
      · omega
      · omega
      · exact h hway
    obtain ⟨s1, s2, s3⟩ := Settle_OnDeals ({ b with orders := res.book } : OrderBook) res.deals hph
    refine ⟨OrderBook.Settle (OrderBook.OnDeals { b with orders := res.book } res.deals),
      ?_, s1, ?_, ?_⟩
    · simp only [OrderBook.Modify, hv, if_false, hph, decide_True, hres, Option.map_some']
    · intro h
      exact s2 (any_outsideBand_true _ _ _ h)
    · intro h
      exact s3 (any_outsideBand_false _ _ _ h)
  · intro hw
    constructor
    · intro o hway hfuel
      obtain ⟨res, hres, _⟩ := Insert_deals_eq fuel clock b.orders o hw hway hfuel
      exact ⟨res, hres⟩
    · intro r hway hfuel
      obtain ⟨res, hres, _⟩ := Modify_deals_eq fuel clock b.orders r hw hway hfuel
      exact ⟨res, hres⟩

/-- C23 (witness): reference 1000 and `max_price_deviation` 10, as in the tests: a SELL
of 100 against the resting bid of 100 at 890, and at 1110, deals outside the band and
leaves the book in INTRADAY_AUCTION; at 1001 the deal is inside the band and the book
stays in CONTINUOUS_TRADING. -/
theorem C23_deviation_breaker_witness :
    (∃ b1 : OrderBook,
      (bookContinuous 890).Insert 1 clock0 ⟨.SELL, 100, 890, 6, 1⟩
        = some ⟨true, b1, ⟨.SELL, 0, 890, 6, 1⟩, [Deal.new 0 890 100 1 5 1 6]⟩ ∧
      b1.phase = .INTRADAY_AUCTION) ∧
    (∃ b1 : OrderBook,
      (bookContinuous 1110).Insert 1 clock0 ⟨.SELL, 100, 1110, 6, 1⟩
        = some ⟨true, b1, ⟨.SELL, 0, 1110, 6, 1⟩, [Deal.new 0 1110 100 1 5 1 6]⟩ ∧
      b1.phase = .INTRADAY_AUCTION) ∧
    (∃ b1 : OrderBook,
      (bookContinuous 1001).Insert 1 clock0 ⟨.SELL, 100, 1001, 6, 1⟩
        = some ⟨true, b1, ⟨.SELL, 0, 1001, 6, 1⟩, [Deal.new 0 1001 100 1 5 1 6]⟩ ∧
      b1.phase = .CONTINUOUS_TRADING) := by
  refine ⟨?_, ?_, ?_⟩
  · obtain ⟨b1, h1, _, h3, _⟩ :=
      (C23_deviation_breaker 1 clock0 (bookContinuous 890) rfl).1 ⟨.SELL, 100, 890, 6, 1⟩
        (by decide) (by decide) (Or.inr rfl)
        ⟨true, ⟨[], [], [(1, 6), (1, 5)]⟩, ⟨.SELL, 0, 890, 6, 1⟩, [Deal.new 0 890 100 1 5 1 6]⟩
        rfl
    exact ⟨b1, h1, (h3 ⟨_, List.mem_cons_self _ _, by decide⟩).1⟩
  · obtain ⟨b1, h1, _, h3, _⟩ :=
      (C23_deviation_breaker 1 clock0 (bookContinuous 1110) rfl).1 ⟨.SELL, 100, 1110, 6, 1⟩
        (by decide) (by decide) (Or.inr rfl)
        ⟨true, ⟨[], [], [(1, 6), (1, 5)]⟩, ⟨.SELL, 0, 1110, 6, 1⟩,
          [Deal.new 0 1110 100 1 5 1 6]⟩ rfl
    exact ⟨b1, h1, (h3 ⟨_, List.mem_cons_self _ _, by decide⟩).1⟩
  · obtain ⟨b1, h1, _, _, h4⟩ :=
      (C23_deviation_breaker 1 clock0 (bookContinuous 1001) rfl).1 ⟨.SELL, 100, 1001, 6, 1⟩
        (by decide) (by decide) (Or.inr rfl)
        ⟨true, ⟨[], [], [(1, 6), (1, 5)]⟩, ⟨.SELL, 0, 1001, 6, 1⟩,
          [Deal.new 0 1001 100 1 5 1 6]⟩ rfl
    refine ⟨b1, h1, h4 ?_⟩
    intro d hd
    rcases List.mem_singleton.mp hd with rfl
    decide

theorem Filled_refl (l : List Order) : Filled l l := by
  induction l with
  | nil => exact Filled.nil
  | cons o os ih =>
    have := Filled.stays o o.m_Qty (Nat.le_refl _) ih
    rwa [Order.SetQuantity_self] at this

theorem Filled_to_nil (l : List Order) : Filled l [] := by
  induction l with
  | nil => exact Filled.nil
  | cons o os ih => exact Filled.gone o ih

theorem Filled_trans {a b c : List Order} (h1 : Filled a b) (h2 : Filled b c) : Filled a c := by
  induction h1 generalizing c with
  | nil => exact h2
  | gone o _ ih => exact Filled.gone o (ih h2)
  | stays o q hq _ ih =>
    cases h2 with
    | gone _ h => exact Filled.gone o (ih h)
    | stays _ q2 hq2 h =>
      rw [Order.SetQuantity_SetQuantity]
      rw [Order.SetQuantity_qty] at hq2
      exact Filled.stays o q2 (Nat.le_trans hq2 hq) (ih h)

theorem Filled_of_sublist {l1 l : List Order} (h : List.Sublist l1 l) : Filled l l1 := by
  induction h with
  | slnil => exact Filled.nil
  | cons a _ ih => exact Filled.gone a ih
  | cons₂ a _ ih =>
    have := Filled.stays a a.m_Qty (Nat.le_refl _) ih
    rwa [Order.SetQuantity_self] at this

/-- Every order kept by a fill is an order of the side filled, with a quantity not
larger. -/
theorem Filled_mem {l l1 : List Order} (h : Filled l l1) :
    ∀ x ∈ l1, ∃ y ∈ l, ∃ q, q ≤ y.m_Qty ∧ x = y.SetQuantity q := by
  induction h with
  | nil => simp
  | gone o _ ih =>
    intro x hx
    obtain ⟨y, hy, q, hq, he⟩ := ih x hx
    exact ⟨y, List.mem_cons_of_mem _ hy, q, hq, he⟩
  | stays o q hq _ ih =>
    intro x hx
    rcases List.mem_cons.mp hx with rfl | hx
    · exact ⟨o, List.mem_cons_self _ _, q, hq, rfl⟩
    · obtain ⟨y, hy, q2, hq2, he⟩ := ih x hx
      exact ⟨y, List.mem_cons_of_mem _ hy, q2, hq2, he⟩

/-- A fill keeps every pairwise relation that does not look at quantities. -/
theorem Filled_pairwise (R : Order → Order → Prop)
    (hR : ∀ a b q1 q2, R a b → R (a.SetQuantity q1) (b.SetQuantity q2))
    {l l1 : List Order} (h : Filled l l1) (hp : l.Pairwise R) : l1.Pairwise R := by
  induction h with
  | nil => exact List.Pairwise.nil
  | gone o _ ih => exact ih (List.pairwise_cons.mp hp).2
  | stays o q hq hf ih =>
    rw [List.pairwise_cons] at hp ⊢
    refine ⟨?_, ih hp.2⟩
    intro x hx
    obtain ⟨y, hy, q2, _, he⟩ := Filled_mem hf x hx
    rw [he]
    exact hR o y q q2 (hp.1 y hy)

/-- Having been filled from `l0` is a closed side property, as long as nothing is
inserted. -/
theorem filled_closed (sp : SortingPredicate) (l0 : List Order) :
    SideClosed sp (fun _ => False) (Filled l0) where
  nil := Filled_to_nil l0
  tail := fun o l h => Filled_trans h (Filled.gone o (Filled_refl l))
  lower := fun o l q h _ hle => Filled_trans h (Filled.stays o q hle (Filled_refl l))
  erase := fun k l h => Filled_trans h (Filled_of_sublist (eraseKey_sublist k l))
  insert := fun _ _ hQ _ _ => hQ.elim

theorem findKey_priceInsert (sp : SortingPredicate) (o : Order) (l : List Order)
    (h : findKey l o.key = none) : findKey (priceInsert sp o l) o.key = some o := by
  induction l with
  | nil => simp [priceInsert, findKey]
  | cons x xs ih =>
    have hx : x.key ≠ o.key := (findKey_eq_none _ _).mp h x (List.mem_cons_self _ _)
    have hxs : findKey xs o.key = none :=
      (findKey_eq_none _ _).mpr (fun y hy => (findKey_eq_none _ _).mp h y (List.mem_cons_of_mem _ hy))
    unfold priceInsert
    split
    · simp [findKey]
    · have := ih hxs
      simp only [findKey] at this ⊢
      rw [List.find?_cons_of_neg _ (by simpa using hx)]
      exact this

/-- The property that holds of every side is closed. -/
theorem trivial_closed (sp : SortingPredicate) :
    SideClosed sp (fun _ => True) (fun _ => True) where
  nil := trivial
  tail := fun _ _ _ => trivial
  lower := fun _ _ _ _ _ _ => trivial
  erase := fun _ _ _ => trivial
  insert := fun _ _ _ _ _ => trivial

/-- The matching pass leaves the own side of the aggressor as it is. -/
theorem container_ProcessDeals_own {M : Type} [Msg M] (fuel : Nat) (clock : Nat → Nat)
    (c : OrderContainer) (iMsg : M) (iWay : OrderWay) (m : Nat)
    (s : OrderContainer × M × List Deal) (h : c.ProcessDeals fuel clock iMsg iWay m = some s) :
    s.1.own iWay = c.own iWay ∧ ∃ e, s.2.1 = Msg.RemoveQuantity iMsg e := by
  have h3 := (container_ProcessDeals_preserves _ _ _ _ (trivial_closed .greater)
    (trivial_closed .less) fuel clock c iMsg iWay m s trivial trivial h).2.2
  refine ⟨?_, h3⟩
  cases iWay
  · simp only [OrderContainer.ProcessDeals, Option.map_eq_some'] at h
    obtain ⟨res, _, hs⟩ := h
    subst hs; rfl
  · simp only [OrderContainer.ProcessDeals, Option.map_eq_some'] at h
    obtain ⟨res, _, hs⟩ := h
    subst hs; rfl
  · simp [OrderContainer.ProcessDeals] at h

theorem arrived_Insert (iOrder : Order) (Match : Bool) (c c1 : OrderContainer) (w : OrderWay) :
    (Op.Insert iOrder Match).arrived c c1 w
      = if iOrder.key ∉ c.m_InsertedOrderIDs ∧ iOrder.m_Way = w ∧
            findKey (c.own iOrder.m_Way) iOrder.key = none
        then findKey (c1.own w) iOrder.key else none := by
  unfold Op.arrived Op.insertion
  by_cases hdup : iOrder.key ∈ c.m_InsertedOrderIDs
  · simp [hdup]
  · simp [hdup]

theorem arrived_Modify (r : OrderReplace) (Match : Bool) (c c1 : OrderContainer)
    (w : OrderWay) :
    (Op.Modify r Match).arrived c c1 w
      = if OrderIDGenerator r.m_ClientID r.m_ReplacedOrderID ∉ c.m_InsertedOrderIDs ∧
            r.m_Way = w ∧
            findKey (eraseKey (OrderIDGenerator r.m_ClientID r.m_ExistingOrderID)
              (c.own r.m_Way)) (OrderIDGenerator r.m_ClientID r.m_ReplacedOrderID) = none
        then findKey (c1.own w) (OrderIDGenerator r.m_ClientID r.m_ReplacedOrderID)
        else none := by
  unfold Op.arrived Op.insertion
  by_cases hdup : OrderIDGenerator r.m_ClientID r.m_ReplacedOrderID ∈ c.m_InsertedOrderIDs
  · simp [hdup]
  · simp [hdup]

/-- What a call leaves of a side when it inserts nothing on it. -/
theorem SideStep_none (sp : SortingPredicate) {before after : List Order}
    (h : Filled before after) : SideStep sp none before after :=
  ⟨after, h, rfl⟩

/-- The own side after `Insert`: as it was, when the call returns `false` or leaves no
quantity of the order; otherwise with the order, at the quantity left of it, inserted
under its key, which was free. -/
theorem Insert_own (fuel : Nat) (clock : Nat → Nat) (c : OrderContainer) (iOrder : Order)
    (Match : Bool) (res : Outcome Order) (hw : iOrder.m_Way = .BUY ∨ iOrder.m_Way = .SELL)
    (h : c.Insert fuel clock iOrder Match = some res) :
    (res.book.own iOrder.m_Way = c.own iOrder.m_Way ∧
      (res.ret = false ∨ res.msg.m_Qty = 0)) ∨
    (iOrder.key ∉ c.m_InsertedOrderIDs ∧ findKey (c.own iOrder.m_Way) iOrder.key = none ∧
      res.ret = true ∧ res.msg.m_Qty ≠ 0 ∧ res.msg.key = iOrder.key ∧
      res.book.own iOrder.m_Way
        = priceInsert (ownPred iOrder.m_Way) res.msg (c.own iOrder.m_Way)) := by
  unfold OrderContainer.Insert at h
  simp only [] at h
  by_cases hdup : iOrder.key ∈ c.m_InsertedOrderIDs
  · simp only [hdup, if_true, Option.some.injEq] at h
    subst h
    exact Or.inl ⟨rfl, Or.inl rfl⟩
  · simp only [hdup, if_false, Option.bind_eq_some] at h
    obtain ⟨s, hs, hrest⟩ := h
    have hs1 : s.1.own iOrder.m_Way = c.own iOrder.m_Way ∧ ∃ q, s.2.1 = iOrder.SetQuantity q := by
      have hself : (c, iOrder, ([] : List Deal)) = s →
          s.1.own iOrder.m_Way = c.own iOrder.m_Way ∧ ∃ q, s.2.1 = iOrder.SetQuantity q := by
        intro he; subst he
        exact ⟨rfl, iOrder.m_Qty, (Order.SetQuantity_self iOrder).symm⟩
      cases Match
      · simp only [Bool.false_eq_true, if_false, Option.some.injEq] at hs
        exact hself hs
      · simp only [if_true] at hs
        split at hs
        · obtain ⟨h1, e, he⟩ := container_ProcessDeals_own fuel clock c iOrder _ _ s hs
          exact ⟨h1, iOrder.m_Qty - e, he⟩
        · simp only [Option.some.injEq] at hs
          exact hself hs
    obtain ⟨hown, q, hq⟩ := hs1
    have hway : s.2.1.m_Way = iOrder.m_Way := by rw [hq]; rfl
    have hkey : s.2.1.key = iOrder.key := by rw [hq]; rfl
    split at hrest
    · rename_i hne
      rw [AuctionInsert_eq s.1 s.2.1 (hway ▸ hw)] at hrest
      simp only [Option.some_bind, hway, hown] at hrest
      unfold sideInsert at hrest
      rw [hkey] at hrest
      cases hf : findKey (c.own iOrder.m_Way) iOrder.key with
      | some x =>
        simp only [hf, if_true, Option.some.injEq] at hrest
        subst hrest
        exact Or.inl ⟨own_setOwn _ _ _ hw, Or.inl rfl⟩
      | none =>
        simp only [hf, Bool.true_eq_false, if_false, Option.some.injEq] at hrest
        subst hrest
        refine Or.inr ⟨hdup, rfl, rfl, hne, hkey, ?_⟩
        rcases hw with hw | hw <;> simp only [hw] <;> rfl
    · rename_i hq0
      simp only [Option.some.injEq] at hrest
      subst hrest
      left
      refine ⟨?_, Or.inr (by simpa using hq0)⟩
      simp only [own_withIds, hown]

/-- The order recorded as put to rest by a returning `Insert` is the order that
`AuctionInsert` has inserted: the order with the quantity left of it, when the call
returns `true` and leaves a quantity; no order otherwise. -/
theorem arrived_Insert_spec (fuel : Nat) (clock : Nat → Nat) (c : OrderContainer)
    (iOrder : Order) (Match : Bool) (res : Outcome Order)
    (hw : iOrder.m_Way = .BUY ∨ iOrder.m_Way = .SELL)
    (h : c.Insert fuel clock iOrder Match = some res) :
    (Op.Insert iOrder Match).arrived c res.book iOrder.m_Way
      = if res.ret = true ∧ res.msg.m_Qty ≠ 0 then some res.msg else none := by
  rw [arrived_Insert]
  rcases Insert_own fuel clock c iOrder Match res hw h with
    ⟨ho, hr⟩ | ⟨h1, h2, h3, h4, h5, h6⟩
  · have hrhs : ¬ (res.ret = true ∧ res.msg.m_Qty ≠ 0) := by
      rintro ⟨hr1, hr2⟩
      rcases hr with hr | hr
      · rw [hr] at hr1; exact absurd hr1 (by decide)
      · exact hr2 hr
    rw [if_neg hrhs]
    by_cases hc : iOrder.key ∉ c.m_InsertedOrderIDs ∧ iOrder.m_Way = iOrder.m_Way ∧
        findKey (c.own iOrder.m_Way) iOrder.key = none
    · rw [if_pos hc, ho]
      exact hc.2.2
    · rw [if_neg hc]
  · have hc : iOrder.key ∉ c.m_InsertedOrderIDs ∧ iOrder.m_Way = iOrder.m_Way ∧
        findKey (c.own iOrder.m_Way) iOrder.key = none := ⟨h1, rfl, h2⟩
    have hrhs : res.ret = true ∧ res.msg.m_Qty ≠ 0 := ⟨h3, h4⟩
    rw [if_pos hc, if_pos hrhs, h6, ← h5]
    exact findKey_priceInsert _ _ _ (by rw [h5]; exact h2)

/-- The matching pass of `Modify` leaves the own side of the message as it is. -/
theorem ProcessModify_own (fuel : Nat) (clock : Nat → Nat) (c : OrderContainer)
    (r : OrderReplace) (Match : Bool) (p : Bool × OrderContainer × OrderReplace × List Deal)
    (h : c.ProcessModify fuel clock r Match = some p) :
    p.2.1.own r.m_Way = c.own r.m_Way ∧ ∃ e, p.2.2.1 = Msg.RemoveQuantity r e := by
  have hself : (true, c, r, ([] : List Deal)) = p →
      p.2.1.own r.m_Way = c.own r.m_Way ∧ ∃ e, p.2.2.1 = Msg.RemoveQuantity r e := by
    intro he; subst he
    exact ⟨rfl, 0, rfl⟩
  unfold OrderContainer.ProcessModify at h
  cases Match
  · simp only [Bool.false_eq_true, if_false, Option.some.injEq] at h
    exact hself h
  · simp only [if_true] at h
    split at h
    · simp only [Option.map_eq_some'] at h
      obtain ⟨s, hs, hsp⟩ := h
      have h1 := container_ProcessDeals_own fuel clock c r _ _ s hs
      split at hsp
      · subst hsp; exact h1
      · subst hsp; exact h1
    · simp only [Option.some.injEq] at h
      exact hself h

/-- The own side after `Modify`: as it was when the replacement key is in the inserted
set; otherwise without the order replaced, and with the replacement order, at the
quantity left of it, inserted when its key is free. -/
theorem Modify_own (fuel : Nat) (clock : Nat → Nat) (c : OrderContainer) (r : OrderReplace)
    (Match : Bool) (res : Outcome OrderReplace)
    (h : c.Modify fuel clock r Match = some res) :
    (OrderIDGenerator r.m_ClientID r.m_ReplacedOrderID ∈ c.m_InsertedOrderIDs ∧
      res.book.own r.m_Way = c.own r.m_Way) ∨
    res.book.own r.m_Way
      = eraseKey (OrderIDGenerator r.m_ClientID r.m_ExistingOrderID) (c.own r.m_Way) ∨
    (OrderIDGenerator r.m_ClientID r.m_ReplacedOrderID ∉ c.m_InsertedOrderIDs ∧
      findKey (eraseKey (OrderIDGenerator r.m_ClientID r.m_ExistingOrderID) (c.own r.m_Way))
        (OrderIDGenerator r.m_ClientID r.m_ReplacedOrderID) = none ∧
      res.ret = true ∧
      res.book.own r.m_Way
        = priceInsert (ownPred r.m_Way)
            ⟨r.m_Way, res.msg.m_Qty, r.m_Price, r.m_ReplacedOrderID, r.m_ClientID⟩
            (eraseKey (OrderIDGenerator r.m_ClientID r.m_ExistingOrderID) (c.own r.m_Way))) := by
  unfold OrderContainer.Modify at h
  simp only [] at h
  split at h
  · rename_i hdup
    simp only [Option.some.injEq] at h; subst h
    exact Or.inl ⟨hdup, rfl⟩
  · rename_i hdup
    split at h
    · rename_i hw
      unfold OrderContainer.ApplyModify at h
      simp only [] at h
      split at h
      · simp only [Option.map_eq_some'] at h
        obtain ⟨p, hp, hres⟩ := h
        obtain ⟨hown, e, he⟩ := ProcessModify_own fuel clock c r Match p hp
        rw [hw] at hown
        subst hres
        rw [hw]
        right
        have hown2 : p.2.1.m_BidOrders = c.m_BidOrders := hown
        have hk : (⟨p.2.2.1.m_Way, p.2.2.1.m_Qty, p.2.2.1.m_Price, p.2.2.1.m_ReplacedOrderID,
            p.2.2.1.m_ClientID⟩ : Order).key
            = OrderIDGenerator r.m_ClientID r.m_ReplacedOrderID := by rw [he]; rfl
        simp only [OrderContainer.own, hown2, ownPred]
        by_cases hp1 : p.1 = true
        · simp only [hp1, if_true]
          unfold sideInsert
          rw [hk]
          cases hf : findKey (eraseKey (OrderIDGenerator r.m_ClientID r.m_ExistingOrderID)
              c.m_BidOrders) (OrderIDGenerator r.m_ClientID r.m_ReplacedOrderID) with
          | some x => exact Or.inl rfl
          | none =>
            right
            refine ⟨hdup, rfl, trivial, ?_⟩
            have hwy : p.2.2.1.m_Way = OrderWay.BUY := by rw [he]; exact hw
            rw [hwy, he]
            rfl
        · simp only [hp1, if_false]
          exact Or.inl rfl
      · simp only [Option.some.injEq] at h; subst h
        rename_i hnf
        right; left
        rw [hw]
        have hnf2 : findKey c.m_BidOrders
            (OrderIDGenerator r.m_ClientID r.m_ExistingOrderID) = none := hnf
        exact (eraseKey_of_absent _ _ ((findKey_eq_none _ _).mp hnf2)).symm
    · rename_i hw
      unfold OrderContainer.ApplyModify at h
      simp only [] at h
      split at h
      · simp only [Option.map_eq_some'] at h
        obtain ⟨p, hp, hres⟩ := h
        obtain ⟨hown, e, he⟩ := ProcessModify_own fuel clock c r Match p hp
        rw [hw] at hown
        subst hres
        rw [hw]
        right
        have hown2 : p.2.1.m_AskOrders = c.m_AskOrders := hown
        have hk : (⟨p.2.2.1.m_Way, p.2.2.1.m_Qty, p.2.2.1.m_Price, p.2.2.1.m_ReplacedOrderID,
            p.2.2.1.m_ClientID⟩ : Order).key
            = OrderIDGenerator r.m_ClientID r.m_ReplacedOrderID := by rw [he]; rfl
        simp only [OrderContainer.own, hown2, ownPred]
        by_cases hp1 : p.1 = true
        · simp only [hp1, if_true]
          unfold sideInsert
          rw [hk]
          cases hf : findKey (eraseKey (OrderIDGenerator r.m_ClientID r.m_ExistingOrderID)
              c.m_AskOrders) (OrderIDGenerator r.m_ClientID r.m_ReplacedOrderID) with
          | some x => exact Or.inl rfl
          | none =>
            right
            refine ⟨hdup, rfl, trivial, ?_⟩
            have hwy : p.2.2.1.m_Way = OrderWay.SELL := by rw [he]; exact hw
            rw [hwy, he]
            rfl
        · simp only [hp1, if_false]
          exact Or.inl rfl
      · simp only [Option.some.injEq] at h; subst h
        rename_i hnf
        right; left
        rw [hw]
        have hnf2 : findKey c.m_AskOrders
            (OrderIDGenerator r.m_ClientID r.m_ExistingOrderID) = none := hnf
        exact (eraseKey_of_absent _ _ ((findKey_eq_none _ _).mp hnf2)).symm
    · simp at h

/-- An order recorded as put to rest by a returning `Modify` is the replacement order
that the call has built, with the quantity left of the message, inserted on the side of
its way under a key that was free once the replaced order was erased; the call has
returned `true`. -/
theorem arrived_Modify_spec (fuel : Nat) (clock : Nat → Nat) (c : OrderContainer)
    (r : OrderReplace) (Match : Bool) (res : Outcome OrderReplace)
    (h : c.Modify fuel clock r Match = some res) (w : OrderWay) (o : Order)
    (ha : (Op.Modify r Match).arrived c res.book w = some o) :
    res.ret = true ∧ r.m_Way = w ∧
    o = ⟨r.m_Way, res.msg.m_Qty, r.m_Price, r.m_ReplacedOrderID, r.m_ClientID⟩ ∧
    findKey (eraseKey (OrderIDGenerator r.m_ClientID r.m_ExistingOrderID) (c.own r.m_Way))
      (OrderIDGenerator r.m_ClientID r.m_ReplacedOrderID) = none := by
  rw [arrived_Modify] at ha
  split at ha
  · rename_i hc
    obtain ⟨hc1, hc2, hc3⟩ := hc
    subst hc2
    rcases Modify_own fuel clock c r Match res h with ⟨hdup, _⟩ | ho | ⟨_, _, hret, ho⟩
    · exact absurd hdup hc1
    · rw [ho, hc3] at ha
      exact absurd ha (by simp)
    · rw [ho] at ha
      have hf := findKey_priceInsert (ownPred r.m_Way)
        (⟨r.m_Way, res.msg.m_Qty, r.m_Price, r.m_ReplacedOrderID, r.m_ClientID⟩ : Order) _ hc3
      have hk : (⟨r.m_Way, res.msg.m_Qty, r.m_Price, r.m_ReplacedOrderID, r.m_ClientID⟩
          : Order).key = OrderIDGenerator r.m_ClientID r.m_ReplacedOrderID := rfl
      rw [hk] at hf
      rw [hf] at ha
      exact ⟨hret, rfl, (Option.some.inj ha).symm, hc3⟩
  · exact absurd ha (by simp)

/-- The step of the own side of a call: the side `l0` is filled to `l`, and the order of
the call is inserted into `l` under the key `k` or not. -/
theorem own_step (sp : SortingPredicate) (l0 l l1 : List Order) (k : OrderKey) (cond : Prop)
    [Decidable cond] (hF : Filled l0 l) (hc : cond → findKey l k = none)
    (h : l1 = l ∨ (cond ∧ ∃ o, o.key = k ∧ l1 = priceInsert sp o l)) :
    SideStep sp (if cond then findKey l1 k else none) l0 l1 := by
  rcases h with h | ⟨hcond, o, hk, h⟩
  · subst h
    have : (if cond then findKey l1 k else none) = none := by
      by_cases hcond : cond
      · simp only [hcond, if_true]; exact hc hcond
      · simp only [hcond, if_false]
    rw [this]
    exact SideStep_none sp hF
  · have hf : findKey l o.key = none := by rw [hk]; exact hc hcond
    have : (if cond then findKey l1 k else none) = some o := by
      simp only [hcond, if_true]
      rw [h, ← hk]
      exact findKey_priceInsert sp o l hf
    rw [this]
    exact ⟨l, hF, hf, h⟩

theorem inserts_none (op : Op)
    (h : match op with
      | .Insert iOrder _ => iOrder.m_Way ≠ .BUY ∧ iOrder.m_Way ≠ .SELL
      | .Modify r _ => r.m_Way ≠ .BUY ∧ r.m_Way ≠ .SELL
      | _ => True) :
    op.Inserts (fun _ => False) (fun _ => False) := by
  cases op with
  | Insert iOrder Match => intro q _; exact ⟨fun hw => h.1 hw, fun hw => h.2 hw⟩
  | Modify r Match => intro q _; exact ⟨fun hw => h.1 hw, fun hw => h.2 hw⟩
  | Delete _ _ _ => trivial
  | CancelAllOrders => trivial
  | MatchOrders => trivial

/-- What a returning call does to the two sides: each is filled, and the order the call
has put to rest, if any, is inserted on its side behind the orders it does not strictly
precede. -/
theorem apply_sides {ord : IterationOrder} (fuel : Nat) (clock : Nat → Nat)
    (c : OrderContainer) (op : Op) (c1 : OrderContainer)
    (h : c.apply ord fuel clock op = some c1) :
    SideStep .greater (op.arrived c c1 .BUY) c.m_BidOrders c1.m_BidOrders ∧
    SideStep .less (op.arrived c c1 .SELL) c.m_AskOrders c1.m_AskOrders := by
  have hnone : op.Inserts (fun _ => False) (fun _ => False) →
      Filled c.m_BidOrders c1.m_BidOrders ∧ Filled c.m_AskOrders c1.m_AskOrders := fun hins =>
    apply_preserves _ _ _ _ (filled_closed .greater c.m_BidOrders)
      (filled_closed .less c.m_AskOrders) fuel clock c op c1 hins (Filled_refl _) (Filled_refl _) h
  cases op with
  | Delete iOrderId iClientId iWay =>
    have hf := hnone trivial
    exact ⟨SideStep_none _ hf.1, SideStep_none _ hf.2⟩
  | CancelAllOrders =>
    have hf := hnone trivial
    exact ⟨SideStep_none _ hf.1, SideStep_none _ hf.2⟩
  | MatchOrders =>
    have hf := hnone trivial
    exact ⟨SideStep_none _ hf.1, SideStep_none _ hf.2⟩
  | Insert iOrder Match =>
    have happ := h
    simp only [OrderContainer.apply, Option.map_eq_some'] at h
    obtain ⟨res, hres, hbk⟩ := h
    subst hbk
    rw [arrived_Insert, arrived_Insert]
    cases hw : iOrder.m_Way with
    | BUY =>
      have hA : Filled c.m_AskOrders res.book.m_AskOrders :=
        (Insert_preserves _ _ _ _ (trivial_closed .greater) (filled_closed .less c.m_AskOrders)
          fuel clock c iOrder Match res
          (fun q _ => ⟨fun _ => trivial, fun hs => by rw [hw] at hs; exact absurd hs (by decide)⟩)
          trivial (Filled_refl _) hres).2
      have ho := Insert_own fuel clock c iOrder Match res (Or.inl hw) hres
      rw [hw] at ho
      refine ⟨?_, ?_⟩
      · apply own_step .greater c.m_BidOrders c.m_BidOrders res.book.m_BidOrders iOrder.key _
          (Filled_refl _) (fun hc => hc.2.2)
        rcases ho with ⟨ho, _⟩ | ⟨h1, h2, _, _, h5, h6⟩
        · exact Or.inl ho
        · exact Or.inr ⟨⟨h1, rfl, h2⟩, res.msg, h5, h6⟩
      · simp only [show ¬ (OrderWay.BUY = OrderWay.SELL) by decide, false_and, and_false,
          if_false]
        exact SideStep_none _ hA
    | SELL =>
      have hB : Filled c.m_BidOrders res.book.m_BidOrders :=
        (Insert_preserves _ _ _ _ (filled_closed .greater c.m_BidOrders) (trivial_closed .less)
          fuel clock c iOrder Match res
          (fun q _ => ⟨fun hs => by rw [hw] at hs; exact absurd hs (by decide), fun _ => trivial⟩)
          (Filled_refl _) trivial hres).1
      have ho := Insert_own fuel clock c iOrder Match res (Or.inr hw) hres
      rw [hw] at ho
      refine ⟨?_, ?_⟩
      · simp only [show ¬ (OrderWay.SELL = OrderWay.BUY) by decide, false_and, and_false,
          if_false]
        exact SideStep_none _ hB
      · apply own_step .less c.m_AskOrders c.m_AskOrders res.book.m_AskOrders iOrder.key _
          (Filled_refl _) (fun hc => hc.2.2)
        rcases ho with ⟨ho, _⟩ | ⟨h1, h2, _, _, h5, h6⟩
        · exact Or.inl ho
        · exact Or.inr ⟨⟨h1, rfl, h2⟩, res.msg, h5, h6⟩
    | MAX_WAY =>
      have hf := hnone (inserts_none _ (by
        show iOrder.m_Way ≠ .BUY ∧ iOrder.m_Way ≠ .SELL
        rw [hw]; exact ⟨by decide, by decide⟩))
      simp only [show ¬ (OrderWay.MAX_WAY = OrderWay.BUY) by decide,
        show ¬ (OrderWay.MAX_WAY = OrderWay.SELL) by decide, false_and, and_false, if_false]
      exact ⟨SideStep_none _ hf.1, SideStep_none _ hf.2⟩
  | Modify r Match =>
    have happ := h
    simp only [OrderContainer.apply, Option.map_eq_some'] at h
    obtain ⟨res, hres, hbk⟩ := h
    subst hbk
    rw [arrived_Modify, arrived_Modify]
    cases hw : r.m_Way with
    | BUY =>
      have hA : Filled c.m_AskOrders res.book.m_AskOrders :=
        (Modify_preserves _ _ _ _ (trivial_closed .greater) (filled_closed .less c.m_AskOrders)
          fuel clock c r Match res
          (fun q _ => ⟨fun _ => trivial, fun hs => by rw [hw] at hs; exact absurd hs (by decide)⟩)
          trivial (Filled_refl _) hres).2
      have ho := Modify_own fuel clock c r Match res hres
      rw [hw] at ho
      refine ⟨?_, ?_⟩
      · rcases ho with ⟨hdup, ho⟩ | ho | ⟨h1, h2, _, h3⟩
        · apply own_step .greater c.m_BidOrders c.m_BidOrders res.book.m_BidOrders _ _
            (Filled_refl _) (fun hc => absurd hdup hc.1)
          exact Or.inl ho
        · apply own_step .greater c.m_BidOrders _ res.book.m_BidOrders _ _
            (Filled_of_sublist (eraseKey_sublist
              (OrderIDGenerator r.m_ClientID r.m_ExistingOrderID) c.m_BidOrders))
            (fun hc => hc.2.2)
          exact Or.inl ho
        · apply own_step .greater c.m_BidOrders _ res.book.m_BidOrders _ _
            (Filled_of_sublist (eraseKey_sublist
              (OrderIDGenerator r.m_ClientID r.m_ExistingOrderID) c.m_BidOrders))
            (fun hc => hc.2.2)
          exact Or.inr ⟨⟨h1, rfl, h2⟩,
            (⟨.BUY, res.msg.m_Qty, r.m_Price, r.m_ReplacedOrderID, r.m_ClientID⟩ : Order),
            rfl, h3⟩
      · simp only [show ¬ (OrderWay.BUY = OrderWay.SELL) by decide, false_and, and_false,
          if_false]
        exact SideStep_none _ hA
    | SELL =>
      have hB : Filled c.m_BidOrders res.book.m_BidOrders :=
        (Modify_preserves _ _ _ _ (filled_closed .greater c.m_BidOrders) (trivial_closed .less)
          fuel clock c r Match res
          (fun q _ => ⟨fun hs => by rw [hw] at hs; exact absurd hs (by decide), fun _ => trivial⟩)
          (Filled_refl _) trivial hres).1
      have ho := Modify_own fuel clock c r Match res hres
      rw [hw] at ho
      refine ⟨?_, ?_⟩
      · simp only [show ¬ (OrderWay.SELL = OrderWay.BUY) by decide, false_and, and_false,
          if_false]
        exact SideStep_none _ hB
      · rcases ho with ⟨hdup, ho⟩ | ho | ⟨h1, h2, _, h3⟩
        · apply own_step .less c.m_AskOrders c.m_AskOrders res.book.m_AskOrders _ _
            (Filled_refl _) (fun hc => absurd hdup hc.1)
          exact Or.inl ho
        · apply own_step .less c.m_AskOrders _ res.book.m_AskOrders _ _
            (Filled_of_sublist (eraseKey_sublist
              (OrderIDGenerator r.m_ClientID r.m_ExistingOrderID) c.m_AskOrders))
            (fun hc => hc.2.2)
          exact Or.inl ho
        · apply own_step .less c.m_AskOrders _ res.book.m_AskOrders _ _
            (Filled_of_sublist (eraseKey_sublist
              (OrderIDGenerator r.m_ClientID r.m_ExistingOrderID) c.m_AskOrders))
            (fun hc => hc.2.2)
          exact Or.inr ⟨⟨h1, rfl, h2⟩,
            (⟨.SELL, res.msg.m_Qty, r.m_Price, r.m_ReplacedOrderID, r.m_ClientID⟩ : Order),
            rfl, h3⟩
    | MAX_WAY =>
      have hf := hnone (inserts_none _ (by
        show r.m_Way ≠ .BUY ∧ r.m_Way ≠ .SELL
        rw [hw]; exact ⟨by decide, by decide⟩))
      simp only [show ¬ (OrderWay.MAX_WAY = OrderWay.BUY) by decide,
        show ¬ (OrderWay.MAX_WAY = OrderWay.SELL) by decide, false_and, and_false, if_false]
      exact ⟨SideStep_none _ hf.1, SideStep_none _ hf.2⟩

theorem comp_irrefl (sp : SortingPredicate) (a : Nat) : sp.comp a a = false := by
  cases sp <;> simp [SortingPredicate.comp]

/-- A step of a side keeps it in price-priority order and, within a price, in the order
of the arrival numbers, once the order put to rest is given the number `n` of the call,
larger than the numbers given before. -/
theorem SideStep_timed (sp : SortingPredicate) (arrival : Option Order)
    (before after : List Order) (arr : OrderKey → Nat) (n : Nat)
    (h : SideStep sp arrival before after) (hs : PriceSorted sp before)
    (ht : TimeSorted arr before) (hb : ∀ x ∈ before, arr x.key < n) :
    PriceSorted sp after ∧
    TimeSorted (fun k => if arrival.map Order.key = some k then n else arr k) after ∧
    ∀ x ∈ after, (if arrival.map Order.key = some x.key then n else arr x.key) < n + 1 := by
  obtain ⟨kept, hF, hm⟩ := h
  have hsk : PriceSorted sp kept := Filled_pairwise _ (fun _ _ _ _ h => h) hF hs
  have htk : TimeSorted arr kept := Filled_pairwise _ (fun _ _ _ _ h => h) hF ht
  have hbk : ∀ x ∈ kept, arr x.key < n := by
    intro x hx
    obtain ⟨y, hy, q, _, he⟩ := Filled_mem hF x hx
    rw [he]
    exact hb y hy
  cases arrival with
  | none =>
    simp only [] at hm
    subst hm
    simp only [Option.map_none', reduceCtorEq, if_false]
    exact ⟨hsk, htk, fun x hx => Nat.lt_succ_of_lt (hbk x hx)⟩
  | some o =>
    simp only [] at hm
    obtain ⟨hf, hafter⟩ := hm
    have hne : ∀ x ∈ kept, x.key ≠ o.key := (findKey_eq_none _ _).mp hf
    simp only [Option.map_some', Option.some.injEq]
    have harr : ∀ x ∈ kept, (if o.key = x.key then n else arr x.key) = arr x.key := by
      intro x hx
      simp only [Ne.symm (hne x hx), if_false]
    obtain ⟨l1, l2, hl, hins, h1, h2⟩ := priceInsert_split sp o kept
    have h2s := h2 hsk
    refine ⟨?_, ?_, ?_⟩
    · rw [hafter]; exact priceInsert_sorted sp o kept hsk
    · have hold : kept.Pairwise
          (fun a b => a.m_Price = b.m_Price →
            (if o.key = a.key then n else arr a.key) < (if o.key = b.key then n else arr b.key)) := by
        refine List.Pairwise.imp_of_mem ?_ htk
        intro a b ha hb2 hab hp
        rw [harr a ha, harr b hb2]
        exact hab hp
      unfold TimeSorted
      rw [hafter, hins]
      rw [hl] at hold
      rw [List.pairwise_append] at hold ⊢
      obtain ⟨p1, p2, p12⟩ := hold
      refine ⟨p1, ?_, ?_⟩
      · rw [List.pairwise_cons]
        refine ⟨?_, p2⟩
        intro y hy hp
        have := h2s y hy
        rw [hp, comp_irrefl] at this
        exact absurd this (by decide)
      · intro a ha b hb2 hp
        rcases List.mem_cons.mp hb2 with hbo | hb2
        · have hak : a ∈ kept := by rw [hl]; exact List.mem_append_left _ ha
          show (if o.key = a.key then n else arr a.key) < (if o.key = b.key then n else arr b.key)
          rw [harr a hak, hbo]
          simp only [if_true]
          exact hbk a hak
        · exact p12 a ha b hb2 hp
    · intro x hx
      rw [hafter] at hx
      rcases (mem_priceInsert sp o x kept).mp hx with rfl | hx
      · simp
      · rw [harr x hx]
        exact Nat.lt_succ_of_lt (hbk x hx)

/-- The invariant of the record of arrivals. -/
theorem History_inv {ord : IterationOrder} (t : Timeline) (h : History ord t) :
    PriceSorted .greater t.book.m_BidOrders ∧ PriceSorted .less t.book.m_AskOrders ∧
    TimeSorted t.bidArrival t.book.m_BidOrders ∧ TimeSorted t.askArrival t.book.m_AskOrders ∧
    (∀ x ∈ t.book.m_BidOrders, t.bidArrival x.key < t.calls) ∧
    (∀ x ∈ t.book.m_AskOrders, t.askArrival x.key < t.calls) := by
  induction h with
  | start =>
    refine ⟨List.Pairwise.nil, List.Pairwise.nil, List.Pairwise.nil, List.Pairwise.nil, ?_, ?_⟩
    · intro x hx; simp [Timeline.start, OrderContainer.empty] at hx
    · intro x hx; simp [Timeline.start, OrderContainer.empty] at hx
  | @call t0 fuel clock op c1 _ hstep ih =>
    obtain ⟨hsB, hsA, htB, htA, hbB, hbA⟩ := ih
    obtain ⟨hB, hA⟩ := apply_sides fuel clock t0.book op c1 hstep
    obtain ⟨b1, b2, b3⟩ := SideStep_timed _ _ _ _ _ _ hB hsB htB hbB
    obtain ⟨a1, a2, a3⟩ := SideStep_timed _ _ _ _ _ _ hA hsA htA hbA
    exact ⟨b1, a1, b2, a2, b3, a3⟩

/-- Every record is the record of a sequence of calls reaching its container. -/
theorem History_reaches {ord : IterationOrder} (t : Timeline) (h : History ord t) :
    Reaches ord OrderContainer.empty t.book := by
  induction h with
  | start => exact Reaches.refl _
  | call fuel clock op c1 _ hstep ih => exact Reaches.step fuel clock op ih hstep

/-- Every container reached from the empty one has a record. -/
theorem Reaches_history {ord : IterationOrder} (c0 c : OrderContainer)
    (h : Reaches ord c0 c) (h0 : c0 = OrderContainer.empty) :
    ∃ t, History ord t ∧ t.book = c := by
  induction h with
  | refl => exact ⟨Timeline.start, History.start, h0.symm⟩
  | step fuel clock op _ hstep ih =>
    obtain ⟨t, ht, hb⟩ := ih
    subst hb
    exact ⟨t.record op _, History.call fuel clock op _ ht hstep, rfl⟩

/-- C18: in every state reached from the empty container by calls of `Insert`,
`Modify`, `Delete`, `CancelAllOrders` and `MatchOrders` the bid side has non-increasing
and the ask side non-decreasing prices.  Every such state has a record of arrivals, and
for every record of calls leading to it: of two resting orders of equal price on a side
the one that stands first was put to rest by the earlier call; and a further call only
fills each side (orders are removed, quantities are lowered in place: an order partly
filled keeps its place) and inserts the order it puts to rest, if any, behind the
orders that it does not strictly precede. -/
theorem C18_ordering_invariant (ord : IterationOrder) (c : OrderContainer)
    (h : Reaches ord OrderContainer.empty c) :
    (PriceSorted .greater c.m_BidOrders ∧ PriceSorted .less c.m_AskOrders) ∧
    (∃ t, History ord t ∧ t.book = c) ∧
    ∀ t, History ord t → t.book = c →
      c.m_BidOrders.Pairwise
        (fun a b => a.m_Price = b.m_Price → t.bidArrival a.key < t.bidArrival b.key) ∧
      c.m_AskOrders.Pairwise
        (fun a b => a.m_Price = b.m_Price → t.askArrival a.key < t.askArrival b.key) ∧
      ∀ (fuel : Nat) (clock : Nat → Nat) (op : Op) (c1 : OrderContainer),
        c.apply ord fuel clock op = some c1 →
        SideStep .greater (op.arrived c c1 .BUY) c.m_BidOrders c1.m_BidOrders ∧
        SideStep .less (op.arrived c c1 .SELL) c.m_AskOrders c1.m_AskOrders := by
  refine ⟨Reaches_sorted _ _ h List.Pairwise.nil List.Pairwise.nil,
    Reaches_history _ _ h rfl, ?_⟩
  intro t ht hb
  subst hb
  have hi := History_inv t ht
  exact ⟨hi.2.2.1, hi.2.2.2.1, fun fuel clock op c1 hstep => apply_sides fuel clock _ op c1 hstep⟩

/-- C18 (witness): the book reached by inserting bids 5 and 7 at 150 and replacing bid 5
by bid 6: bid 7 (put to rest by call 1) stands before bid 6 (put to rest by call 2, the
replacement); a SELL of 30 at 150 then fills bid 7 in part, which keeps its place. -/
theorem C18_ordering_invariant_witness :
    History priceIteration timelineTwoBids ∧ timelineTwoBids.book = bookTwoBids ∧
    timelineTwoBids.bidArrival (1, 7) = 1 ∧ timelineTwoBids.bidArrival (1, 6) = 2 ∧
    (PriceSorted .greater bookTwoBids.m_BidOrders ∧ PriceSorted .less bookTwoBids.m_AskOrders) ∧
    bookTwoBids.m_BidOrders.Pairwise
      (fun a b => a.m_Price = b.m_Price →
        timelineTwoBids.bidArrival a.key < timelineTwoBids.bidArrival b.key) ∧
    bookTwoBids.apply priceIteration 2 clock0 (.Insert ⟨.SELL, 30, 150, 8, 2⟩ true)
      = some ⟨[⟨.BUY, 70, 150, 7, 1⟩, ⟨.BUY, 100, 150, 6, 1⟩], [], [(2, 8), (1, 7), (1, 5)]⟩ ∧
    SideStep .greater none bookTwoBids.m_BidOrders
      [⟨.BUY, 70, 150, 7, 1⟩, ⟨.BUY, 100, 150, 6, 1⟩] := by
  have hH : History priceIteration timelineTwoBids :=
    History.call 0 clock0 (.Modify ⟨.BUY, 100, 150, 5, 6, 1⟩ false) bookTwoBids
      (History.call 0 clock0 (.Insert ⟨.BUY, 100, 150, 7, 1⟩ false) _
        (History.call 0 clock0 (.Insert ⟨.BUY, 100, 150, 5, 1⟩ false) bookOneBid
          History.start rfl) rfl) rfl
  have h := C18_ordering_invariant priceIteration bookTwoBids (History_reaches _ hH)
  have h2 := h.2.2 timelineTwoBids hH rfl
  exact ⟨hH, rfl, rfl, rfl, h.1, h2.1, rfl,
    (h2.2.2 2 clock0 (.Insert ⟨.SELL, 30, 150, 8, 2⟩ true) _ rfl).1⟩

end exchange.engine
